import Mathlib

/-!
# pullcsv: exclude-list store, path/token resolver, naming deriver, retention sweeper

A shallow embedding of `internal/helpers/helpers.go` and of the sync job of
`internal/pullcsv/pullcsv.go`.

Go strings are modelled by `String`; every operation works on the character
list `String.data`.  For well-formed UTF-8 the byte-wise order used by Go's
`<` on strings is the code-point order used here.

The file system is modelled by what the code reads from it: a text file is the
list of its lines (each line is written with a terminating newline), a
directory walk is the list of the non-directory paths it visits.

The regular expressions of the program are written out as matchers with Go's
leftmost-first semantics: an unanchored search takes the leftmost position with
a match, and a greedy `.+` takes the longest text without newline after which
the rest of the pattern matches.
-/

namespace Pullcsv

/-! ## Go standard library: `strings`, `path/filepath`, `sort` -/

/-- Go `strings.Contains` on character lists: `substr` occurs in the list at some offset. -/
def containsChars (substr : List Char) : List Char → Bool
  | [] => substr.isEmpty
  | c :: cs => substr.isPrefixOf (c :: cs) || containsChars substr cs

/-- Go `strings.Contains(s, substr)`. -/
def Contains (s substr : String) : Bool :=
  containsChars substr.data s.data

/-- Go `strings.ReplaceAll` on character lists for a non-empty `old`: scan from
the left; at an occurrence of `old` emit `new` and skip the `old.length`
characters of the occurrence (the counter is the number of characters still to
skip), otherwise copy one character. -/
def replaceAllChars (old new : List Char) : Nat → List Char → List Char
  | _, [] => []
  | k + 1, _ :: cs => replaceAllChars old new k cs
  | 0, c :: cs =>
    if old.isPrefixOf (c :: cs) then new ++ replaceAllChars old new (old.length - 1) cs
    else c :: replaceAllChars old new 0 cs

/-- Go `strings.ReplaceAll(s, old, new)`; every caller passes a non-empty `old`. -/
def ReplaceAll (s old new : String) : String :=
  ⟨replaceAllChars old.data new.data 0 s.data⟩

/-- The loop of `filepath.Base` that strips trailing path separators. -/
def stripTrailingSlashes (path : List Char) : List Char :=
  (path.reverse.dropWhile (fun c => c == '/')).reverse

/-- The loop of `filepath.Base` that finds the last path element. -/
def lastElement (path : List Char) : List Char :=
  (path.reverse.takeWhile (fun c => c != '/')).reverse

/-- Go `filepath.Base` on Unix (no volume name). -/
def Base (path : String) : String :=
  if path.data = [] then "."
  else
    let e := lastElement (stripTrailingSlashes path.data)
    if e = [] then "/" else ⟨e⟩

/-- Go `a <= b` on strings. -/
def stringLE (a b : String) : Prop := a.data ≤ b.data

instance stringLE.decidable : DecidableRel stringLE :=
  fun a b => inferInstanceAs (Decidable (a.data ≤ b.data))

instance stringLE.isTotal : IsTotal String stringLE :=
  ⟨fun a b => le_total a.data b.data⟩

instance stringLE.isTrans : IsTrans String stringLE :=
  ⟨fun a b c hab hbc =>
    show a.data ≤ c.data from
      le_trans (show a.data ≤ b.data from hab) (show b.data ≤ c.data from hbc)⟩

/-- Go `sort.Strings`: the ascending rearrangement of the slice. -/
def sortStrings (l : List String) : List String :=
  l.insertionSort stringLE

/-! ## Go standard library: `time`

A `Time` is the wall clock reading of an instant in one location with a
constant offset from UTC (the job reads `time.Now()` in the local zone of the
container): proleptic Gregorian date and time of day. -/

/-- Go `time.Time` in a fixed location, by its calendar fields. -/
structure Time where
  year : Int
  month : Int
  day : Int
  hour : Int
  min : Int
  sec : Int
  nsec : Int
  deriving DecidableEq

/-- A calendar date: year, month, day. -/
abbrev CivilDate := Int × Int × Int

/-- Go `isLeap`. -/
def isLeap (year : Int) : Bool :=
  year % 4 == 0 && (year % 100 != 0 || year % 400 == 0)

/-- Number of days of a month (1 to 12) of a year. -/
def daysIn (year month : Int) : Int :=
  if month = 2 then (if isLeap year then 29 else 28)
  else if month = 4 ∨ month = 6 ∨ month = 9 ∨ month = 11 then 30
  else 31

/-- The normalisation that `time.Date` applies to a day outside the range of
its month (the month is already in 1 to 12): day 0 is the last day of the
month before, October 32 is November 1.  One round moves by one month. -/
def normalizeDay : Nat → Int → Int → Int → CivilDate
  | 0, year, month, day => (year, month, day)
  | rounds + 1, year, month, day =>
    if day < 1 then
      let year1 := if month = 1 then year - 1 else year
      let month1 := if month = 1 then 12 else month - 1
      normalizeDay rounds year1 month1 (day + daysIn year1 month1)
    else if day > daysIn year month then
      let year1 := if month = 12 then year + 1 else year
      let month1 := if month = 12 then 1 else month + 1
      normalizeDay rounds year1 month1 (day - daysIn year month)
    else (year, month, day)

/-- Go `time.Date(year, month, day, hour, min, sec, nsec, loc)`: values outside
their usual ranges are normalised, month into year, then nanoseconds, seconds,
minutes and hours upwards into the day, then the day into month and year. -/
def Date (year month day hour min sec nsec : Int) : Time :=
  let m0 := month - 1
  let year1 := year + m0 / 12
  let month1 := m0 % 12 + 1
  let sec1 := sec + nsec / 1000000000
  let nsec1 := nsec % 1000000000
  let min1 := min + sec1 / 60
  let sec2 := sec1 % 60
  let hour1 := hour + min1 / 60
  let min2 := min1 % 60
  let day1 := day + hour1 / 24
  let hour2 := hour1 % 24
  let ymd := normalizeDay (day1.natAbs + 1) year1 month1 day1
  { year := ymd.1, month := ymd.2.1, day := ymd.2.2,
    hour := hour2, min := min2, sec := sec2, nsec := nsec1 }

/-- Go `t.Date()`. -/
def Time.Date (t : Time) : CivilDate := (t.year, t.month, t.day)

/-- Go `t.AddDate(years, months, days)`: the fields are added and the result is
normalised by `Date`. -/
def Time.AddDate (t : Time) (years months days : Int) : Time :=
  Pullcsv.Date (t.year + years) (t.month + months) (t.day + days) t.hour t.min t.sec t.nsec

/-- Lexicographic comparison of two field lists: -1, 0 or +1. -/
def compareFields : List Int → List Int → Int
  | a :: as, b :: bs => if a < b then -1 else if b < a then 1 else compareFields as bs
  | _, _ => 0

/-- Go `t.Compare(u)` for two times of the same location: -1 if `t` is before
`u`, 0 if they are the same instant, +1 if `t` is after `u`. -/
def Time.Compare (t u : Time) : Int :=
  compareFields [t.year, t.month, t.day, t.hour, t.min, t.sec, t.nsec]
    [u.year, u.month, u.day, u.hour, u.min, u.sec, u.nsec]

/-- Go `appendInt` of package `time`: decimal digits, zero-padded to `width`,
after a minus sign for a negative number. -/
def appendInt (x : Int) (width : Nat) : List Char :=
  let digits := Nat.toDigits 10 x.natAbs
  (if x < 0 then ['-'] else []) ++ List.replicate (width - digits.length) '0' ++ digits

/-- The layout `"20060102"` applied to a calendar date. -/
def formatCompact (d : CivilDate) : String :=
  ⟨appendInt d.1 4 ++ appendInt d.2.1 2 ++ appendInt d.2.2 2⟩

/-- The layout `"2006-01-02"` applied to a calendar date. -/
def formatDashed (d : CivilDate) : String :=
  ⟨appendInt d.1 4 ++ ['-'] ++ appendInt d.2.1 2 ++ ['-'] ++ appendInt d.2.2 2⟩

/-- Go `t.Format(layout)` for the two layouts the program uses; any other
layout is outside the model and is returned as it is. -/
def Time.Format (t : Time) (layout : String) : String :=
  if layout = "20060102" then formatCompact t.Date
  else if layout = "2006-01-02" then formatDashed t.Date
  else layout

/-! ## Path/token resolver -/

/-- Go function `EnvReplacement(s)`, with the reading `now` of `time.Now()` as a parameter. -/
def EnvReplacement (now : Time) (s : String) : String :=
  let yesterdayNofmt := now.AddDate 0 0 (-1)
  let (yyyy, mm, dd) := now.Date
  let timeBeforeTodayIsYesterday := Date yyyy mm dd 0 11 0 0
  let now1 := if now.Compare timeBeforeTodayIsYesterday < 0 then yesterdayNofmt else now
  if Contains s "_YESTERDAY_" then
    ReplaceAll s "_YESTERDAY_" (yesterdayNofmt.Format "20060102")
  else if Contains s "_YES-TER-DAY_" then
    ReplaceAll s "_YES-TER-DAY_" (yesterdayNofmt.Format "2006-01-02")
  else if Contains s "_TODAY_" then
    ReplaceAll s "_TODAY_" (now1.Format "20060102")
  else if Contains s "_TO-DAY_" then
    ReplaceAll s "_TO-DAY_" (now1.Format "2006-01-02")
  else s

/-! ## Exclude-list store -/

/-- The loop of `SaveExcludeFile` over `listingpp`: a listed name no line of the
previous snapshot equals is appended to the result. -/
def appendUnlisted (fileExFN : List String) : List String → List String → List String
  | resultToFile, [] => resultToFile
  | resultToFile, val1 :: rest =>
    if fileExFN.any (fun val2 => Base val1 == val2) then appendUnlisted fileExFN resultToFile rest
    else appendUnlisted fileExFN (resultToFile ++ [val1]) rest

/-- Go function `SaveExcludeFile(pp, fileName)`.  `fileName` is the content of the previous
snapshot file as its list of lines (`none` when it cannot be opened or
scanned); `pp` is the list of non-directory paths that `filepath.Walk(pp, ...)`
visits (`none` when the walk fails). -/
def SaveExcludeFile (pp fileName : Option (List String)) : Option (List String) :=
  match fileName with
  | none => none
  | some fileExFN =>
    match pp with
    | none => none
    | some walked =>
      let listingpp := walked.map Base
      let lenListingpp := listingpp.length
      let lenFileExFN := fileExFN.length
      let resultToFile :=
        if lenListingpp > 0 ∧ lenFileExFN > 0 then appendUnlisted fileExFN fileExFN listingpp
        else if lenListingpp > 0 ∧ lenFileExFN = 0 then listingpp
        else fileExFN
      some (sortStrings resultToFile)

/-- Size in bytes of the file `script.Slice(lines).WriteFile` writes: every line
followed by a newline. -/
def serializedSize (lines : List String) : Nat :=
  (lines.map (fun l => l.utf8ByteSize + 1)).sum

/-- The pipe stage `Last(n)` of `github.com/bitfield/script`: the last `n` lines,
nothing for `n <= 0`. -/
def Last (n : Int) (lines : List String) : List String :=
  if n ≤ 0 then [] else lines.drop (lines.length - n.toNat)

/-- Go function `TruncateExcludeFile(fileName, i, truncateLines, fileSize)` as a function of
the lines of the file (`none`: the file does not exist, `os.Stat` fails and the
error is returned); the result is the lines of the file afterwards.  The index
`i` only names the temporary file. -/
def TruncateExcludeFile (fileName : Option (List String)) (truncateLines : Int)
    (fileSize : Int) : Option (List String) :=
  match fileName with
  | none => none
  | some lines =>
    if (serializedSize lines : Int) > fileSize then some (Last truncateLines lines)
    else some lines

/-! ## Archive post-processor and sync job -/

/-- What an entry of the file system is: a directory, or a regular file with
what `filetype.Match` and the extraction see in it, which is a zip archive with
the names of its file members, a gzip stream with the name in its header, or
anything else. -/
inductive Payload where
  | plain
  | zip (members : List String)
  | gzip (name : String)
  | dir
  deriving DecidableEq

/-- An entry of the modelled file system, with its absolute path.  A directory
is also there when an entry lies inside it. -/
structure DestFile where
  path : String
  payload : Payload
  deriving DecidableEq

/-- Whether `path` is a directory of the file system: it is entered as one, or
an entry lies inside it. -/
def isDirIn (fs : List DestFile) (path : String) : Bool :=
  fs.any (fun f => (f.path == path && decide (f.payload = Payload.dir)) ||
    (path.data ++ ['/']).isPrefixOf f.path.data)

/-- Go `filepath.Dir` on Unix for a path whose directory part `filepath.Clean`
only strips of its trailing separators (no `.` or `..` element, no doubled
separator inside). -/
def Dir (path : String) : String :=
  let upto := (path.data.reverse.dropWhile (fun c => c != '/')).reverse
  if upto = [] then "."
  else
    let d := stripTrailingSlashes upto
    if d = [] then "/" else ⟨d⟩

/-- Go function `Move(sourcePath, destPath)` between the temporary directory
`src` and the destination `dst`, which do not overlap; the paths are absolute.
When `sourcePath` is not there `os.Open` fails and nothing changes.  A regular
file is copied to `tmp_<name>` beside `destPath`, which is then renamed to
`destPath`, and the source is removed; `os.Create` fails when `tmp_<name>` is a
directory and `os.Rename` fails when `destPath` is one.  When `sourcePath` is a
directory `io.Copy` fails: the empty `tmp_<name>` stays and `os.Remove` takes
`destPath` away unless it is a directory with entries.  The error that `Move`
returns is only logged by the callers and is left out. -/
def Move (sourcePath destPath : String) (src dst : List DestFile) :
    List DestFile × List DestFile :=
  if sourcePath = destPath then (src, dst)
  else
    let tmpDstFileName := Dir destPath ++ "/tmp_" ++ Base destPath
    match src.find? (fun f => f.path == sourcePath && decide (f.payload ≠ Payload.dir)) with
    | some inputFile =>
      if isDirIn dst tmpDstFileName then (src, dst)
      else if isDirIn dst destPath then
        (src, ⟨tmpDstFileName, inputFile.payload⟩ ::
          dst.filter (fun g => g.path != tmpDstFileName))
      else
        (src.filter (fun g => g.path != sourcePath),
          ⟨destPath, inputFile.payload⟩ ::
            dst.filter (fun g => g.path != tmpDstFileName && g.path != destPath))
    | none =>
      if isDirIn src sourcePath then
        if isDirIn dst tmpDstFileName then (src, dst)
        else
          let inUse := dst.any (fun g => (destPath.data ++ ['/']).isPrefixOf g.path.data)
          (src, ⟨tmpDstFileName, Payload.plain⟩ ::
            dst.filter (fun g => g.path != tmpDstFileName && (inUse || g.path != destPath)))
      else (src, dst)

/-- Go function `LogEveryFileAndMoveIt(dTo, p)`: `tmpDir` are the entries of the
temporary directory `p` in the order `filepath.WalkDir` visits them, `dest` the
entries of the destination; `p` is written without a final separator, as
`os.MkdirTemp` returns it.  For an entry that is no directory the file
`p + "/" + fName`, with `fName` the name of the entry, is moved to
`dTo + fName`.  The result is the temporary directory and the destination
afterwards.  It is `none` when the walk visits an entry that is no longer
there (a file of the same name in a subdirectory was visited before and the
entry was moved in its place): `di.Info()` then returns an error and no
`FileInfo`, and the call `diInfoGet.IsDir()` panics. -/
def LogEveryFileAndMoveIt (dTo p : String) (tmpDir dest : List DestFile) :
    Option (List DestFile × List DestFile) :=
  tmpDir.foldl (fun st di =>
    match st with
    | none => none
    | some (tmp, d) =>
      if tmp.any (fun g => g.path == di.path) then
        if di.payload = Payload.dir then some (tmp, d)
        else
          let fName := Base di.path
          let fFullName := p ++ "/" ++ fName
          some (Move fFullName (dTo ++ fName) tmp d)
      else none) (some (tmpDir, dest))

/-- Library function `script.ListFiles(p)` for a directory `p`, written with its
final separator and without pattern characters: the entries of `os.ReadDir`,
files and directories directly in `p`, sorted by name, each joined to `p`. -/
def ListFiles (p : String) (dest : List DestFile) : List String :=
  sortStrings (((dest.filter (fun f =>
    p.data.isPrefixOf f.path.data && !(f.path.data.drop p.data.length).isEmpty)).map
    (fun f => p ++ String.mk ((f.path.data.drop p.data.length).takeWhile
      (fun c => c != '/')))).dedup)

/-- Go function `UnarchiveFile(fileName, destination)`: the files it writes into
`destination`, or the error. -/
def UnarchiveFile (fileName : String) (destination : String) (dest : List DestFile) :
    Except String (List DestFile) :=
  match dest.find? (fun f => f.path == fileName) with
  | none =>
    if isDirIn dest fileName then .error ("read " ++ fileName ++ ": is a directory")
    else .error ("open " ++ fileName ++ ": no such file or directory")
  | some f =>
    match f.payload with
    | .zip members => .ok (members.map (fun m => ⟨destination ++ m, .plain⟩))
    | .gzip name => .ok [⟨destination ++ name, .plain⟩]
    | .plain => .error ("Unknown file type " ++ fileName)
    | .dir => .error ("read " ++ fileName ++ ": is a directory")

/-- The unanchored regular expression `(.*zip|.*gz|.*gzip)` of `WorkWithArchives`. -/
def archiveNameMatch (path : String) : Bool :=
  Contains path "zip" || Contains path "gz" || Contains path "gzip"

/-- Go function `WorkWithArchives(p)`: every entry listed at the start whose path matches is
unarchived into `p`; after a successful extraction the archive is removed, after
a failed one `wwaerr` is set.  The result is the directory afterwards and
`wwaerr`. -/
def WorkWithArchives (p : String) (dest : List DestFile) : List DestFile × Option String :=
  (ListFiles p dest).foldl (fun (st : List DestFile × Option String) fArhive =>
    if archiveNameMatch fArhive then
      match UnarchiveFile fArhive p st.1 with
      | .ok written =>
        let extracted :=
          written ++ st.1.filter (fun g => !(written.any (fun w => w.path == g.path)))
        (extracted.filter (fun g => g.path != fArhive), st.2)
      | .error err =>
        (st.1, some ("Something was wrong with unarchive the file " ++ fArhive
            ++ ", the error: " ++ err))
    else st) (dest, none)

/-- The paths that the walk of `SaveExcludeFile` over the destination keeps:
those of the entries that are no directories. -/
def walkedFiles (dest : List DestFile) : List String :=
  (dest.filter (fun f => decide (f.payload ≠ Payload.dir))).map (fun f => f.path)

/-- The body of the sync job of `Pullcsv` after the temporary directory `p` is
made and the payload is pulled: `exFN` are the lines of the local exclude file
(`none`: the file is not there, neither pulled nor created), `rsyncExitCode`
the exit code of the payload pull, `tmpDir` what the pull delivered, `dest`
the entries of the destination directory `dTo`, which exists and is not the
parent of `p`.  The result is the destination afterwards, the
local exclude file afterwards and the list pushed to the remote side, if any;
it is `none` when the move of the files panics. -/
def syncJob (dTo p : String) (exFN : Option (List String)) (rsyncExitCode : Int)
    (tmpDir dest : List DestFile) :
    Option (List DestFile × Option (List String) × Option (List String)) :=
  if rsyncExitCode ≠ 0 then some (dest, exFN, none)
  else
    match LogEveryFileAndMoveIt dTo p tmpDir dest with
    | none => none
    | some (_, dest1) =>
      let dest2 := (WorkWithArchives dTo dest1).1
      match SaveExcludeFile (some (walkedFiles dest2)) exFN with
      | none => some (dest2, exFN, none)
      | some saveToExFN =>
        match TruncateExcludeFile (some saveToExFN) 20000 9437184 with
        | none => some (dest2, some saveToExFN, some saveToExFN)
        | some lines => some (dest2, some lines, some lines)

/-! ## Specification-side notions -/

/-- The range of the fields of a `Time` that `time.Now()` returns. -/
def Time.Valid (t : Time) : Prop :=
  1 ≤ t.month ∧ t.month ≤ 12 ∧ 1 ≤ t.day ∧ t.day ≤ daysIn t.year t.month ∧
  0 ≤ t.hour ∧ t.hour < 24 ∧ 0 ≤ t.min ∧ t.min < 60 ∧ 0 ≤ t.sec ∧ t.sec < 60 ∧
  0 ≤ t.nsec ∧ t.nsec < 1000000000

instance Time.Valid.decidable (t : Time) : Decidable t.Valid := by
  unfold Time.Valid; infer_instance

/-- The calendar day before a date. -/
def previousDay (d : CivilDate) : CivilDate :=
  if 1 < d.2.2 then (d.1, d.2.1, d.2.2 - 1)
  else if 1 < d.2.1 then (d.1, d.2.1 - 1, daysIn d.1 (d.2.1 - 1))
  else (d.1 - 1, 12, 31)

/-- The time of day is strictly earlier than 00:11:00, in nanoseconds. -/
def beforeCutover (t : Time) : Prop :=
  ((t.hour * 60 + t.min) * 60 + t.sec) * 1000000000 + t.nsec < 11 * 60 * 1000000000

instance beforeCutover.decidable (t : Time) : Decidable (beforeCutover t) := by
  unfold beforeCutover; infer_instance

/-- The cutover rule of the specification: the current date, shifted back by one
calendar day before 00:11. -/
def cutoverDate (t : Time) : CivilDate :=
  if beforeCutover t then previousDay t.Date else t.Date

/-- The four token kinds of the specification, in priority order. -/
inductive TokenKind where
  | yesterday
  | yesTerDay
  | today
  | toDay
  deriving DecidableEq

/-- The token text of a kind. -/
def TokenKind.token : TokenKind → String
  | .yesterday => "_YESTERDAY_"
  | .yesTerDay => "_YES-TER-DAY_"
  | .today => "_TODAY_"
  | .toDay => "_TO-DAY_"

/-- Rank of a kind in the priority order, 0 first. -/
def TokenKind.rank : TokenKind → Nat
  | .yesterday => 0
  | .yesTerDay => 1
  | .today => 2
  | .toDay => 3

/-- The date text the specification gives a kind at clock reading `now`. -/
def TokenKind.value (now : Time) : TokenKind → String
  | .yesterday => formatCompact (previousDay now.Date)
  | .yesTerDay => formatDashed (previousDay now.Date)
  | .today => formatCompact (cutoverDate now)
  | .toDay => formatDashed (cutoverDate now)

/-- The template `seg₀ tok seg₁ tok ... segₙ₋₁ tok last`. -/
def interleave (tok : String) (last : String) : List String → String
  | [] => last
  | seg :: rest => seg ++ tok ++ interleave tok last rest

/-- The token without its final character. -/
def dropLastChar (tok : String) : String := ⟨tok.data.dropLast⟩

/-! ## Configuration-time duplication -/

/-- How a run of the loop of `DuplicateEnvs` ends: it returns with the two
slices, it indexes a slice out of range (a Go panic), or the model stops it
because the rounds allotted to it are used up. -/
inductive Outcome where
  | returned (dFrom dTo : List String)
  | indexOutOfRange
  | outOfFuel
  deriving DecidableEq

/-- One `if` of the loop body of `DuplicateEnvs` at index `i`: when
`(*dFrom)[i]` contains `tok`, its variant is appended to `*dFrom` and
`(*dTo)[i]` to `*dTo`.  It is `none` when an index is out of range. -/
def appendVariant (tok new : String) (i : Nat) (dFrom dTo : List String) :
    Option (List String × List String) :=
  match dFrom[i]? with
  | none => none
  | some src =>
    if Contains src tok then
      match dTo[i]? with
      | none => none
      | some d => some (dFrom ++ [ReplaceAll src tok new], dTo ++ [d])
    else some (dFrom, dTo)

/-- The loop `for i := 0; i < len(*dFrom); i++` of `DuplicateEnvs` from index
`i` on; the bound is read again in every round.  The first argument is the
number of rounds the model allows. -/
def DuplicateEnvsLoop : Nat → Nat → List String → List String → Outcome
  | 0, _, _, _ => .outOfFuel
  | fuel + 1, i, dFrom, dTo =>
    if i < dFrom.length then
      match appendVariant "_TODAY_" "_TO-DAY_" i dFrom dTo with
      | none => .indexOutOfRange
      | some (dFrom1, dTo1) =>
        match appendVariant "_YESTERDAY_" "_YES-TER-DAY_" i dFrom1 dTo1 with
        | none => .indexOutOfRange
        | some (dFrom2, dTo2) => DuplicateEnvsLoop fuel (i + 1) dFrom2 dTo2
    else .returned dFrom dTo

/-- Go function `DuplicateEnvs(dFrom, dTo)`, run for at most `fuel` rounds of
its loop. -/
def DuplicateEnvs (fuel : Nat) (dFrom dTo : List String) : Outcome :=
  DuplicateEnvsLoop fuel 0 dFrom dTo

/-- The variants of one configured pair, in the order of the two rules. -/
def variantsOf (pair : String × String) : List (String × String) :=
  (if Contains pair.1 "_TODAY_" then [(ReplaceAll pair.1 "_TODAY_" "_TO-DAY_", pair.2)] else [])
    ++ (if Contains pair.1 "_YESTERDAY_" then
      [(ReplaceAll pair.1 "_YESTERDAY_" "_YES-TER-DAY_", pair.2)] else [])

/-- The two-pass reference of the specification: collect the variants of the
configured entries, then append them. -/
def DuplicateEnvsTwoPass (dFrom dTo : List String) : List String × List String :=
  let variants := ((dFrom.zip dTo).map variantsOf).flatten
  (dFrom ++ variants.map Prod.fst, dTo ++ variants.map Prod.snd)

/-! ## Naming deriver -/

/-- The class `[a-z]`. -/
def isLower (c : Char) : Bool := 97 ≤ c.toNat && c.toNat ≤ 122

/-- The class `[a-z0-9]`. -/
def isLowerAlnum (c : Char) : Bool := isLower c || (48 ≤ c.toNat && c.toNat ≤ 57)

/-- The class `\w`, that is `[0-9A-Za-z_]`. -/
def isWord (c : Char) : Bool :=
  isLowerAlnum c || (65 ≤ c.toNat && c.toNat ≤ 90) || c == '_'

/-- A greedy `.+` followed by the rest of a pattern, as Go's leftmost-first
matching picks it: the longest non-empty prefix without a newline after which
`rest` matches.  The result is that prefix and the text after it. -/
def greedyPlus (rest : List Char → Bool) : List Char → Option (List Char × List Char)
  | [] => none
  | c :: cs =>
    if c = '\n' then none
    else
      match greedyPlus rest cs with
      | some (p, r) => some (c :: p, r)
      | none => if rest cs then some ([c], cs) else none

/-- An unanchored search: the match at the leftmost position that has one. -/
def findLeftmost {α : Type} (matchAt : List Char → Option α) : List Char → Option α
  | [] => matchAt []
  | c :: cs =>
    match matchAt (c :: cs) with
    | some m => some m
    | none => findLeftmost matchAt cs

/-- The text after a leading character `c`, if the text starts with `c`. -/
def afterChar (c : Char) : List Char → Option (List Char)
  | [] => none
  | x :: xs => if x = c then some xs else none

/-- The pattern `[a-z0-9]{k}` at the start of a text: the text after it. -/
def afterLowerAlnum (k : Nat) (r : List Char) : Option (List Char) :=
  if k ≤ r.length ∧ (r.take k).all isLowerAlnum then some (r.drop k) else none

/-- The pattern `-([a-z0-9]{8,10}-[a-z0-9]{5})` at the start of a text. -/
def hashSuffix (r : List Char) : Bool :=
  match afterChar '-' r with
  | none => false
  | some r1 =>
    [10, 9, 8].any (fun k =>
      match afterLowerAlnum k r1 with
      | none => false
      | some r2 =>
        match afterChar '-' r2 with
        | none => false
        | some r3 => (afterLowerAlnum 5 r3).isSome)

/-- First submatch of the first match of `(.+)-([a-z0-9]{8,10}-[a-z0-9]{5})`
in the pod name: `deploymentNameSL[0][1]`. -/
def podNameRe (podName : String) : Option String :=
  (findLeftmost (greedyPlus hashSuffix) podName.data).map (fun m => String.mk m.1)

/-- The pattern `.+$` at the start of a text: the text is not empty and has no
newline. -/
def plusToEnd (r : List Char) : Bool :=
  !r.isEmpty && r.all (fun c => c != '\n')

/-- The group `(\/[a-z].+/.+$)` at the start of a text. -/
def pathGroup (r : List Char) : Bool :=
  match afterChar '/' r with
  | none => false
  | some r1 =>
    match r1 with
    | [] => false
    | a :: r2 =>
      isLower a && (greedyPlus (fun r3 =>
        match afterChar '/' r3 with
        | none => false
        | some r4 => plusToEnd r4) r2).isSome

/-- The pattern `@.+(\/[a-z].+/.+$)` at the start of a text: the text of the
last group. -/
def atHostPath (r : List Char) : Option (List Char) :=
  match afterChar '@' r with
  | none => none
  | some r1 => (greedyPlus pathGroup r1).map Prod.snd

/-- The pattern `(rsync.+@.+)(\/[a-z].+/.+$)` at the start of a text: the text
of the second group. -/
def dFromPathAt (t : List Char) : Option (List Char) :=
  if "rsync".data.isPrefixOf t then
    match greedyPlus (fun r => (atHostPath r).isSome) (t.drop 5) with
    | none => none
    | some (_, r) => atHostPath r
  else none

/-- Second submatch of the first match of `(rsync.+@.+)(\/[a-z].+/.+$)` in the
source template: `tmp1ExcludeFileNameSL[0][2]`. -/
def dFromPathRe (dFromPath : String) : Option String :=
  (findLeftmost dFromPathAt dFromPath.data).map String.mk

/-- The replacement of every `/` by `_`: `ReplaceAllString` for the pattern `\/`. -/
def slashToUnderscore (s : String) : String :=
  ⟨s.data.map (fun c => if c = '/' then '_' else c)⟩

/-- The removal of every `*`: `ReplaceAllString` for the pattern `\*`. -/
def removeStars (s : String) : String :=
  ⟨s.data.filter (fun c => c != '*')⟩

/-- Go function `GetExludeFileName(dFromPath, dToPath)`; the environment
variables `POD_NAME` and `STAND_NAME` it reads are parameters.  The result is
the pair of its results: the name and the error, if any. -/
def GetExludeFileName (podName standName dFromPath dToPath : String) :
    String × Option String :=
  match podNameRe podName with
  | some deploymentName =>
    match dFromPathRe dFromPath with
    | some tmp1ExcludeFileName =>
      let tmp2ExcludeFileName := slashToUnderscore tmp1ExcludeFileName
      let dToPathReplaced := slashToUnderscore dToPath
      (deploymentName ++ removeStars tmp2ExcludeFileName ++ "-" ++ standName
        ++ dToPathReplaced ++ "-excludeFile", none)
    | none =>
      ("", some "Couldn't get full OS path on rsyncd server from DOWNLOAD_FROM env variable")
  | none => ("", some "Couldn't get deployment name from env variable POD_NAME")

/-! ## Retention sweeper

An instant is a number of nanoseconds on the time line; a `time.Duration` is a
signed 64-bit number of nanoseconds. -/

/-- The value a signed 64-bit integer holds after an arithmetic result `x`
wrapped around. -/
def wrapInt64 (x : Int) : Int :=
  (x + 9223372036854775808) % 18446744073709551616 - 9223372036854775808

/-- Go `t.Sub(u)` for two instants: the difference, or the largest or smallest
`Duration` when the difference does not fit. -/
def Sub (t u : Int) : Int :=
  if t - u > 9223372036854775807 then 9223372036854775807
  else if t - u < -9223372036854775808 then -9223372036854775808
  else t - u

/-- Go function `IsOlderThan(t, olderThan)`, with the instant `now` of
`time.Now()` as a parameter; `time.Hour` is 3600000000000 and the product is a
64-bit multiplication. -/
def IsOlderThan (now t : Int) (olderThan : Int) : Bool :=
  Sub now t > wrapInt64 (olderThan * 3600000000000)

/-- The pattern `\w{6}` at the start of a text. -/
def sixWordChars (r : List Char) : Bool :=
  6 ≤ r.length && (r.take 6).all isWord

/-- The pattern `.*\.\w{6}` at the start of a text. -/
def anyThenDotSuffix : List Char → Bool
  | [] => false
  | c :: cs => (c == '.' && sixWordChars cs) || (c != '\n' && anyThenDotSuffix cs)

/-- The unanchored search for `\..*\.\w{6}` in a text. -/
def partialFileNameChars : List Char → Bool
  | [] => false
  | c :: cs => (c == '.' && anyThenDotSuffix cs) || partialFileNameChars cs

/-- The test `partialFileNameRe.MatchString(name)` of `DeleteFiles`. -/
def partialFileNameRe (name : String) : Bool :=
  partialFileNameChars name.data

/-- What `DeleteFiles` reads of an entry that the walk visits. -/
structure DirEntry where
  path : String
  name : String
  isDir : Bool
  modTime : Int
  deriving DecidableEq

/-- The two conditions of the callback of `DeleteFiles`: the entry is removed
when one of them holds. -/
def removesEntry (now deleteOlderThan : Int) (e : DirEntry) : Bool :=
  if IsOlderThan now e.modTime deleteOlderThan && !e.isDir then true
  else if IsOlderThan now e.modTime 4 && partialFileNameRe e.name && !e.isDir then true
  else false

/-- Go function `DeleteFiles(p)`: `entries` are the entries the walk of `p`
visits, `deleteOlderThan` is the result of `strconv.Atoi` on
`DELETE_OLDER_THAN` (`none`: not a number, the walk stops with the error at its
first entry).  The result is the paths removed and whether an error is
returned. -/
def DeleteFiles (now : Int) (deleteOlderThan : Option Int) (entries : List DirEntry) :
    List String × Bool :=
  match deleteOlderThan with
  | none => ([], !entries.isEmpty)
  | some h => ((entries.filter (removesEntry now h)).map (fun e => e.path), false)

/-! ## Steps of the sync job -/

/-- The second text is the first with dashes inserted: what the replacement of
`_TODAY_` by `_TO-DAY_`, or of `_YESTERDAY_` by `_YES-TER-DAY_`, does to a
template. -/
inductive InsDash : List Char → List Char → Prop where
  | nil : InsDash [] []
  | keep (c : Char) (t v : List Char) : InsDash t v → InsDash (c :: t) (c :: v)
  | ins (t v : List Char) : InsDash t v → InsDash t ('-' :: v)

/-- The pod name has, somewhere, a non-empty text without newline followed by a
dash, 8 to 10 lowercase alphanumerics, a dash and 5 lowercase alphanumerics. -/
def podHasHashPair (podName : String) : Prop :=
  ∃ a D h1 h2 z : List Char,
    podName.data = a ++ (D ++ '-' :: (h1 ++ '-' :: (h2 ++ z))) ∧ D ≠ [] ∧ '\n' ∉ D ∧
    8 ≤ h1.length ∧ h1.length ≤ 10 ∧ (∀ c ∈ h1, isLowerAlnum c = true) ∧
    h2.length = 5 ∧ (∀ c ∈ h2, isLowerAlnum c = true)

/-- The source template has, somewhere, `rsync`, at least one character, `@`, at
least one character, and then up to its end a slash, a lowercase letter, at
least one character, a slash and at least one character, all without newline. -/
def templateHasPath (dFromPath : String) : Prop :=
  ∃ a u h x y : List Char, ∃ d : Char,
    dFromPath.data = a ++ ("rsync".data ++ (u ++ '@' :: (h ++ '/' :: d :: (x ++ '/' :: y)))) ∧
    u ≠ [] ∧ '\n' ∉ u ∧ h ≠ [] ∧ '\n' ∉ h ∧ isLower d = true ∧
    x ≠ [] ∧ '\n' ∉ x ∧ y ≠ [] ∧ '\n' ∉ y

/-- The part of an exclude-file name that comes from the source template: the
extracted sub-path with `/` replaced by `_` and `*` removed. -/
def sanitizedSubpath (dFromPath : String) : Option String :=
  (dFromPathRe dFromPath).map (fun g => removeStars (slashToUnderscore g))

/-- Go `unicode.IsSpace`. -/
def isSpace (c : Char) : Bool :=
  [9, 10, 11, 12, 13, 32, 133, 160, 5760, 8232, 8233, 8239, 8287, 12288].contains c.toNat
    || (8192 ≤ c.toNat && c.toNat ≤ 8202)

/-- The scan of `strings.Fields`: `cur` is the field being read, reversed. -/
def fieldsChars (cur : List Char) : List Char → List (List Char)
  | [] => if cur = [] then [] else [cur.reverse]
  | c :: cs =>
    if isSpace c then
      (if cur = [] then fieldsChars [] cs else cur.reverse :: fieldsChars [] cs)
    else fieldsChars (c :: cur) cs

/-- Go `strings.Fields(s)`: the maximal runs of characters that are not white
space. -/
def Fields (s : String) : List String :=
  (fieldsChars [] s.data).map String.mk

/-- Go function `AddSeparator(s)`; `abs` stands for `filepath.Abs` (`none`: it
fails).  The result is `none` when the function returns an error. -/
def AddSeparator (abs : String → Option String) (s : String) : Option (List String) :=
  (Fields s).foldl (fun sl sr =>
    match sl with
    | none => none
    | some l =>
      match abs sr with
      | none => none
      | some a => some (l ++ [a ++ "/"])) (some [])

/-- The first loop of `PrepareEnv` over the names of the variables: a missing
cron expression or age gets its default, any other missing variable is the
error.  The result is the environment afterwards or the name of the missing
variable. -/
def checkEnvVars (env : String → Option String) :
    List String → (String → Option String) ⊕ String
  | [] => .inl env
  | envVar :: rest =>
    match env envVar with
    | some _ => checkEnvVars env rest
    | none =>
      if envVar = "DOWNLOAD_CRON" then
        checkEnvVars (fun k => if k = "DOWNLOAD_CRON" then some "*/10 * * * *" else env k) rest
      else if envVar = "DELETE_CRON" then
        checkEnvVars (fun k => if k = "DELETE_CRON" then some "1 */1 * * *" else env k) rest
      else if envVar = "DELETE_OLDER_THAN" then
        checkEnvVars (fun k => if k = "DELETE_OLDER_THAN" then some "48" else env k) rest
      else .inr envVar

/-- The pattern `^[0-9]+$`. -/
def digitsOnly (s : String) : Bool :=
  !s.data.isEmpty && s.data.all (fun c => 48 ≤ c.toNat && c.toNat ≤ 57)

/-- Number of positions of a text at which `tok` occurs. -/
def countOcc (tok : List Char) : List Char → Nat
  | [] => 0
  | c :: cs => (if tok.isPrefixOf (c :: cs) then 1 else 0) + countOcc tok cs

/-- Number of occurrences of the tokens `_TODAY_` and `_YESTERDAY_` in a
template. -/
def tokenOccurrences (s : String) : Nat :=
  countOcc "_TODAY_".data s.data + countOcc "_YESTERDAY_".data s.data

/-- Bound on the number of entries the loop of `DuplicateEnvs` visits for one
entry: the entry and everything expanded from it. -/
def expansionBound (s : String) : Nat :=
  2 ^ (tokenOccurrences s + 1) - 1

/-- Rounds that suffice for the loop of `DuplicateEnvs` on a list: one for each
entry it can visit and one for the final test. -/
def duplicateFuel (dFrom : List String) : Nat :=
  (dFrom.map expansionBound).sum + 1

/-- The results of `PrepareEnv`: the five values it returns without error, the
error it returns, or a panic of the Go runtime. -/
inductive PrepareResult where
  | returned (dFrom dTo : List String) (standName podName : String)
  | error (msg : String)
  | panicked
  | outOfFuel
  deriving DecidableEq

/-- Go function `PrepareEnv()`: `env` is the process environment
(`os.LookupEnv`), `abs` stands for `filepath.Abs`.  The loop of `DuplicateEnvs`
gets `duplicateFuel dFrom` rounds, which suffice for every input
(`DuplicateEnvs_fuel_suffices`). -/
def PrepareEnv (abs : String → Option String) (env : String → Option String) :
    PrepareResult :=
  match checkEnvVars env ["DOWNLOAD_FROM", "DOWNLOAD_TO", "DOWNLOAD_CRON", "DELETE_CRON",
      "DELETE_OLDER_THAN", "RSYNC_PASSWORD", "POD_NAME", "STAND_NAME"] with
  | .inr envVar => .error ("Env variable " ++ envVar ++ " is not set!")
  | .inl env1 =>
    if !digitsOnly ((env1 "DELETE_OLDER_THAN").getD "") then
      .error "Env variable DELETE_OLDER_THAN must contain only digits!"
    else
      let dFrom := Fields ((env1 "DOWNLOAD_FROM").getD "")
      let dTo := (AddSeparator abs ((env1 "DOWNLOAD_TO").getD "")).getD []
      match DuplicateEnvs (duplicateFuel dFrom) dFrom dTo with
      | .outOfFuel => .outOfFuel
      | .indexOutOfRange => .panicked
      | .returned dFrom1 dTo1 =>
        if dFrom1.length ≠ dTo1.length then
          .error "Number of items in DOWNLOAD_FROM and DOWNLOAD_TO must be equal!"
        else
          .returned dFrom1 dTo1 ((env1 "STAND_NAME").getD "") ((env1 "POD_NAME").getD "")

/-- An environment with the two lists as given and every other variable set. -/
def envWith (downloadFrom downloadTo : String) : String → Option String :=
  fun k =>
    if k = "DOWNLOAD_FROM" then some downloadFrom
    else if k = "DOWNLOAD_TO" then some downloadTo
    else if k = "DOWNLOAD_CRON" then some "*/10 * * * *"
    else if k = "DELETE_CRON" then some "1 */1 * * *"
    else if k = "DELETE_OLDER_THAN" then some "48"
    else if k = "RSYNC_PASSWORD" then some "123"
    else if k = "POD_NAME" then some "some-pod-name-5448486d5c-qjpvq"
    else if k = "STAND_NAME" then some "dev25"
    else none

/-- The loop of `GetUniqueSlice`: `inResult` holds the keys of the map. -/
def GetUniqueSliceLoop : List String → List String → List String → List String
  | _, result, [] => result
  | inResult, result, str :: rest =>
    if inResult.contains str then GetUniqueSliceLoop inResult result rest
    else GetUniqueSliceLoop (str :: inResult) (result ++ [str]) rest

/-- Go function `GetUniqueSlice(s)`. -/
def GetUniqueSlice (s : List String) : List String :=
  GetUniqueSliceLoop [] [] s

/-- The list with every occurrence of an element after its first removed. -/
def firstOccurrences : List String → List String
  | [] => []
  | a :: l => a :: (firstOccurrences l).filter (fun b => b != a)

/-- The map `codeMeanings` of `GetRsyncExitCodeMeaning`. -/
def codeMeanings : List (Int × String) :=
  [(0, "Success"),
    (1, "Syntax or usage error"),
    (2, "Protocol incompatibility"),
    (3, "Errors selecting input/output files, dirs"),
    (4, "Requested action not supported: an attempt was made to manipulate 64-bit files on a platform that cannot support them; or an option was specified that is supported by the client and not by the server."),
    (5, "Error starting client-server protocol"),
    (6, "Daemon unable to append to log-file"),
    (10, "Error in socket I/O (maybe there is a problem with DNS resolution)"),
    (11, "Error in file I/O (maybe there is no destination)"),
    (12, "Error in rsync protocol data stream"),
    (13, "Errors with program diagnostics"),
    (14, "Error in IPC code"),
    (20, "Received SIGUSR1 or SIGINT"),
    (21, "Some error returned by waitpid()"),
    (22, "Error allocating core memory buffers"),
    (23, "Partial transfer due to error (maybe there are not files on remote side by the mask)"),
    (24, "Partial transfer due to vanished source files"),
    (25, "The --max-delete limit stopped deletions"),
    (30, "Timeout in data send/receive"),
    (35, "Timeout waiting for daemon connection")]

/-- The lookup of a key in a Go map given as its list of entries. -/
def mapLookup (code : Int) : List (Int × String) → Option String
  | [] => none
  | (k, v) :: rest => if k = code then some v else mapLookup code rest

/-- Go function `GetRsyncExitCodeMeaning(code)`. -/
def GetRsyncExitCodeMeaning (code : Int) : String :=
  match mapLookup code codeMeanings with
  | some meaning => meaning
  | none => "Unknown"

/-- The class `[a-zA-z0-9-_]` of the host pattern: the ranges `a-z`, `A-z`
(which also holds the six characters between `Z` and `a`), `0-9`, and the
characters `-` and `_`. -/
def isHostChar (c : Char) : Bool :=
  isLower c || (65 ≤ c.toNat && c.toNat ≤ 122) || (48 ≤ c.toNat && c.toNat ≤ 57)
    || c == '-' || c == '_'

/-- The pattern `@[a-zA-z0-9-_]+/` at the start of a text: the text it matches. -/
def atHost (r : List Char) : Option (List Char) :=
  match afterChar '@' r with
  | none => none
  | some r1 =>
    let host := r1.takeWhile isHostChar
    if host ≠ [] ∧ (r1.drop host.length).head? = some '/' then some ('@' :: (host ++ ['/']))
    else none

/-- The pattern `rsync.+@[a-zA-z0-9-_]+/` at the start of a text: the text it
matches. -/
def hostPrefixAt (t : List Char) : Option (List Char) :=
  if "rsync".data.isPrefixOf t then
    match greedyPlus (fun r => (atHost r).isSome) (t.drop 5) with
    | none => none
    | some (p, r) => (atHost r).map (fun m => "rsync".data ++ (p ++ m))
  else none

/-- The call `re.FindString(dFrom[i])` of the registration loop of `Pullcsv` for
the pattern `rsync.+@[a-zA-z0-9-_]+/`: the text of the first match, or the
empty string. -/
def hostPrefix (dFrom : String) : String :=
  match findLeftmost hostPrefixAt dFrom.data with
  | some m => String.mk m
  | none => ""

/-- The two paths the registration loop of `Pullcsv` builds for a pair:
`exFNfullRemotePath` and `exFNfullLocalPath`; `none` when `GetExludeFileName`
returns an error (the program stops). -/
def excludeFilePaths (podName standName dFrom dTo : String) : Option (String × String) :=
  match GetExludeFileName podName standName dFrom dTo with
  | (_, some _) => none
  | (exFN, none) => some (hostPrefix dFrom ++ "pullcsv-exclude-files/" ++ exFN, "/tmp/" ++ exFN)

/-! ## Lemmas: paths and order -/

theorem lastElement_no_slash (l : List Char) : ∀ c ∈ lastElement l, (c != '/') = true := by
  intro c hc
  unfold lastElement at hc
  rw [List.mem_reverse] at hc
  exact List.mem_takeWhile_imp (p := fun c => c != '/') hc

theorem stripTrailingSlashes_of_no_slash (e : List Char) (h : ∀ c ∈ e, (c != '/') = true) :
    stripTrailingSlashes e = e := by
  unfold stripTrailingSlashes
  have : e.reverse.dropWhile (fun c => c == '/') = e.reverse := by
    rw [List.dropWhile_eq_self_iff]
    intro hpos
    have hm : e.reverse.get ⟨0, hpos⟩ ∈ e := by
      rw [← List.mem_reverse]
      exact List.get_mem _ _ _
    have := h _ hm
    simpa using this
  rw [this, List.reverse_reverse]

theorem lastElement_of_no_slash (e : List Char) (h : ∀ c ∈ e, (c != '/') = true) :
    lastElement e = e := by
  unfold lastElement
  have : e.reverse.takeWhile (fun c => c != '/') = e.reverse := by
    rw [List.takeWhile_eq_self_iff]
    intro c hc
    exact h c (List.mem_reverse.mp hc)
  rw [this, List.reverse_reverse]

/-- The function `filepath.Base` is idempotent: a base name is its own base name. -/
theorem Base_idem (path : String) : Base (Base path) = Base path := by
  unfold Base
  by_cases h1 : path.data = []
  · simp only [h1, if_true]
    decide
  · simp only [h1, if_false]
    by_cases h2 : lastElement (stripTrailingSlashes path.data) = []
    · simp only [h2, if_true]
      decide
    · simp only [h2, if_false]
      have hs := lastElement_no_slash (stripTrailingSlashes path.data)
      rw [stripTrailingSlashes_of_no_slash _ hs, lastElement_of_no_slash _ hs]
      simp [h2]

theorem stringLE_antisymm {a b : String} (hab : stringLE a b) (hba : stringLE b a) : a = b :=
  String.ext (le_antisymm hab hba)

theorem sortStrings_sorted (l : List String) : List.Sorted stringLE (sortStrings l) :=
  List.sorted_insertionSort stringLE l

theorem sortStrings_perm (l : List String) : (sortStrings l).Perm l :=
  List.perm_insertionSort stringLE l

/-! ## Lemmas: exclude-list store -/

theorem any_beq_eq_decide_mem (a : String) (l : List String) :
    l.any (fun val2 => a == val2) = decide (a ∈ l) := by
  induction l with
  | nil => simp
  | cons b rest ih =>
    simp only [List.any_cons, ih, List.mem_cons, beq_iff_eq, Bool.decide_or, Bool.decide_eq_true]
    by_cases h : a = b <;> simp [h]

theorem appendUnlisted_eq (fileExFN : List String) (listing acc : List String) :
    appendUnlisted fileExFN acc listing
      = acc ++ listing.filter (fun val1 => !(fileExFN.any (fun val2 => Base val1 == val2))) := by
  induction listing generalizing acc with
  | nil => simp [appendUnlisted]
  | cons v rest ih =>
    unfold appendUnlisted
    by_cases h : fileExFN.any (fun val2 => Base v == val2) = true
    · rw [if_pos h, ih, List.filter_cons_of_neg (by rw [h]; simp)]
    · rw [if_neg h, ih, List.filter_cons_of_pos (by rw [Bool.not_eq_true] at h; rw [h]; rfl)]
      simp

/-- The unsorted result of `SaveExcludeFile` on a listing of base names: the
snapshot followed by the listed names that are not in the snapshot. -/
theorem appendUnlisted_base (fileExFN walked : List String) :
    appendUnlisted fileExFN fileExFN (walked.map Base)
      = fileExFN ++ (walked.map Base).filter (fun v => decide (v ∉ fileExFN)) := by
  rw [appendUnlisted_eq]
  congr 1
  apply List.filter_congr
  intro v hv
  obtain ⟨p, _, rfl⟩ := List.mem_map.mp hv
  rw [Base_idem, any_beq_eq_decide_mem]
  by_cases hm : Base p ∈ fileExFN <;> simp [hm]

/-- C1: for a duplicate-free previous snapshot `A` and a walk of the destination
whose listing `B` (the base names) is duplicate-free, `SaveExcludeFile` returns
a list that is sorted ascending, has no duplicates and has exactly the elements
of `A ∪ B`; it is the sorted listing when `A` is empty and the empty list when
both are empty. -/
theorem SaveExcludeFile_sorted_dedup_union (A walked : List String)
    (hA : A.Nodup) (hB : (walked.map Base).Nodup) :
    ∃ r, SaveExcludeFile (some walked) (some A) = some r ∧
      List.Sorted stringLE r ∧ r.Nodup ∧
      (∀ x, x ∈ r ↔ x ∈ A ∨ x ∈ walked.map Base) ∧
      (A = [] → r = sortStrings (walked.map Base)) ∧
      (A = [] → walked = [] → r = []) := by
  refine ⟨_, rfl, sortStrings_sorted _, ?_, ?_, ?_, ?_⟩
  · rw [(sortStrings_perm _).nodup_iff]
    by_cases h1 : (walked.map Base).length > 0 ∧ A.length > 0
    · rw [if_pos h1, appendUnlisted_base]
      refine List.Nodup.append hA (hB.filter _) ?_
      intro x hxA hxF
      have := (List.mem_filter.mp hxF).2
      simp only [decide_eq_true_eq] at this
      exact this hxA
    · rw [if_neg h1]
      by_cases h2 : (walked.map Base).length > 0 ∧ A.length = 0
      · rw [if_pos h2]; exact hB
      · rw [if_neg h2]; exact hA
  · intro x
    rw [(sortStrings_perm _).mem_iff]
    by_cases h1 : (walked.map Base).length > 0 ∧ A.length > 0
    · rw [if_pos h1, appendUnlisted_base, List.mem_append, List.mem_filter]
      simp only [decide_eq_true_eq]
      tauto
    · rw [if_neg h1]
      by_cases h2 : (walked.map Base).length > 0 ∧ A.length = 0
      · rw [if_pos h2]
        have hA0 : A = [] := List.length_eq_zero.mp h2.2
        simp [hA0]
      · rw [if_neg h2]
        have hB0 : walked.map Base = [] := by
          rcases Nat.eq_zero_or_pos (walked.map Base).length with h | h
          · exact List.length_eq_zero.mp h
          · rcases Nat.eq_zero_or_pos A.length with h3 | h3
            · exact absurd ⟨h, h3⟩ h2
            · exact absurd ⟨h, h3⟩ h1
        simp [hB0]
  · intro hA0
    subst hA0
    by_cases h2 : (walked.map Base).length > 0
    · have h3 : 0 < walked.length := by simpa using h2
      simp [h3]
    · have hB0 : walked.map Base = [] := List.length_eq_zero.mp (by omega)
      simp [hB0]
  · intro hA0 hW0
    subst hA0 hW0
    rfl

theorem SaveExcludeFile_sorted_dedup_union_witness :
    SaveExcludeFile (some ["/dst/f3", "/dst/f1"]) (some ["f1", "zz", "first"])
        = some ["f1", "f3", "first", "zz"] ∧
      ∃ r, SaveExcludeFile (some ["/dst/f3", "/dst/f1"]) (some ["f1", "zz", "first"]) = some r ∧
        List.Sorted stringLE r ∧ r.Nodup ∧
        (∀ x, x ∈ r ↔ x ∈ ["f1", "zz", "first"] ∨ x ∈ ["/dst/f3", "/dst/f1"].map Base) ∧
        (["f1", "zz", "first"] = [] → r = sortStrings (["/dst/f3", "/dst/f1"].map Base)) ∧
        (["f1", "zz", "first"] = [] → ["/dst/f3", "/dst/f1"] = [] → r = []) :=
  ⟨by decide,
    SaveExcludeFile_sorted_dedup_union ["f1", "zz", "first"] ["/dst/f3", "/dst/f1"]
      (by decide) (by decide)⟩

theorem serializedSize_append (l1 l2 : List String) :
    serializedSize (l1 ++ l2) = serializedSize l1 + serializedSize l2 := by
  simp [serializedSize]

theorem serializedSize_drop_le (k : Nat) (l : List String) :
    serializedSize (l.drop k) ≤ serializedSize l := by
  conv_rhs => rw [← List.take_append_drop k l]
  rw [serializedSize_append]
  omega

theorem serializedSize_le_of_entries_le (b : Nat) (l : List String)
    (h : ∀ x ∈ l, x.utf8ByteSize ≤ b) : serializedSize l ≤ l.length * (b + 1) := by
  induction l with
  | nil => simp [serializedSize]
  | cons a rest ih =>
    have ha := h a (List.mem_cons_self _ _)
    have hr := ih (fun x hx => h x (List.mem_cons_of_mem _ hx))
    simp only [serializedSize, List.map_cons, List.sum_cons, List.length_cons] at hr ⊢
    rw [Nat.add_mul]
    omega

theorem Last_eq_drop (n : Int) (l : List String) :
    Last n l = l.drop (l.length - n.toNat) := by
  unfold Last
  split_ifs with h
  · have : n.toNat = 0 := Int.toNat_eq_zero.mpr h
    simp [this]
  · rfl

theorem Last_length (n : Int) (l : List String) :
    (Last n l).length = min n.toNat l.length := by
  rw [Last_eq_drop, List.length_drop]
  omega

theorem Last_Last (n : Int) (l : List String) : Last n (Last n l) = Last n l := by
  rw [Last_eq_drop n (Last n l), Last_length]
  have : min n.toNat l.length - n.toNat = 0 := by omega
  rw [this, List.drop_zero]

/-- C2: when the serialized size of the exclude list is strictly greater than
`maxBytes`, `TruncateExcludeFile` leaves exactly the last `tailLines` lines in
their original order (the whole list if it has at most `tailLines` lines); for
a list sorted ascending every kept entry is `>=` every discarded entry. -/
theorem TruncateExcludeFile_keeps_last_lines (l : List String) (tailLines maxBytes : Int)
    (h : (serializedSize l : Int) > maxBytes) :
    ∃ discarded kept, TruncateExcludeFile (some l) tailLines maxBytes = some kept ∧
      l = discarded ++ kept ∧
      kept.length = min tailLines.toNat l.length ∧
      ((l.length : Int) ≤ tailLines → kept = l) ∧
      (List.Sorted stringLE l → ∀ x ∈ kept, ∀ y ∈ discarded, stringLE y x) := by
  refine ⟨l.take (l.length - tailLines.toNat), l.drop (l.length - tailLines.toNat), ?_, ?_, ?_,
    ?_, ?_⟩
  · simp only [TruncateExcludeFile, if_pos h, Last_eq_drop]
  · exact (List.take_append_drop _ _).symm
  · rw [List.length_drop]; omega
  · intro hle
    have : l.length - tailLines.toNat = 0 := by omega
    rw [this, List.drop_zero]
  · intro hs x hx y hy
    have hs2 : List.Sorted stringLE
        (l.take (l.length - tailLines.toNat) ++ l.drop (l.length - tailLines.toNat)) := by
      rw [List.take_append_drop]; exact hs
    exact (List.pairwise_append.mp hs2).2.2 y hy x hx

theorem TruncateExcludeFile_keeps_last_lines_witness :
    TruncateExcludeFile (some ["f1", "f2", "f3", "first", "second", "third"]) 2 20
        = some ["second", "third"] ∧
      ∃ discarded kept,
        TruncateExcludeFile (some ["f1", "f2", "f3", "first", "second", "third"]) 2 20
          = some kept ∧
        ["f1", "f2", "f3", "first", "second", "third"] = discarded ++ kept ∧
        kept.length = min (2 : Int).toNat ["f1", "f2", "f3", "first", "second", "third"].length ∧
        ((["f1", "f2", "f3", "first", "second", "third"].length : Int) ≤ 2 →
          kept = ["f1", "f2", "f3", "first", "second", "third"]) ∧
        (List.Sorted stringLE ["f1", "f2", "f3", "first", "second", "third"] →
          ∀ x ∈ kept, ∀ y ∈ discarded, stringLE y x) :=
  ⟨by decide,
    TruncateExcludeFile_keeps_last_lines ["f1", "f2", "f3", "first", "second", "third"] 2 20
      (by decide)⟩

/-- C3: truncating twice in sequence gives the same list as truncating once, for
every list, every `maxBytes` and every `tailLines`, also when the list is still
larger than `maxBytes` after the first truncation. -/
theorem TruncateExcludeFile_twice (l : List String) (tailLines maxBytes : Int) :
    TruncateExcludeFile (TruncateExcludeFile (some l) tailLines maxBytes) tailLines maxBytes
      = TruncateExcludeFile (some l) tailLines maxBytes := by
  unfold TruncateExcludeFile
  by_cases h : (serializedSize l : Int) > maxBytes
  · simp only [if_pos h]
    by_cases h2 : (serializedSize (Last tailLines l) : Int) > maxBytes
    · simp only [if_pos h2, Last_Last]
    · simp only [if_neg h2]
  · simp only [if_neg h]

/-- C4: a list whose serialized size is at most `maxBytes` (also exactly
`maxBytes`) is left unchanged by `TruncateExcludeFile`, whatever `tailLines`. -/
theorem TruncateExcludeFile_under_threshold (l : List String) (tailLines maxBytes : Int)
    (h : (serializedSize l : Int) ≤ maxBytes) :
    TruncateExcludeFile (some l) tailLines maxBytes = some l := by
  simp only [TruncateExcludeFile, if_neg (not_lt.mpr h)]

theorem TruncateExcludeFile_under_threshold_witness :
    (serializedSize ["f1", "f2", "f3"] : Int) = 9 ∧
      TruncateExcludeFile (some ["f1", "f2", "f3"]) 1 9 = some ["f1", "f2", "f3"] :=
  ⟨by decide, TruncateExcludeFile_under_threshold ["f1", "f2", "f3"] 1 9 (by decide)⟩

/-- C5, as stated, fails: three lines of nine bytes, `tailLines = 2` and
`maxBytes = 5` leave two lines, 20 bytes, more than `maxBytes`. -/
theorem TruncateExcludeFile_exceeds_maxBytes :
    TruncateExcludeFile (some ["aaaaaaaaa", "bbbbbbbbb", "ccccccccc"]) 2 5
        = some ["bbbbbbbbb", "ccccccccc"] ∧
      ¬ ((serializedSize ["bbbbbbbbb", "ccccccccc"] : Int) ≤ 5) := by
  decide

/-- C5, amended: tail-truncation bounds the number of lines, not the bytes.
After `TruncateExcludeFile` the list either has serialized size at most
`maxBytes` or has at most `tailLines` lines (none for `tailLines <= 0`), and its
size never exceeds the size before; the size is at most `maxBytes` when every
entry is at most `b` bytes long and `tailLines * (b + 1) <= maxBytes`. -/
theorem TruncateExcludeFile_bounds_lines (l : List String) (tailLines maxBytes : Int) (b : Nat) :
    ∃ r, TruncateExcludeFile (some l) tailLines maxBytes = some r ∧
      ((serializedSize r : Int) ≤ maxBytes ∨ r.length ≤ tailLines.toNat) ∧
      serializedSize r ≤ serializedSize l ∧
      ((∀ x ∈ l, x.utf8ByteSize ≤ b) → ((tailLines.toNat * (b + 1) : Nat) : Int) ≤ maxBytes →
        (serializedSize r : Int) ≤ maxBytes) := by
  unfold TruncateExcludeFile
  by_cases h : (serializedSize l : Int) > maxBytes
  · simp only [if_pos h]
    refine ⟨_, rfl, Or.inr ?_, ?_, ?_⟩
    · rw [Last_length]; omega
    · rw [Last_eq_drop]; exact serializedSize_drop_le _ _
    · intro hb hm
      have h1 : serializedSize (Last tailLines l) ≤ (Last tailLines l).length * (b + 1) := by
        apply serializedSize_le_of_entries_le
        intro x hx
        rw [Last_eq_drop] at hx
        exact hb x (List.mem_of_mem_drop hx)
      have h2 : (Last tailLines l).length * (b + 1) ≤ tailLines.toNat * (b + 1) := by
        apply Nat.mul_le_mul_right
        rw [Last_length]; omega
      have h3 : serializedSize (Last tailLines l) ≤ tailLines.toNat * (b + 1) := le_trans h1 h2
      have h4 : (serializedSize (Last tailLines l) : Int) ≤ ((tailLines.toNat * (b + 1) : Nat) : Int) :=
        Int.ofNat_le.mpr h3
      exact le_trans h4 hm
  · simp only [if_neg h]
    exact ⟨_, rfl, Or.inl (not_lt.mp h), le_refl _, fun _ _ => not_lt.mp h⟩

theorem TruncateExcludeFile_bounds_lines_witness :
    ∃ r, TruncateExcludeFile (some ["aaaaaaaaa", "bbbbbbbbb", "ccccccccc"]) 2 20 = some r ∧
      ((serializedSize r : Int) ≤ 20 ∨ r.length ≤ (2 : Int).toNat) ∧
      serializedSize r ≤ serializedSize ["aaaaaaaaa", "bbbbbbbbb", "ccccccccc"] ∧
      (serializedSize r : Int) ≤ 20 := by
  obtain ⟨r, h1, h2, h3, h4⟩ :=
    TruncateExcludeFile_bounds_lines ["aaaaaaaaa", "bbbbbbbbb", "ccccccccc"] 2 20 9
  exact ⟨r, h1, h2, h3, h4 (by decide) (by decide)⟩

/-! ## Lemmas: time -/

theorem normalizeDay_in_range (rounds : Nat) (year month day : Int)
    (h1 : 1 ≤ day) (h2 : day ≤ daysIn year month) :
    normalizeDay rounds year month day = (year, month, day) := by
  cases rounds with
  | zero => rfl
  | succ n =>
    unfold normalizeDay
    rw [if_neg (by omega), if_neg (by omega)]

/-- The function `time.Date` leaves fields that are in range as they are. -/
theorem Date_of_valid (t : Time) (hv : t.Valid) (hour min sec nsec : Int)
    (hh : 0 ≤ hour ∧ hour < 24) (hm : 0 ≤ min ∧ min < 60) (hs : 0 ≤ sec ∧ sec < 60)
    (hn : 0 ≤ nsec ∧ nsec < 1000000000) :
    Date t.year t.month t.day hour min sec nsec
      = ⟨t.year, t.month, t.day, hour, min, sec, nsec⟩ := by
  obtain ⟨m1, m2, d1, d2, _⟩ := hv
  have e1 : (t.month - 1) / 12 = 0 := by omega
  have e2 : (t.month - 1) % 12 + 1 = t.month := by omega
  have e3 : nsec / 1000000000 = 0 := by omega
  have e4 : nsec % 1000000000 = nsec := by omega
  have e5 : sec / 60 = 0 := by omega
  have e6 : sec % 60 = sec := by omega
  have e7 : min / 60 = 0 := by omega
  have e8 : min % 60 = min := by omega
  have e9 : hour / 24 = 0 := by omega
  have e10 : hour % 24 = hour := by omega
  simp only [Date, e1, e2, e3, e4, e5, e6, e7, e8, e9, e10, add_zero,
    normalizeDay_in_range _ _ _ _ d1 d2]

/-- The call `AddDate(0, 0, -1)` of a clock reading is the same time of day on the
calendar day before. -/
theorem AddDate_minus_one_day (t : Time) (hv : t.Valid) :
    t.AddDate 0 0 (-1)
      = ⟨(previousDay t.Date).1, (previousDay t.Date).2.1, (previousDay t.Date).2.2,
          t.hour, t.min, t.sec, t.nsec⟩ := by
  obtain ⟨m1, m2, d1, d2, h1, h2, mi1, mi2, s1, s2, n1, n2⟩ := hv
  have e1 : (t.month - 1) / 12 = 0 := by omega
  have e2 : (t.month - 1) % 12 + 1 = t.month := by omega
  have e3 : t.nsec / 1000000000 = 0 := by omega
  have e4 : t.nsec % 1000000000 = t.nsec := by omega
  have e5 : t.sec / 60 = 0 := by omega
  have e6 : t.sec % 60 = t.sec := by omega
  have e7 : t.min / 60 = 0 := by omega
  have e8 : t.min % 60 = t.min := by omega
  have e9 : t.hour / 24 = 0 := by omega
  have e10 : t.hour % 24 = t.hour := by omega
  simp only [Time.AddDate, Date, add_zero, e1, e2, e3, e4, e5, e6, e7, e8, e9, e10, Time.Date,
    previousDay]
  by_cases hd : 1 < t.day
  · have hr : normalizeDay ((t.day + -1).natAbs + 1) t.year t.month (t.day + -1)
        = (t.year, t.month, t.day + -1) :=
      normalizeDay_in_range _ _ _ _ (by omega) (by omega)
    rw [hr, if_pos hd]
    rfl
  · have hd1 : t.day = 1 := by omega
    rw [if_neg hd, hd1]
    have hfuel : ((1 : Int) + -1).natAbs + 1 = 0 + 1 := by decide
    rw [hfuel]
    unfold normalizeDay
    rw [if_pos (by decide)]
    by_cases hm : 1 < t.month
    · have hm1 : ¬ t.month = 1 := by omega
      simp only [if_pos hm, if_neg hm1, normalizeDay]
      have : (1 : Int) + -1 + daysIn t.year (t.month - 1) = daysIn t.year (t.month - 1) := by
        omega
      rw [this]
    · have hm1 : t.month = 1 := by omega
      simp only [if_neg hm, if_pos hm1, normalizeDay]
      rfl

/-- The comparison of `EnvReplacement`: the clock is before 00:11:00 of its own
day exactly when its time of day is earlier than 00:11:00. -/
theorem Compare_cutoff (t : Time) (hv : t.Valid) :
    t.Compare ⟨t.year, t.month, t.day, 0, 11, 0, 0⟩ < 0 ↔ beforeCutover t := by
  obtain ⟨m1, m2, d1, d2, h1, h2, mi1, mi2, s1, s2, n1, n2⟩ := hv
  simp only [Time.Compare, compareFields, lt_irrefl, if_false, beforeCutover]
  split_ifs <;> omega

/-! ## Lemmas: token resolver -/

theorem Format_compact (t : Time) : t.Format "20060102" = formatCompact t.Date := by
  unfold Time.Format
  rw [if_pos rfl]

theorem Format_dashed (t : Time) : t.Format "2006-01-02" = formatDashed t.Date := by
  unfold Time.Format
  rw [if_neg (by decide), if_pos rfl]

/-- The function `EnvReplacement` at a valid clock reading, with the dates it substitutes
written as calendar dates. -/
theorem EnvReplacement_eq (now : Time) (hv : now.Valid) (s : String) :
    EnvReplacement now s =
      if Contains s "_YESTERDAY_" then
        ReplaceAll s "_YESTERDAY_" (formatCompact (previousDay now.Date))
      else if Contains s "_YES-TER-DAY_" then
        ReplaceAll s "_YES-TER-DAY_" (formatDashed (previousDay now.Date))
      else if Contains s "_TODAY_" then
        ReplaceAll s "_TODAY_" (formatCompact (cutoverDate now))
      else if Contains s "_TO-DAY_" then
        ReplaceAll s "_TO-DAY_" (formatDashed (cutoverDate now))
      else s := by
  have hcut : Date now.year now.month now.day 0 11 0 0
      = ⟨now.year, now.month, now.day, 0, 11, 0, 0⟩ :=
    Date_of_valid now hv 0 11 0 0 (by decide) (by decide) (by decide) (by decide)
  have hnow1 : (if now.Compare (Date now.year now.month now.day 0 11 0 0) < 0
        then now.AddDate 0 0 (-1) else now).Date = cutoverDate now := by
    rw [hcut, AddDate_minus_one_day now hv]
    unfold cutoverDate
    by_cases hb : beforeCutover now
    · rw [if_pos ((Compare_cutoff now hv).mpr hb), if_pos hb]
      rfl
    · rw [if_neg (fun h => hb ((Compare_cutoff now hv).mp h)), if_neg hb]
  have hy : (now.AddDate 0 0 (-1)).Date = previousDay now.Date := by
    rw [AddDate_minus_one_day now hv]
    rfl
  simp only [EnvReplacement, Format_compact, Format_dashed, Time.Date] at hnow1 hy ⊢
  rw [hnow1, hy]

/-- C8: at every valid clock reading, a template containing `_TODAY_` (resp.
`_TO-DAY_`) and no higher-priority token has the token replaced by the date
`YYYYMMDD` (resp. `YYYY-MM-DD`) of the current calendar day, shifted back by
one calendar day exactly when the time of day is strictly earlier than
00:11:00: at 2024-03-01T00:05 `X_TODAY_Y` gives `X20240229Y`, at 00:15
`X20240301Y`, and at exactly 00:11:00 no shift is applied. -/
theorem EnvReplacement_today_cutover (now : Time) (s : String) (hv : now.Valid)
    (h1 : Contains s "_YESTERDAY_" = false) (h2 : Contains s "_YES-TER-DAY_" = false) :
    (Contains s "_TODAY_" = true →
      EnvReplacement now s = ReplaceAll s "_TODAY_"
        (formatCompact (if beforeCutover now then previousDay now.Date else now.Date))) ∧
    (Contains s "_TODAY_" = false → Contains s "_TO-DAY_" = true →
      EnvReplacement now s = ReplaceAll s "_TO-DAY_"
        (formatDashed (if beforeCutover now then previousDay now.Date else now.Date))) ∧
    EnvReplacement ⟨2024, 3, 1, 0, 5, 0, 0⟩ "X_TODAY_Y" = "X20240229Y" ∧
    EnvReplacement ⟨2024, 3, 1, 0, 15, 0, 0⟩ "X_TODAY_Y" = "X20240301Y" ∧
    EnvReplacement ⟨2024, 3, 1, 0, 10, 59, 999999999⟩ "X_TODAY_Y" = "X20240229Y" ∧
    EnvReplacement ⟨2024, 3, 1, 0, 11, 0, 0⟩ "X_TODAY_Y" = "X20240301Y" ∧
    EnvReplacement ⟨2024, 3, 1, 0, 5, 0, 0⟩ "X_TO-DAY_Y" = "X2024-02-29Y" := by
  refine ⟨?_, ?_, by decide, by decide, by decide, by decide, by decide⟩
  · intro h3
    rw [EnvReplacement_eq now hv, h1, h2, h3]
    rfl
  · intro h3 h4
    rw [EnvReplacement_eq now hv, h1, h2, h3, h4]
    rfl

theorem EnvReplacement_today_cutover_witness :
    EnvReplacement ⟨2023, 1, 1, 0, 10, 59, 0⟩ "/in/F*_TODAY_*"
        = ReplaceAll "/in/F*_TODAY_*" "_TODAY_"
          (formatCompact (if beforeCutover ⟨2023, 1, 1, 0, 10, 59, 0⟩
            then previousDay (Time.Date ⟨2023, 1, 1, 0, 10, 59, 0⟩)
            else Time.Date ⟨2023, 1, 1, 0, 10, 59, 0⟩)) ∧
      EnvReplacement ⟨2023, 1, 1, 0, 10, 59, 0⟩ "/in/F*_TODAY_*" = "/in/F*20221231*" :=
  ⟨(EnvReplacement_today_cutover ⟨2023, 1, 1, 0, 10, 59, 0⟩ "/in/F*_TODAY_*"
      (by decide) (by decide) (by decide)).1 (by decide),
    by decide⟩

/-- C9: at every valid clock reading, before or after 00:11, a template
containing `_YESTERDAY_` (resp. `_YES-TER-DAY_` and no `_YESTERDAY_`) has the
token replaced by the date of the calendar day before the unshifted current
day, formatted `YYYYMMDD` (resp. `YYYY-MM-DD`); at 2024-03-01T00:05
`X_YESTERDAY_Y` gives `X20240229Y`. -/
theorem EnvReplacement_yesterday_unshifted (now : Time) (s : String) (hv : now.Valid) :
    (Contains s "_YESTERDAY_" = true →
      EnvReplacement now s = ReplaceAll s "_YESTERDAY_" (formatCompact (previousDay now.Date))) ∧
    (Contains s "_YESTERDAY_" = false → Contains s "_YES-TER-DAY_" = true →
      EnvReplacement now s
        = ReplaceAll s "_YES-TER-DAY_" (formatDashed (previousDay now.Date))) ∧
    EnvReplacement ⟨2024, 3, 1, 0, 5, 0, 0⟩ "X_YESTERDAY_Y" = "X20240229Y" ∧
    EnvReplacement ⟨2024, 3, 1, 0, 15, 0, 0⟩ "X_YESTERDAY_Y" = "X20240229Y" ∧
    EnvReplacement ⟨2024, 3, 1, 0, 5, 0, 0⟩ "X_YES-TER-DAY_Y" = "X2024-02-29Y" := by
  refine ⟨?_, ?_, by decide, by decide, by decide⟩
  · intro h1
    rw [EnvReplacement_eq now hv, h1]
    rfl
  · intro h1 h2
    rw [EnvReplacement_eq now hv, h1, h2]
    rfl

theorem EnvReplacement_yesterday_unshifted_witness :
    EnvReplacement ⟨2024, 1, 1, 13, 30, 0, 0⟩ "/in/F*_YES-TER-DAY_*"
        = ReplaceAll "/in/F*_YES-TER-DAY_*" "_YES-TER-DAY_"
          (formatDashed (previousDay (Time.Date ⟨2024, 1, 1, 13, 30, 0, 0⟩))) ∧
      EnvReplacement ⟨2024, 1, 1, 13, 30, 0, 0⟩ "/in/F*_YES-TER-DAY_*" = "/in/F*2023-12-31*" :=
  ⟨(EnvReplacement_yesterday_unshifted ⟨2024, 1, 1, 13, 30, 0, 0⟩ "/in/F*_YES-TER-DAY_*"
      (by decide)).2.1 (by decide) (by decide),
    by decide⟩

/-! ## Lemmas: `strings.Contains` and `strings.ReplaceAll` -/

theorem containsChars_iff_occurs (sub s : List Char) :
    containsChars sub s = true ↔ sub <:+: s := by
  induction s with
  | nil =>
    simp only [containsChars, List.isEmpty_iff, List.infix_nil]
  | cons c cs ih =>
    simp only [containsChars, Bool.or_eq_true, ih, List.isPrefixOf_iff_prefix,
      List.infix_cons_iff]

theorem Contains_iff_occurs (s substr : String) :
    Contains s substr = true ↔ substr.data <:+: s.data :=
  containsChars_iff_occurs _ _

theorem replaceAllChars_skip (old new : List Char) (k : Nat) (s : List Char) :
    replaceAllChars old new k s = replaceAllChars old new 0 (s.drop k) := by
  induction s generalizing k with
  | nil => simp [replaceAllChars]
  | cons c cs ih =>
    cases k with
    | zero => rfl
    | succ n =>
      rw [List.drop_succ_cons, ← ih n]
      rfl

theorem containsChars_cons (sub : List Char) (c : Char) (cs : List Char) :
    containsChars sub (c :: cs) = (sub.isPrefixOf (c :: cs) || containsChars sub cs) :=
  rfl

theorem replaceAllChars_cons (old new : List Char) (c : Char) (cs : List Char) :
    replaceAllChars old new 0 (c :: cs)
      = if old.isPrefixOf (c :: cs) then new ++ replaceAllChars old new (old.length - 1) cs
        else c :: replaceAllChars old new 0 cs :=
  rfl

theorem replaceAllChars_absent (old new s : List Char) (h : containsChars old s = false) :
    replaceAllChars old new 0 s = s := by
  induction s with
  | nil => rfl
  | cons c cs ih =>
    rw [containsChars_cons, Bool.or_eq_false_iff] at h
    rw [replaceAllChars_cons, h.1, ih h.2]
    rfl

/-- At the first occurrence of `old` the text before it is copied, the
occurrence becomes `new`, and the scan goes on behind the occurrence. -/
theorem replaceAllChars_first (old new p q : List Char) (hne : old ≠ [])
    (h : containsChars old (p ++ old.dropLast) = false) :
    replaceAllChars old new 0 (p ++ old ++ q) = p ++ new ++ replaceAllChars old new 0 q := by
  induction p with
  | nil =>
    obtain ⟨c, cs, rfl⟩ := List.exists_cons_of_ne_nil hne
    have hp : (c :: cs).isPrefixOf (c :: (cs ++ q)) = true := by
      rw [List.isPrefixOf_iff_prefix]
      exact ⟨q, rfl⟩
    show replaceAllChars (c :: cs) new 0 (c :: (cs ++ q)) = _
    rw [replaceAllChars_cons, if_pos hp, replaceAllChars_skip]
    simp
  | cons a p1 ih =>
    rw [List.cons_append, containsChars_cons, Bool.or_eq_false_iff] at h
    have hnp : old.isPrefixOf (a :: (p1 ++ old ++ q)) = false := by
      rw [Bool.eq_false_iff]
      intro hpre
      rw [List.isPrefixOf_iff_prefix] at hpre
      have hsplit : a :: (p1 ++ old ++ q)
          = (a :: (p1 ++ old.dropLast)) ++ ([old.getLast hne] ++ q) := by
        conv_lhs => rw [← List.dropLast_append_getLast hne]
        simp
      rw [hsplit] at hpre
      have hlen : old.length ≤ (a :: (p1 ++ old.dropLast)).length := by
        simp only [List.length_cons, List.length_append, List.length_dropLast]
        have : 0 < old.length := List.length_pos.mpr hne
        omega
      have hpre2 : old <+: a :: (p1 ++ old.dropLast) :=
        List.prefix_of_prefix_length_le hpre (List.prefix_append _ _) hlen
      rw [← List.isPrefixOf_iff_prefix] at hpre2
      rw [hpre2] at h
      exact Bool.noConfusion h.1
    show replaceAllChars old new 0 (a :: (p1 ++ old ++ q)) = _
    rw [replaceAllChars_cons, hnp, ih h.2]
    simp

theorem data_interleave_cons (tok last seg : String) (rest : List String) :
    (interleave tok last (seg :: rest)).data
      = seg.data ++ tok.data ++ (interleave tok last rest).data := by
  simp [interleave, String.data_append]

/-- The function `ReplaceAll` on a template cut at the occurrences the scan finds: every
segment is copied and every such occurrence becomes `new`. -/
theorem ReplaceAll_interleave (tok new last : String) (segs : List String)
    (hne : tok.data ≠ [])
    (hseg : ∀ seg ∈ segs, Contains (seg ++ dropLastChar tok) tok = false)
    (hlast : Contains last tok = false) :
    ReplaceAll (interleave tok last segs) tok new = interleave new last segs := by
  apply String.ext
  induction segs with
  | nil =>
    exact replaceAllChars_absent _ _ _ hlast
  | cons seg rest ih =>
    have h1 : containsChars tok.data (seg.data ++ tok.data.dropLast) = false := by
      have := hseg seg (List.mem_cons_self _ _)
      simpa [Contains, dropLastChar, String.data_append] using this
    have ih1 := ih (fun x hx => hseg x (List.mem_cons_of_mem _ hx))
    simp only [ReplaceAll] at ih1 ⊢
    rw [data_interleave_cons, data_interleave_cons, replaceAllChars_first _ _ _ _ hne h1, ih1]

/-- Every segment of an interleaved template, and its end, is part of it. -/
theorem infix_interleave (tok last seg : String) (segs : List String)
    (h : seg ∈ segs ∨ seg = last) : seg.data <:+: (interleave tok last segs).data := by
  induction segs with
  | nil =>
    rcases h with h | h
    · exact absurd h (List.not_mem_nil _)
    · subst h; exact List.infix_refl _
  | cons s1 rest ih =>
    rw [data_interleave_cons]
    rcases h with h | h
    · rcases List.mem_cons.mp h with h1 | h1
      · subst h1
        exact ⟨[], tok.data ++ (interleave tok last rest).data, by simp⟩
      · exact (ih (Or.inl h1)).trans (List.suffix_append _ _).isInfix
    · exact (ih (Or.inr h)).trans (List.suffix_append _ _).isInfix

theorem first_occurrence (tok s : List Char) (hne : tok ≠ [])
    (h : containsChars tok s = true) :
    ∃ p q, s = p ++ tok ++ q ∧ containsChars tok (p ++ tok.dropLast) = false := by
  induction s with
  | nil =>
    simp only [containsChars, List.isEmpty_iff] at h
    exact absurd h hne
  | cons c cs ih =>
    by_cases hp : tok.isPrefixOf (c :: cs) = true
    · obtain ⟨q, hq⟩ := List.isPrefixOf_iff_prefix.mp hp
      refine ⟨[], q, by simp [hq], ?_⟩
      rw [Bool.eq_false_iff]
      intro hc
      have hlen := ((containsChars_iff_occurs _ _).mp hc).length_le
      have : 0 < tok.length := List.length_pos.mpr hne
      simp only [List.nil_append, List.length_dropLast] at hlen
      omega
    · rw [containsChars_cons] at h
      have hcs : containsChars tok cs = true := by
        rcases Bool.or_eq_true_iff.mp h with h1 | h1
        · exact absurd h1 hp
        · exact h1
      obtain ⟨p1, q, hs, hno⟩ := ih hcs
      refine ⟨c :: p1, q, by simp [hs], ?_⟩
      rw [List.cons_append, containsChars_cons, hno, Bool.or_false, Bool.eq_false_iff]
      intro hpre
      apply hp
      rw [List.isPrefixOf_iff_prefix] at hpre ⊢
      refine hpre.trans ?_
      rw [hs]
      obtain ⟨t, ht⟩ := List.dropLast_prefix tok
      refine ⟨t ++ q, ?_⟩
      rw [List.cons_append, List.append_assoc, ← List.append_assoc tok.dropLast t q, ht]
      simp

/-- Every template that contains `tok` is cut by the left-to-right scan into
segments followed by `tok` and an end without `tok`. -/
theorem exists_interleave (tok : String) (hne : tok.data ≠ []) (n : Nat) :
    ∀ s : String, s.data.length ≤ n → Contains s tok = true →
      ∃ segs last, segs ≠ [] ∧ s = interleave tok last segs ∧
        (∀ seg ∈ segs, Contains (seg ++ dropLastChar tok) tok = false) ∧
        Contains last tok = false := by
  induction n with
  | zero =>
    intro s hlen hc
    have hs : s.data = [] := List.length_eq_zero.mp (Nat.le_zero.mp hlen)
    simp only [Contains, hs, containsChars, List.isEmpty_iff] at hc
    exact absurd hc hne
  | succ n ih =>
    intro s hlen hc
    obtain ⟨p, q, hs, hno⟩ := first_occurrence tok.data s.data hne hc
    have hseg : Contains (String.mk p ++ dropLastChar tok) tok = false := by
      simpa [Contains, dropLastChar, String.data_append] using hno
    by_cases hq : Contains (String.mk q) tok = true
    · have hqlen : (String.mk q).data.length ≤ n := by
        have h1 : s.data.length = p.length + tok.data.length + q.length := by
          rw [hs, List.length_append, List.length_append]
        have : 0 < tok.data.length := List.length_pos.mpr hne
        show q.length ≤ n
        omega
      obtain ⟨segs, last, _, hq2, hsegs, hlast⟩ := ih (String.mk q) hqlen hq
      refine ⟨String.mk p :: segs, last, List.cons_ne_nil _ _, ?_, ?_, hlast⟩
      · apply String.ext
        rw [data_interleave_cons, ← hq2, hs]
      · intro seg hmem
        rcases List.mem_cons.mp hmem with h1 | h1
        · rw [h1]; exact hseg
        · exact hsegs seg h1
    · refine ⟨[String.mk p], String.mk q, List.cons_ne_nil _ _, ?_, ?_, ?_⟩
      · apply String.ext
        rw [data_interleave_cons, hs]
        rfl
      · intro seg hmem
        rw [List.mem_singleton.mp hmem]; exact hseg
      · simpa using hq

theorem TokenKind.token_ne_nil (k : TokenKind) : k.token.data ≠ [] := by
  cases k <;> decide

/-- The function `EnvReplacement` substitutes the kind that is present while every kind of
higher priority is absent. -/
theorem EnvReplacement_of_highest (now : Time) (hv : now.Valid) (k : TokenKind) (s : String)
    (hk : Contains s k.token = true)
    (hhigher : ∀ j : TokenKind, j.rank < k.rank → Contains s j.token = false) :
    EnvReplacement now s = ReplaceAll s k.token (k.value now) := by
  rw [EnvReplacement_eq now hv]
  cases k with
  | yesterday =>
    have h0 : Contains s "_YESTERDAY_" = true := hk
    rw [h0]; rfl
  | yesTerDay =>
    have h0 : Contains s "_YESTERDAY_" = false := hhigher .yesterday (by decide)
    have h1 : Contains s "_YES-TER-DAY_" = true := hk
    rw [h0, h1]; rfl
  | today =>
    have h0 : Contains s "_YESTERDAY_" = false := hhigher .yesterday (by decide)
    have h1 : Contains s "_YES-TER-DAY_" = false := hhigher .yesTerDay (by decide)
    have h2 : Contains s "_TODAY_" = true := hk
    rw [h0, h1, h2]; rfl
  | toDay =>
    have h0 : Contains s "_YESTERDAY_" = false := hhigher .yesterday (by decide)
    have h1 : Contains s "_YES-TER-DAY_" = false := hhigher .yesTerDay (by decide)
    have h2 : Contains s "_TODAY_" = false := hhigher .today (by decide)
    have h3 : Contains s "_TO-DAY_" = true := hk
    rw [h0, h1, h2, h3]; rfl

/-- C10, as stated, fails where tokens share an underscore: in
`_TODAY_YESTERDAY_` the kind `_YESTERDAY_` is replaced and the lower-priority
`_TODAY_` is not left as literal text (its closing underscore is gone); in
`_YESTERDAY_YESTERDAY_` the second occurrence of the replaced kind is not
replaced. -/
theorem EnvReplacement_shared_underscore :
    Contains "_TODAY_YESTERDAY_" "_YESTERDAY_" = true ∧
      Contains "_TODAY_YESTERDAY_" "_TODAY_" = true ∧
      EnvReplacement ⟨2024, 3, 1, 12, 0, 0, 0⟩ "_TODAY_YESTERDAY_" = "_TODAY20240229" ∧
      Contains (EnvReplacement ⟨2024, 3, 1, 12, 0, 0, 0⟩ "_TODAY_YESTERDAY_") "_TODAY_" = false ∧
      EnvReplacement ⟨2024, 3, 1, 12, 0, 0, 0⟩ "_YESTERDAY_YESTERDAY_" = "20240229YESTERDAY_" := by
  decide

/-- C10, amended: `EnvReplacement` substitutes exactly one token kind per
template, the first present in the order `_YESTERDAY_`, `_YES-TER-DAY_`,
`_TODAY_`, `_TO-DAY_`.  A template without any of the four tokens is returned
unchanged.  Otherwise the result is `ReplaceAll` of the template for the chosen
kind: the left-to-right scan cuts the template into segments, each followed by
an occurrence of the chosen token, and an end; every such occurrence becomes
the date and every segment and the end are copied unchanged, so a
lower-priority token inside a segment or the end is left as literal text.
Every template that contains the chosen token has such a cut. -/
theorem EnvReplacement_one_kind_by_priority (now : Time) (hv : now.Valid) (k : TokenKind)
    (s last : String) (segs : List String) :
    ((∀ j : TokenKind, Contains s j.token = false) → EnvReplacement now s = s) ∧
    (Contains s k.token = true →
      (∀ j : TokenKind, j.rank < k.rank → Contains s j.token = false) →
      EnvReplacement now s = ReplaceAll s k.token (k.value now) ∧
      ∃ segs1 last1, segs1 ≠ [] ∧ s = interleave k.token last1 segs1 ∧
        (∀ seg ∈ segs1, Contains (seg ++ dropLastChar k.token) k.token = false) ∧
        Contains last1 k.token = false) ∧
    (segs ≠ [] →
      (∀ j : TokenKind, j.rank < k.rank →
        Contains (interleave k.token last segs) j.token = false) →
      (∀ seg ∈ segs, Contains (seg ++ dropLastChar k.token) k.token = false) →
      Contains last k.token = false →
      EnvReplacement now (interleave k.token last segs) = interleave (k.value now) last segs ∧
      ∀ (j : TokenKind) (seg : String), (seg ∈ segs ∨ seg = last) →
        Contains seg j.token = true →
        Contains (EnvReplacement now (interleave k.token last segs)) j.token = true) := by
  refine ⟨?_, ?_, ?_⟩
  · intro hnone
    have h0 : Contains s "_YESTERDAY_" = false := hnone .yesterday
    have h1 : Contains s "_YES-TER-DAY_" = false := hnone .yesTerDay
    have h2 : Contains s "_TODAY_" = false := hnone .today
    have h3 : Contains s "_TO-DAY_" = false := hnone .toDay
    rw [EnvReplacement_eq now hv, h0, h1, h2, h3]
    rfl
  · intro hk hhigher
    exact ⟨EnvReplacement_of_highest now hv k s hk hhigher,
      exists_interleave k.token k.token_ne_nil s.data.length s (le_refl _) hk⟩
  · intro hne hhigher hseg hlast
    have hk : Contains (interleave k.token last segs) k.token = true := by
      obtain ⟨seg, rest, rfl⟩ := List.exists_cons_of_ne_nil hne
      rw [Contains_iff_occurs, data_interleave_cons]
      exact ⟨seg.data, (interleave k.token last rest).data, rfl⟩
    have hres : EnvReplacement now (interleave k.token last segs)
        = interleave (k.value now) last segs := by
      rw [EnvReplacement_of_highest now hv k _ hk hhigher]
      exact ReplaceAll_interleave _ _ _ _ k.token_ne_nil hseg hlast
    refine ⟨hres, ?_⟩
    intro j seg hmem hj
    rw [hres, Contains_iff_occurs]
    exact ((Contains_iff_occurs _ _).mp hj).trans (infix_interleave _ _ _ _ hmem)

theorem EnvReplacement_one_kind_by_priority_witness :
    EnvReplacement ⟨2024, 3, 1, 12, 0, 0, 0⟩ (interleave "_TODAY_" "C" ["A_TO-DAY_B", ""])
        = interleave "20240301" "C" ["A_TO-DAY_B", ""] ∧
      interleave "_TODAY_" "C" ["A_TO-DAY_B", ""] = "A_TO-DAY_B_TODAY__TODAY_C" ∧
      interleave "20240301" "C" ["A_TO-DAY_B", ""] = "A_TO-DAY_B2024030120240301C" ∧
      Contains (EnvReplacement ⟨2024, 3, 1, 12, 0, 0, 0⟩
        (interleave "_TODAY_" "C" ["A_TO-DAY_B", ""])) "_TO-DAY_" = true ∧
      EnvReplacement ⟨2024, 3, 1, 12, 0, 0, 0⟩ "/in/F*.csv" = "/in/F*.csv" ∧
      EnvReplacement ⟨2024, 3, 1, 12, 0, 0, 0⟩ "A_TO-DAY_B_TODAY__TODAY_C"
        = ReplaceAll "A_TO-DAY_B_TODAY__TODAY_C" "_TODAY_" "20240301" := by
  have h := EnvReplacement_one_kind_by_priority ⟨2024, 3, 1, 12, 0, 0, 0⟩ (by decide)
    TokenKind.today "/in/F*.csv" "C" ["A_TO-DAY_B", ""]
  have h3 := h.2.2 (by decide) (by intro j hj; cases j <;> first | decide | exact absurd hj (by decide))
    (by decide) (by decide)
  have h1 := h.1 (by intro j; cases j <;> decide)
  have h2 := EnvReplacement_one_kind_by_priority ⟨2024, 3, 1, 12, 0, 0, 0⟩ (by decide)
    TokenKind.today "A_TO-DAY_B_TODAY__TODAY_C" "" []
  have h4 := (h2.2.1 (by decide)
    (by intro j hj; cases j <;> first | decide | exact absurd hj (by decide))).1
  exact ⟨h3.1, by decide, by decide, h3.2 TokenKind.toDay "A_TO-DAY_B" (by decide) (by decide),
    h1, h4⟩

/-! ## Exclude list: inputs with repeated names, extracted archives -/

/-- C6 at failing inputs: two files with the same base name in different
subdirectories, and a repeated line of the previous snapshot, each give an
exclude list with a duplicate entry. -/
theorem SaveExcludeFile_duplicate_entries :
    SaveExcludeFile (some ["/dst/a/x.csv", "/dst/b/x.csv"]) (some [])
        = some ["x.csv", "x.csv"] ∧
      SaveExcludeFile (some ["/dst/a/x.csv", "/dst/b/x.csv"]) (some ["f1"])
        = some ["f1", "x.csv", "x.csv"] ∧
      SaveExcludeFile (some ["/dst/f2"]) (some ["f1", "f1"]) = some ["f1", "f1", "f2"] ∧
      ¬ (["x.csv", "x.csv"] : List String).Nodup := by
  decide

/-- C7 at a failing input: the pull exits 0 and delivers the archive `data.zip`
with the member `data.csv`; the archive is extracted and removed before the
destination is listed, and the exclude list that is written and pushed is
`["data.csv"]`, without the delivered name `data.zip`. -/
theorem syncJob_extracted_archive_not_recorded :
    syncJob "/dst/" "/tmp/_dst_1" (some []) 0 [⟨"/tmp/_dst_1/data.zip", .zip ["data.csv"]⟩] []
        = some ([⟨"/dst/data.csv", .plain⟩], some ["data.csv"], some ["data.csv"]) ∧
      "data.zip" ∉ ["data.csv"] ∧
      (serializedSize ["data.csv"] : Int) ≤ 9437184 := by
  decide

/-! ## Configuration-time duplication: lemmas and the re-scanned entries -/

theorem DuplicateEnvsLoop_succ (fuel i : Nat) (dFrom dTo : List String) :
    DuplicateEnvsLoop (fuel + 1) i dFrom dTo =
      if i < dFrom.length then
        match appendVariant "_TODAY_" "_TO-DAY_" i dFrom dTo with
        | none => Outcome.indexOutOfRange
        | some (dFrom1, dTo1) =>
          match appendVariant "_YESTERDAY_" "_YES-TER-DAY_" i dFrom1 dTo1 with
          | none => Outcome.indexOutOfRange
          | some (dFrom2, dTo2) => DuplicateEnvsLoop fuel (i + 1) dFrom2 dTo2
      else Outcome.returned dFrom dTo :=
  rfl

/-- A run that returns gives the same result with more rounds allowed. -/
theorem DuplicateEnvsLoop_more_fuel (k : Nat) :
    ∀ (fuel i : Nat) (dFrom dTo a b : List String),
      DuplicateEnvsLoop fuel i dFrom dTo = Outcome.returned a b →
      DuplicateEnvsLoop (fuel + k) i dFrom dTo = Outcome.returned a b := by
  intro fuel
  induction fuel with
  | zero =>
    intro i dFrom dTo a b h
    exact Outcome.noConfusion h
  | succ n ih =>
    intro i dFrom dTo a b h
    have e : n + 1 + k = (n + k) + 1 := by omega
    rw [e, DuplicateEnvsLoop_succ]
    rw [DuplicateEnvsLoop_succ] at h
    by_cases hi : i < dFrom.length
    · rw [if_pos hi] at h ⊢
      cases h1 : appendVariant "_TODAY_" "_TO-DAY_" i dFrom dTo with
      | none => rw [h1] at h; exact Outcome.noConfusion h
      | some p1 =>
        obtain ⟨dFrom1, dTo1⟩ := p1
        rw [h1] at h
        cases h2 : appendVariant "_YESTERDAY_" "_YES-TER-DAY_" i dFrom1 dTo1 with
        | none =>
          simp only [h2] at h
          exact Outcome.noConfusion h
        | some p2 =>
          obtain ⟨dFrom2, dTo2⟩ := p2
          simp only [h2] at h ⊢
          exact ih _ _ _ _ _ h
    · rw [if_neg hi] at h ⊢
      exact h

/-- C11 at a failing input: for the single configured pair with the template
`F_TODAY_-_YESTERDAY_.csv` the loop also expands the two entries it appended
and returns five pairs, the last two equal, where the two-pass reference has
three; with no number of rounds does it return the reference. -/
theorem DuplicateEnvs_expands_appended_entries :
    DuplicateEnvs 6 ["F_TODAY_-_YESTERDAY_.csv"] ["/out/"]
        = Outcome.returned
          ["F_TODAY_-_YESTERDAY_.csv", "F_TO-DAY_-_YESTERDAY_.csv",
            "F_TODAY_-_YES-TER-DAY_.csv", "F_TO-DAY_-_YES-TER-DAY_.csv",
            "F_TO-DAY_-_YES-TER-DAY_.csv"]
          ["/out/", "/out/", "/out/", "/out/", "/out/"] ∧
      DuplicateEnvsTwoPass ["F_TODAY_-_YESTERDAY_.csv"] ["/out/"]
        = (["F_TODAY_-_YESTERDAY_.csv", "F_TO-DAY_-_YESTERDAY_.csv",
            "F_TODAY_-_YES-TER-DAY_.csv"], ["/out/", "/out/", "/out/"]) ∧
      ∀ fuel : Nat, DuplicateEnvs fuel ["F_TODAY_-_YESTERDAY_.csv"] ["/out/"]
        ≠ Outcome.returned (DuplicateEnvsTwoPass ["F_TODAY_-_YESTERDAY_.csv"] ["/out/"]).1
            (DuplicateEnvsTwoPass ["F_TODAY_-_YESTERDAY_.csv"] ["/out/"]).2 := by
  have h6 : DuplicateEnvs 6 ["F_TODAY_-_YESTERDAY_.csv"] ["/out/"]
        = Outcome.returned
          ["F_TODAY_-_YESTERDAY_.csv", "F_TO-DAY_-_YESTERDAY_.csv",
            "F_TODAY_-_YES-TER-DAY_.csv", "F_TO-DAY_-_YES-TER-DAY_.csv",
            "F_TO-DAY_-_YES-TER-DAY_.csv"]
          ["/out/", "/out/", "/out/", "/out/", "/out/"] := by decide
  refine ⟨h6, by decide, ?_⟩
  intro fuel hret
  have h1 := DuplicateEnvsLoop_more_fuel 6 fuel 0 _ _ _ _ hret
  have h2 := DuplicateEnvsLoop_more_fuel fuel 6 0 _ _ _ _ h6
  rw [Nat.add_comm 6 fuel, h1] at h2
  revert h2
  decide

/-! ## Retention sweeper, archives and job steps: evaluations -/

/-- Within the range where the product does not overflow, `IsOlderThan` is the
comparison of the elapsed time with `olderThan` hours. -/
theorem IsOlderThan_in_range (now t olderThan : Int) (h0 : 0 ≤ olderThan)
    (h1 : olderThan ≤ 2562047) :
    IsOlderThan now t olderThan = true ↔ now - t > olderThan * 3600000000000 := by
  have hw : wrapInt64 (olderThan * 3600000000000) = olderThan * 3600000000000 := by
    unfold wrapInt64
    omega
  unfold IsOlderThan Sub
  rw [hw, decide_eq_true_iff]
  split_ifs <;> omega

/-- C18 at a failing input: for `olderThan = 2562048` the 64-bit product with
`time.Hour` wraps around to a negative duration and `IsOlderThan` is true for a
file modified at this very instant, while it is false for `olderThan = 2562047`. -/
theorem IsOlderThan_overflow :
    wrapInt64 (2562048 * 3600000000000) = -9223371273709551616 ∧
      IsOlderThan 1700000000000000000 1700000000000000000 2562048 = true ∧
      IsOlderThan 1700000000000000000 1700000000000000000 2562047 = false := by
  decide

/-- C16 at a failing input: the complete file `prices.2024.export.csv`, five
hours old, is removed under a threshold of 48 hours although its name does not
start with a dot, because the unanchored pattern finds `.2024.export` in it. -/
theorem DeleteFiles_removes_complete_file :
    partialFileNameRe "prices.2024.export.csv" = true ∧
      removesEntry (5 * 3600000000000 + 1) 48
        ⟨"/dst/prices.2024.export.csv", "prices.2024.export.csv", false, 0⟩ = true ∧
      DeleteFiles (5 * 3600000000000 + 1) (some 48)
        [⟨"/dst/", "dst", true, 0⟩,
          ⟨"/dst/prices.2024.export.csv", "prices.2024.export.csv", false, 0⟩,
          ⟨"/dst/prices.csv", "prices.csv", false, 0⟩]
        = (["/dst/prices.2024.export.csv"], false) := by
  decide

/-- C17 at a failing input: with the complete-file threshold `H = 2562048`
hours a file modified one second ago, younger than both thresholds, is removed. -/
theorem DeleteFiles_removes_fresh_file :
    removesEntry 1700000001000000000 2562048
        ⟨"/dst/prices.csv", "prices.csv", false, 1700000000000000000⟩ = true ∧
      DeleteFiles 1700000001000000000 (some 2562048)
        [⟨"/dst/prices.csv", "prices.csv", false, 1700000000000000000⟩]
        = (["/dst/prices.csv"], false) ∧
      DeleteFiles 1700000001000000000 (some 2562047)
        [⟨"/dst/prices.csv", "prices.csv", false, 1700000000000000000⟩]
        = ([], false) := by
  decide

/-- C20 at a failing input: two candidates that are no archives both fail to
extract; the error returned names only the last of them. -/
theorem WorkWithArchives_reports_last_failure :
    WorkWithArchives "/dst/" [⟨"/dst/a.zip", .plain⟩, ⟨"/dst/b.zip", .plain⟩]
        = ([⟨"/dst/a.zip", .plain⟩, ⟨"/dst/b.zip", .plain⟩],
          some "Something was wrong with unarchive the file /dst/b.zip, the error: Unknown file type /dst/b.zip") ∧
      Contains "Something was wrong with unarchive the file /dst/b.zip, the error: Unknown file type /dst/b.zip"
        "/dst/a.zip" = false := by
  decide

/-- The function `LogEveryFileAndMoveIt` on deliveries with a subdirectory: a
file in a subdirectory is not moved; when a file of the same name lies directly
in the temporary directory, that one is moved, once; when the walk reaches the
file of that name after it was moved in place of the other, the function
panics. -/
theorem LogEveryFileAndMoveIt_subdirectory :
    LogEveryFileAndMoveIt "/dst/" "/tmp/_dst_1" [⟨"/tmp/_dst_1/sub/f1", .plain⟩] []
      = some ([⟨"/tmp/_dst_1/sub/f1", .plain⟩], []) ∧
    LogEveryFileAndMoveIt "/dst/" "/tmp/_dst_1"
        [⟨"/tmp/_dst_1/f1", .gzip "a"⟩, ⟨"/tmp/_dst_1/sub/f1", .plain⟩] []
      = some ([⟨"/tmp/_dst_1/sub/f1", .plain⟩], [⟨"/dst/f1", .gzip "a"⟩]) ∧
    LogEveryFileAndMoveIt "/dst/" "/tmp/_dst_1"
        [⟨"/tmp/_dst_1/a/x", .plain⟩, ⟨"/tmp/_dst_1/x", .gzip "a"⟩] []
      = none ∧
    LogEveryFileAndMoveIt "/dst/" "/tmp/_dst_1"
        [⟨"/tmp/_dst_1/f1", .plain⟩, ⟨"/tmp/_dst_1/f2", .plain⟩]
        [⟨"/dst/f1", .gzip "old"⟩, ⟨"/dst/tmp_f2", .plain⟩]
      = some ([], [⟨"/dst/f2", .plain⟩, ⟨"/dst/f1", .plain⟩]) := by
  decide

/-- The function `ListFiles` lists the sub-directories with the files, sorted
by name, and a sub-directory with a matching name is a candidate of
`WorkWithArchives` whose extraction fails. -/
theorem ListFiles_with_directories :
    ListFiles "/dst/" [⟨"/dst/file2", .plain⟩, ⟨"/dst/random123", .dir⟩,
        ⟨"/dst/sub/a", .plain⟩, ⟨"/dst/sub/b", .plain⟩, ⟨"/dst/file1", .plain⟩]
      = ["/dst/file1", "/dst/file2", "/dst/random123", "/dst/sub"] ∧
    WorkWithArchives "/dst/" [⟨"/dst/old.zip/a", .plain⟩]
      = ([⟨"/dst/old.zip/a", .plain⟩],
        some "Something was wrong with unarchive the file /dst/old.zip, the error: read /dst/old.zip: is a directory") := by
  decide

/-- Within the range where the product does not overflow, the decision of
`DeleteFiles` is the one the thresholds describe. -/
theorem removesEntry_in_range (now deleteOlderThan : Int) (e : DirEntry)
    (h4 : 4 ≤ deleteOlderThan) (hmax : deleteOlderThan ≤ 2562047) :
    (e.isDir = false → now - e.modTime > deleteOlderThan * 3600000000000 →
      removesEntry now deleteOlderThan e = true) ∧
    (e.isDir = false → partialFileNameRe e.name = true →
      now - e.modTime > 4 * 3600000000000 → removesEntry now deleteOlderThan e = true) ∧
    (now - e.modTime ≤ 4 * 3600000000000 → removesEntry now deleteOlderThan e = false) ∧
    (e.isDir = true → removesEntry now deleteOlderThan e = false) := by
  have hH := IsOlderThan_in_range now e.modTime deleteOlderThan (by omega) hmax
  have h4h := IsOlderThan_in_range now e.modTime 4 (by decide) (by decide)
  refine ⟨?_, ?_, ?_, ?_⟩
  · intro hd hage
    unfold removesEntry
    rw [hH.mpr hage, hd]
    rfl
  · intro hd hp hage
    unfold removesEntry
    rw [h4h.mpr hage, hp, hd]
    cases IsOlderThan now e.modTime deleteOlderThan <;> rfl
  · intro hage
    have f1 : IsOlderThan now e.modTime deleteOlderThan = false := by
      rw [Bool.eq_false_iff]
      intro h
      have := hH.mp h
      omega
    have f2 : IsOlderThan now e.modTime 4 = false := by
      rw [Bool.eq_false_iff]
      intro h
      have := h4h.mp h
      omega
    unfold removesEntry
    rw [f1, f2]
    rfl
  · intro hd
    unfold removesEntry
    rw [hd]
    cases IsOlderThan now e.modTime deleteOlderThan <;>
      cases IsOlderThan now e.modTime 4 <;>
      cases partialFileNameRe e.name <;> rfl

/-! ## Lemmas: the patterns of the naming deriver -/

theorem greedyPlus_cons (rest : List Char → Bool) (c : Char) (cs : List Char) :
    greedyPlus rest (c :: cs) =
      if c = '\n' then none
      else
        match greedyPlus rest cs with
        | some (p, r) => some (c :: p, r)
        | none => if rest cs then some ([c], cs) else none :=
  rfl

/-- What `greedyPlus` returns is a split of the text into a non-empty prefix
without newline and a rest on which the rest of the pattern matches. -/
theorem greedyPlus_sound (rest : List Char → Bool) (s p r : List Char)
    (h : greedyPlus rest s = some (p, r)) :
    s = p ++ r ∧ p ≠ [] ∧ '\n' ∉ p ∧ rest r = true := by
  induction s generalizing p r with
  | nil => exact Option.noConfusion h
  | cons c cs ih =>
    rw [greedyPlus_cons] at h
    by_cases hc : c = '\n'
    · rw [if_pos hc] at h; exact Option.noConfusion h
    · rw [if_neg hc] at h
      cases hg : greedyPlus rest cs with
      | some pr =>
        obtain ⟨p0, r0⟩ := pr
        rw [hg] at h
        simp only [Option.some.injEq, Prod.mk.injEq] at h
        obtain ⟨hp, hr⟩ := h
        obtain ⟨h1, _, h3, h4⟩ := ih p0 r0 hg
        subst hp hr
        refine ⟨by rw [h1]; rfl, List.cons_ne_nil _ _, ?_, h4⟩
        intro hm
        rcases List.mem_cons.mp hm with h5 | h5
        · exact hc h5.symm
        · exact h3 h5
      | none =>
        rw [hg] at h
        by_cases hr : rest cs = true
        · simp only [hr, if_true, Option.some.injEq, Prod.mk.injEq] at h
          obtain ⟨hp, hr2⟩ := h
          subst hp hr2
          refine ⟨rfl, List.cons_ne_nil _ _, ?_, hr⟩
          intro hm
          rcases List.mem_cons.mp hm with h5 | h5
          · exact hc h5.symm
          · exact absurd h5 (List.not_mem_nil _)
        · simp only [hr] at h
          exact Option.noConfusion h

/-- When `greedyPlus` fails, no split of the text would do. -/
theorem greedyPlus_none (rest : List Char → Bool) (s : List Char)
    (h : greedyPlus rest s = none) (p r : List Char) (hs : s = p ++ r) (hp : p ≠ [])
    (hn : '\n' ∉ p) : rest r = false := by
  induction s generalizing p with
  | nil =>
    have : p = [] := (List.append_eq_nil.mp hs.symm).1
    exact absurd this hp
  | cons c cs ih =>
    obtain ⟨c1, p1, rfl⟩ := List.exists_cons_of_ne_nil hp
    rw [List.cons_append] at hs
    obtain ⟨hc, hcs⟩ := List.cons.inj hs
    subst hc
    have hc : ¬ c = '\n' := fun e => hn (by rw [e]; exact List.mem_cons_self _ _)
    rw [greedyPlus_cons, if_neg hc] at h
    cases hg : greedyPlus rest cs with
    | some pr =>
      rw [hg] at h
      exact Option.noConfusion h
    | none =>
      rw [hg] at h
      have hrest : rest cs = false := by
        by_cases hr : rest cs = true
        · simp only [hr, if_true] at h
          exact Option.noConfusion h
        · exact Bool.eq_false_iff.mpr hr
      by_cases hp1 : p1 = []
      · subst hp1
        rw [List.nil_append] at hcs
        rw [← hcs]; exact hrest
      · exact ih hg p1 hcs hp1 (fun hm => hn (List.mem_cons_of_mem _ hm))

/-- No split with a longer prefix than the one `greedyPlus` returns would do. -/
theorem greedyPlus_longest (rest : List Char → Bool) (s p r : List Char)
    (h : greedyPlus rest s = some (p, r)) (p1 r1 : List Char) (hs : s = p1 ++ r1)
    (hlen : p.length < p1.length) (hn : '\n' ∉ p1) : rest r1 = false := by
  induction s generalizing p r p1 with
  | nil => exact Option.noConfusion h
  | cons c cs ih =>
    have hp1 : p1 ≠ [] := by
      intro e; rw [e] at hlen; exact Nat.not_lt_zero _ hlen
    obtain ⟨c1, p2, rfl⟩ := List.exists_cons_of_ne_nil hp1
    rw [List.cons_append] at hs
    obtain ⟨hc, hcs⟩ := List.cons.inj hs
    subst hc
    have hc : ¬ c = '\n' := fun e => hn (by rw [e]; exact List.mem_cons_self _ _)
    have hn2 : '\n' ∉ p2 := fun hm => hn (List.mem_cons_of_mem _ hm)
    rw [greedyPlus_cons, if_neg hc] at h
    cases hg : greedyPlus rest cs with
    | some pr =>
      obtain ⟨p0, r0⟩ := pr
      rw [hg] at h
      simp only [Option.some.injEq, Prod.mk.injEq] at h
      obtain ⟨hp, _⟩ := h
      subst hp
      simp only [List.length_cons, Nat.add_lt_add_iff_right] at hlen
      exact ih p0 r0 hg p2 hcs hlen hn2
    | none =>
      rw [hg] at h
      have hp2 : p2 ≠ [] := by
        intro e
        by_cases hr : rest cs = true
        · simp only [hr, if_true, Option.some.injEq, Prod.mk.injEq] at h
          rw [← h.1, e] at hlen
          exact Nat.lt_irrefl _ hlen
        · simp only [hr] at h
          exact Option.noConfusion h
      exact greedyPlus_none rest cs hg p2 r1 hcs hp2 hn2

/-- The function `greedyPlus` succeeds as soon as some split would do. -/
theorem greedyPlus_isSome (rest : List Char → Bool) (p r : List Char) (hp : p ≠ [])
    (hn : '\n' ∉ p) (hr : rest r = true) : (greedyPlus rest (p ++ r)).isSome = true := by
  cases hg : greedyPlus rest (p ++ r) with
  | some _ => rfl
  | none =>
    have := greedyPlus_none rest (p ++ r) hg p r rfl hp hn
    rw [hr] at this
    exact Bool.noConfusion this

/-- The split `greedyPlus` returns when the rest of the pattern matches at no
later position. -/
theorem greedyPlus_exact (rest : List Char → Bool) (p r : List Char) (hp : p ≠ [])
    (hn : '\n' ∉ p) (hr : rest r = true)
    (hlast : ∀ x y, r = x ++ y → x ≠ [] → rest y = false) :
    greedyPlus rest (p ++ r) = some (p, r) := by
  cases hg : greedyPlus rest (p ++ r) with
  | none =>
    have := greedyPlus_none rest (p ++ r) hg p r rfl hp hn
    rw [hr] at this
    exact Bool.noConfusion this
  | some pr =>
    obtain ⟨p1, r1⟩ := pr
    obtain ⟨hs, _, _, hr1⟩ := greedyPlus_sound rest _ p1 r1 hg
    have hlen : p1.length = p.length := by
      rcases Nat.lt_trichotomy p1.length p.length with h | h | h
      · have := greedyPlus_longest rest _ p1 r1 hg p r rfl h hn
        rw [hr] at this
        exact Bool.noConfusion this
      · exact h
      · exfalso
        obtain ⟨x, hx⟩ : ∃ x, p1 = p ++ x := by
          have hpre : p <+: p1 :=
            List.prefix_of_prefix_length_le (List.prefix_append p r)
              (by rw [hs]; exact List.prefix_append p1 r1) (Nat.le_of_lt h)
          obtain ⟨x, hx⟩ := hpre
          exact ⟨x, hx.symm⟩
        have hx0 : x ≠ [] := by
          intro e
          rw [hx, e, List.append_nil] at h
          exact Nat.lt_irrefl _ h
        rw [hx, List.append_assoc] at hs
        have hr2 : r = x ++ r1 := List.append_cancel_left hs
        have := hlast x r1 hr2 hx0
        rw [hr1] at this
        exact Bool.noConfusion this
    have hp1 : p1 = p := (List.append_inj hs.symm hlen).1
    have hr2 : r1 = r := (List.append_inj hs.symm hlen).2
    rw [hp1, hr2]

theorem findLeftmost_of_head {α : Type} (matchAt : List Char → Option α) (s : List Char)
    (m : α) (h : matchAt s = some m) : findLeftmost matchAt s = some m := by
  cases s with
  | nil => exact h
  | cons c cs =>
    show (match matchAt (c :: cs) with
      | some m => some m
      | none => findLeftmost matchAt cs) = some m
    rw [h]

/-- An unanchored search succeeds exactly when the pattern matches at the start
of some suffix of the text. -/
theorem findLeftmost_isSome {α : Type} (matchAt : List Char → Option α) (s : List Char) :
    (findLeftmost matchAt s).isSome = true ↔
      ∃ a b, s = a ++ b ∧ (matchAt b).isSome = true := by
  induction s with
  | nil =>
    constructor
    · intro h; exact ⟨[], [], rfl, h⟩
    · rintro ⟨a, b, hs, hb⟩
      have : b = [] := (List.append_eq_nil.mp hs.symm).2
      rw [this] at hb
      exact hb
  | cons c cs ih =>
    have hstep : findLeftmost matchAt (c :: cs) =
        match matchAt (c :: cs) with
        | some m => some m
        | none => findLeftmost matchAt cs := rfl
    constructor
    · intro h
      cases hm : matchAt (c :: cs) with
      | some m => exact ⟨[], c :: cs, rfl, by rw [hm]; rfl⟩
      | none =>
        rw [hstep, hm] at h
        obtain ⟨a, b, hs, hb⟩ := ih.mp h
        exact ⟨c :: a, b, by rw [hs]; rfl, hb⟩
    · rintro ⟨a, b, hs, hb⟩
      cases hm : matchAt (c :: cs) with
      | some m => rw [hstep, hm]; rfl
      | none =>
        rw [hstep, hm]
        apply ih.mpr
        cases a with
        | nil =>
          rw [List.nil_append] at hs
          rw [← hs, hm] at hb
          exact Bool.noConfusion hb
        | cons a0 a1 =>
          rw [List.cons_append] at hs
          exact ⟨a1, b, (List.cons.inj hs).2, hb⟩

theorem afterChar_eq_some (c : Char) (r xs : List Char) :
    afterChar c r = some xs ↔ r = c :: xs := by
  cases r with
  | nil => simp [afterChar]
  | cons x t =>
    simp only [afterChar]
    by_cases hx : x = c
    · rw [if_pos hx]
      simp [hx]
    · rw [if_neg hx]
      simp [hx]

theorem afterLowerAlnum_eq_some (k : Nat) (r r1 : List Char) :
    afterLowerAlnum k r = some r1 ↔
      ∃ h, r = h ++ r1 ∧ h.length = k ∧ ∀ c ∈ h, isLowerAlnum c = true := by
  unfold afterLowerAlnum
  constructor
  · intro h
    by_cases hc : k ≤ r.length ∧ (r.take k).all isLowerAlnum = true
    · rw [if_pos hc] at h
      have h1 : r.drop k = r1 := Option.some.inj h
      refine ⟨r.take k, ?_, ?_, ?_⟩
      · rw [← h1, List.take_append_drop]
      · rw [List.length_take]; omega
      · exact List.all_eq_true.mp hc.2
    · rw [if_neg hc] at h
      exact Option.noConfusion h
  · rintro ⟨h, hr, hk, hall⟩
    have ht : r.take k = h := by
      rw [hr, ← hk, List.take_left]
    have hd : r.drop k = r1 := by
      rw [hr, ← hk, List.drop_left]
    have hc : k ≤ r.length ∧ (r.take k).all isLowerAlnum = true := by
      refine ⟨?_, ?_⟩
      · rw [hr, List.length_append]; omega
      · rw [ht]; exact List.all_eq_true.mpr hall
    rw [if_pos hc, hd]

/-- The pattern `-([a-z0-9]{8,10}-[a-z0-9]{5})` matches at the start of a text
exactly when the text starts with a dash, 8 to 10 lowercase alphanumerics, a
dash and 5 lowercase alphanumerics. -/
theorem hashSuffix_iff (r : List Char) :
    hashSuffix r = true ↔
      ∃ h1 h2 z, r = '-' :: (h1 ++ '-' :: (h2 ++ z)) ∧ 8 ≤ h1.length ∧ h1.length ≤ 10 ∧
        (∀ c ∈ h1, isLowerAlnum c = true) ∧ h2.length = 5 ∧
        (∀ c ∈ h2, isLowerAlnum c = true) := by
  unfold hashSuffix
  constructor
  · intro h
    cases h1 : afterChar '-' r with
    | none => rw [h1] at h; exact Bool.noConfusion h
    | some r1 =>
      rw [h1] at h
      simp only [List.any_eq_true] at h
      obtain ⟨k, hk, hm⟩ := h
      cases h2 : afterLowerAlnum k r1 with
      | none => rw [h2] at hm; exact Bool.noConfusion hm
      | some r2 =>
        rw [h2] at hm
        cases h3 : afterChar '-' r2 with
        | none => simp only [h3] at hm; exact Bool.noConfusion hm
        | some r3 =>
          simp only [h3] at hm
          cases h4 : afterLowerAlnum 5 r3 with
          | none => rw [h4] at hm; exact Bool.noConfusion hm
          | some r4 =>
            obtain ⟨a, ha, hal, haa⟩ := (afterLowerAlnum_eq_some _ _ _).mp h2
            obtain ⟨b, hb, hbl, hba⟩ := (afterLowerAlnum_eq_some _ _ _).mp h4
            refine ⟨a, b, r4, ?_, ?_, ?_, haa, hbl, hba⟩
            · rw [(afterChar_eq_some _ _ _).mp h1, ha, (afterChar_eq_some _ _ _).mp h3, hb]
            · simp only [List.mem_cons, List.mem_singleton, List.not_mem_nil, or_false] at hk
              omega
            · simp only [List.mem_cons, List.mem_singleton, List.not_mem_nil, or_false] at hk
              omega
  · rintro ⟨h1, h2, z, hr, hl1, hl2, ha1, hl5, ha2⟩
    have e1 : afterChar '-' r = some (h1 ++ '-' :: (h2 ++ z)) :=
      (afterChar_eq_some _ _ _).mpr hr
    have e2 : afterLowerAlnum h1.length (h1 ++ '-' :: (h2 ++ z)) = some ('-' :: (h2 ++ z)) :=
      (afterLowerAlnum_eq_some _ _ _).mpr ⟨h1, rfl, rfl, ha1⟩
    have e3 : afterChar '-' ('-' :: (h2 ++ z)) = some (h2 ++ z) :=
      (afterChar_eq_some _ _ _).mpr rfl
    have e4 : afterLowerAlnum 5 (h2 ++ z) = some z :=
      (afterLowerAlnum_eq_some _ _ _).mpr ⟨h2, rfl, hl5, ha2⟩
    rw [e1]
    simp only [List.any_eq_true]
    refine ⟨h1.length, ?_, ?_⟩
    · simp only [List.mem_cons, List.mem_singleton, List.not_mem_nil, or_false]
      omega
    · rw [e2]
      simp only [e3, e4]
      rfl

theorem isLowerAlnum_dash : isLowerAlnum '-' = false := by decide

theorem isLower_slash : isLower '/' = false := by decide

theorem plusToEnd_iff (y : List Char) : plusToEnd y = true ↔ y ≠ [] ∧ '\n' ∉ y := by
  unfold plusToEnd
  rw [Bool.and_eq_true, List.all_eq_true]
  constructor
  · rintro ⟨h1, h2⟩
    refine ⟨?_, ?_⟩
    · intro e; rw [e] at h1; exact Bool.noConfusion h1
    · intro hm
      have := h2 _ hm
      exact absurd this (by decide)
  · rintro ⟨h1, h2⟩
    refine ⟨?_, ?_⟩
    · cases y with
      | nil => exact absurd rfl h1
      | cons a t => rfl
    · intro c hc
      by_cases e : c = '\n'
      · rw [e] at hc; exact absurd hc h2
      · simpa using e

theorem greedyPlus_isSome_iff (rest : List Char → Bool) (s : List Char) :
    (greedyPlus rest s).isSome = true ↔
      ∃ p r, s = p ++ r ∧ p ≠ [] ∧ '\n' ∉ p ∧ rest r = true := by
  constructor
  · intro h
    cases hg : greedyPlus rest s with
    | none => rw [hg] at h; exact Bool.noConfusion h
    | some pr =>
      obtain ⟨p, r⟩ := pr
      exact ⟨p, r, greedyPlus_sound rest s p r hg⟩
  · rintro ⟨p, r, hs, hp, hn, hr⟩
    rw [hs]
    exact greedyPlus_isSome rest p r hp hn hr

/-- The group `(\/[a-z].+/.+$)` matches at the start of a text exactly when the
text is a slash, a lowercase letter, at least one character, a slash and at
least one character, without a newline. -/
theorem pathGroup_iff (r : List Char) :
    pathGroup r = true ↔
      ∃ d x y, r = '/' :: d :: (x ++ '/' :: y) ∧ isLower d = true ∧ x ≠ [] ∧ '\n' ∉ x ∧
        y ≠ [] ∧ '\n' ∉ y := by
  unfold pathGroup
  constructor
  · intro h
    cases h1 : afterChar '/' r with
    | none => rw [h1] at h; exact Bool.noConfusion h
    | some r1 =>
      rw [h1] at h
      cases r1 with
      | nil => exact Bool.noConfusion h
      | cons d r2 =>
        simp only [Bool.and_eq_true] at h
        obtain ⟨hd, hg⟩ := h
        obtain ⟨x, r3, hs, hx, hxn, hr3⟩ := (greedyPlus_isSome_iff _ _).mp hg
        cases h4 : afterChar '/' r3 with
        | none => simp only [h4] at hr3; exact Bool.noConfusion hr3
        | some y =>
          simp only [h4] at hr3
          obtain ⟨hy, hyn⟩ := (plusToEnd_iff y).mp hr3
          refine ⟨d, x, y, ?_, hd, hx, hxn, hy, hyn⟩
          rw [(afterChar_eq_some _ _ _).mp h1, hs, (afterChar_eq_some _ _ _).mp h4]
  · rintro ⟨d, x, y, hr, hd, hx, hxn, hy, hyn⟩
    have e1 : afterChar '/' r = some (d :: (x ++ '/' :: y)) := (afterChar_eq_some _ _ _).mpr hr
    rw [e1]
    simp only [Bool.and_eq_true]
    refine ⟨hd, ?_⟩
    apply greedyPlus_isSome _ x ('/' :: y) hx hxn
    have e2 : afterChar '/' ('/' :: y) = some y := (afterChar_eq_some _ _ _).mpr rfl
    simp only [e2]
    exact (plusToEnd_iff y).mpr ⟨hy, hyn⟩

theorem pathGroup_no_newline (r : List Char) (h : pathGroup r = true) : '\n' ∉ r := by
  obtain ⟨d, x, y, hr, hd, _, hxn, _, hyn⟩ := (pathGroup_iff r).mp h
  rw [hr]
  intro hm
  rcases List.mem_cons.mp hm with h1 | h1
  · exact absurd h1 (by decide)
  · rcases List.mem_cons.mp h1 with h2 | h2
    · rw [← h2] at hd; exact absurd hd (by decide)
    · rcases List.mem_append.mp h2 with h3 | h3
      · exact hxn h3
      · rcases List.mem_cons.mp h3 with h4 | h4
        · exact absurd h4 (by decide)
        · exact hyn h4

theorem pathGroup_two_slashes (r : List Char) (h : pathGroup r = true) :
    2 ≤ r.count '/' := by
  obtain ⟨d, x, y, hr, _⟩ := (pathGroup_iff r).mp h
  rw [hr]
  simp only [List.count_cons_self, List.count_cons, List.count_append]
  omega

theorem hashSuffix_two_dashes (r : List Char) (h : hashSuffix r = true) :
    2 ≤ r.count '-' := by
  obtain ⟨h1, h2, z, hr, _⟩ := (hashSuffix_iff r).mp h
  rw [hr]
  simp only [List.count_cons_self, List.count_cons, List.count_append]
  omega

theorem count_eq_zero_of_all (c : Char) (f : Char → Bool) (l : List Char)
    (hf : f c = false) (h : ∀ x ∈ l, f x = true) : l.count c = 0 := by
  rw [List.count_eq_zero]
  intro hm
  have := h c hm
  rw [hf] at this
  exact Bool.noConfusion this

/-- The first submatch for a pod name that is a deployment name followed by
the two hashes is the deployment name. -/
theorem podNameRe_of_two_hashes (D h1 h2 : List Char) (hD : D ≠ []) (hDn : '\n' ∉ D)
    (hl1 : 8 ≤ h1.length ∧ h1.length ≤ 10) (ha1 : ∀ c ∈ h1, isLowerAlnum c = true)
    (hl2 : h2.length = 5) (ha2 : ∀ c ∈ h2, isLowerAlnum c = true) :
    findLeftmost (greedyPlus hashSuffix) (D ++ '-' :: (h1 ++ '-' :: h2))
      = some (D, '-' :: (h1 ++ '-' :: h2)) := by
  apply findLeftmost_of_head
  apply greedyPlus_exact _ _ _ hD hDn
  · exact (hashSuffix_iff _).mpr ⟨h1, h2, [], by simp, hl1.1, hl1.2, ha1, hl2, ha2⟩
  · intro x y hxy hx
    rw [Bool.eq_false_iff]
    intro hy
    have h2d := hashSuffix_two_dashes y hy
    obtain ⟨x0, x1, rfl⟩ := List.exists_cons_of_ne_nil hx
    rw [List.cons_append] at hxy
    have hc := congrArg (List.count '-') (List.cons.inj hxy).2
    have c1 := count_eq_zero_of_all '-' isLowerAlnum h1 isLowerAlnum_dash ha1
    have c2 := count_eq_zero_of_all '-' isLowerAlnum h2 isLowerAlnum_dash ha2
    simp only [List.count_append, List.count_cons_self, c1, c2] at hc
    omega

/-- The second submatch for a template that ends in a directory and a file
after user and host: the path of these two components. -/
theorem dFromPathAt_of_two_components (u host dir file : List Char) (d : Char)
    (hu : u ≠ []) (hun : '\n' ∉ u) (hh : host ≠ []) (hhn : '\n' ∉ host)
    (hd : isLower d = true) (hdir : dir ≠ []) (hds : '/' ∉ dir) (hdn : '\n' ∉ dir)
    (hf : file ≠ []) (hfs : '/' ∉ file) (hfn : '\n' ∉ file) :
    dFromPathAt ("rsync".data ++ (u ++ '@' :: (host ++ '/' :: d :: (dir ++ '/' :: file))))
      = some ('/' :: d :: (dir ++ '/' :: file)) := by
  have hS : pathGroup ('/' :: d :: (dir ++ '/' :: file)) = true :=
    (pathGroup_iff _).mpr ⟨d, dir, file, rfl, hd, hdir, hdn, hf, hfn⟩
  have hcount : ('/' :: d :: (dir ++ '/' :: file)).count '/' = 2 := by
    have hd0 : ¬ d = '/' := by
      intro e; rw [e] at hd; exact absurd hd (by decide)
    have c1 : dir.count '/' = 0 := List.count_eq_zero.mpr hds
    have c2 : file.count '/' = 0 := List.count_eq_zero.mpr hfs
    simp [List.count_cons, List.count_append, c1, c2, hd0]
  have hpre : "rsync".data.isPrefixOf
      ("rsync".data ++ (u ++ '@' :: (host ++ '/' :: d :: (dir ++ '/' :: file)))) = true := by
    rw [List.isPrefixOf_iff_prefix]
    exact List.prefix_append _ _
  have hdrop : ("rsync".data ++ (u ++ '@' :: (host ++ '/' :: d :: (dir ++ '/' :: file)))).drop 5
      = u ++ '@' :: (host ++ '/' :: d :: (dir ++ '/' :: file)) := by
    have : "rsync".data.length = 5 := by decide
    rw [← this, List.drop_left]
  unfold dFromPathAt
  rw [if_pos hpre, hdrop]
  have hrest : (atHostPath ('@' :: (host ++ '/' :: d :: (dir ++ '/' :: file)))).isSome = true := by
    unfold atHostPath
    rw [(afterChar_eq_some _ _ _).mpr rfl]
    simp only [Option.isSome_map']
    exact greedyPlus_isSome _ host _ hh hhn hS
  cases hg : greedyPlus (fun r => (atHostPath r).isSome)
      (u ++ '@' :: (host ++ '/' :: d :: (dir ++ '/' :: file))) with
  | none =>
    have := greedyPlus_none _ _ hg u _ rfl hu hun
    simp only [hrest] at this
    exact Bool.noConfusion this
  | some pr =>
    obtain ⟨p, r⟩ := pr
    obtain ⟨hs, _, _, hr⟩ := greedyPlus_sound _ _ p r hg
    simp only
    unfold atHostPath at hr ⊢
    cases h1 : afterChar '@' r with
    | none => rw [h1] at hr; exact Bool.noConfusion hr
    | some r1 =>
      rw [h1] at hr
      simp only [Option.isSome_map'] at hr
      cases h2 : greedyPlus pathGroup r1 with
      | none => rw [h2] at hr; exact Bool.noConfusion hr
      | some xy =>
        obtain ⟨x, y⟩ := xy
        simp only [Option.map_some']
        obtain ⟨hxy, hx, hxn, hy⟩ := greedyPlus_sound _ _ x y h2
        have hr1 := (afterChar_eq_some _ _ _).mp h1
        have hsuf1 : y <:+ u ++ '@' :: (host ++ '/' :: d :: (dir ++ '/' :: file)) := by
          rw [hs, hr1, hxy]
          exact ⟨p ++ '@' :: x, by simp⟩
        have hsuf2 : ('/' :: d :: (dir ++ '/' :: file))
            <:+ u ++ '@' :: (host ++ '/' :: d :: (dir ++ '/' :: file)) :=
          ⟨u ++ '@' :: host, by simp⟩
        have hyS : y = '/' :: d :: (dir ++ '/' :: file) := by
          rcases List.suffix_or_suffix_of_suffix hsuf1 hsuf2 with h3 | h3
          · obtain ⟨z, hz⟩ := h3
            by_cases hz0 : z = []
            · rw [hz0, List.nil_append] at hz
              exact hz
            · exfalso
              obtain ⟨z0, z1, rfl⟩ := List.exists_cons_of_ne_nil hz0
              have h2s := pathGroup_two_slashes y hy
              have hc := congrArg (List.count '/') hz
              rw [hcount, List.count_append] at hc
              have hz0s : z0 = '/' := by
                rw [List.cons_append] at hz
                exact (List.cons.inj hz).1
              rw [hz0s, List.count_cons_self] at hc
              omega
          · obtain ⟨z, hz⟩ := h3
            by_cases hz0 : z = []
            · rw [hz0, List.nil_append] at hz
              exact hz.symm
            · exfalso
              have hyn := pathGroup_no_newline y hy
              have hxz : '\n' ∉ x ++ z := by
                intro hm
                rcases List.mem_append.mp hm with h4 | h4
                · exact hxn h4
                · exact hyn (by rw [← hz]; exact List.mem_append_left _ h4)
              have := greedyPlus_longest _ _ x y h2 (x ++ z) _
                (by rw [hxy, ← hz, List.append_assoc]) (by
                  rw [List.length_append]
                  have : 0 < z.length := List.length_pos.mpr hz0
                  omega) hxz
              rw [hS] at this
              exact Bool.noConfusion this
        rw [h2, hyS]
        rfl

/-! ## Lemmas: inserted dashes -/

theorem InsDash.refl (t : List Char) : InsDash t t := by
  induction t with
  | nil => exact InsDash.nil
  | cons c t ih => exact InsDash.keep c t t ih

theorem InsDash.append {a b c d : List Char} (h1 : InsDash a b) (h2 : InsDash c d) :
    InsDash (a ++ c) (b ++ d) := by
  induction h1 with
  | nil => exact h2
  | keep x t v _ ih => exact InsDash.keep x _ _ ih
  | ins t v _ ih => exact InsDash.ins _ _ ih

theorem InsDash.split_left (a w : List Char) :
    ∀ t, InsDash t (a ++ w) → ∃ a1 t1, t = a1 ++ t1 ∧ InsDash t1 w := by
  induction a with
  | nil => intro t h; exact ⟨[], t, rfl, h⟩
  | cons c a ih =>
    intro t h
    rw [List.cons_append] at h
    cases h with
    | keep _ t0 _ h0 =>
      obtain ⟨a1, t1, ht, h1⟩ := ih t0 h0
      exact ⟨c :: a1, t1, by rw [ht]; rfl, h1⟩
    | ins _ _ h0 => exact ih t h0

theorem InsDash.starts_with (y b : List Char) (hy : '-' ∉ y) :
    ∀ t, InsDash t (y ++ b) → ∃ b1, t = y ++ b1 := by
  induction y with
  | nil => intro t _; exact ⟨t, rfl⟩
  | cons c y ih =>
    intro t h
    rw [List.cons_append] at h
    cases h with
    | keep _ t0 _ h0 =>
      obtain ⟨b1, hb⟩ := ih (fun hm => hy (List.mem_cons_of_mem _ hm)) t0 h0
      exact ⟨b1, by rw [hb]; rfl⟩
    | ins _ _ h0 => exact absurd (List.mem_cons_self _ _) hy

/-- A text without dash that occurs after dashes were inserted occurred
before. -/
theorem InsDash.occurs (t v y : List Char) (h : InsDash t v) (hy : '-' ∉ y)
    (hv : containsChars y v = true) : containsChars y t = true := by
  rw [containsChars_iff_occurs] at hv ⊢
  obtain ⟨a, b, hab⟩ := hv
  rw [← hab, List.append_assoc] at h
  obtain ⟨a1, t1, ht, h1⟩ := InsDash.split_left a (y ++ b) t h
  obtain ⟨b1, hb⟩ := InsDash.starts_with y b hy t1 h1
  exact ⟨a1, b1, by rw [ht, hb, List.append_assoc]⟩

/-- The replacement of a token by the token with dashes inserted only inserts
dashes into the template. -/
theorem InsDash.replaceAll (tok new : List Char) (hne : tok ≠ []) (hins : InsDash tok new)
    (n : Nat) : ∀ s : List Char, s.length ≤ n → InsDash s (replaceAllChars tok new 0 s) := by
  induction n with
  | zero =>
    intro s hs
    have : s = [] := List.length_eq_zero.mp (Nat.le_zero.mp hs)
    rw [this]
    exact InsDash.nil
  | succ n ih =>
    intro s hs
    by_cases hc : containsChars tok s = true
    · obtain ⟨p, q, hpq, hno⟩ := first_occurrence tok s hne hc
      rw [hpq, replaceAllChars_first tok new p q hne hno]
      have hq : q.length ≤ n := by
        have h1 : s.length = p.length + tok.length + q.length := by
          rw [hpq, List.length_append, List.length_append]
        have : 0 < tok.length := List.length_pos.mpr hne
        omega
      exact InsDash.append (InsDash.append (InsDash.refl p) hins) (ih q hq)
    · rw [replaceAllChars_absent tok new s (Bool.eq_false_iff.mpr hc)]
      exact InsDash.refl s

theorem InsDash.today : InsDash "_TODAY_".data "_TO-DAY_".data :=
  InsDash.keep _ _ _ (InsDash.keep _ _ _ (InsDash.keep _ _ _ (InsDash.ins _ _
    (InsDash.keep _ _ _ (InsDash.keep _ _ _ (InsDash.keep _ _ _ (InsDash.keep _ _ _
      InsDash.nil)))))))

theorem InsDash.yesterday : InsDash "_YESTERDAY_".data "_YES-TER-DAY_".data :=
  InsDash.keep _ _ _ (InsDash.keep _ _ _ (InsDash.keep _ _ _ (InsDash.keep _ _ _
    (InsDash.ins _ _ (InsDash.keep _ _ _ (InsDash.keep _ _ _ (InsDash.keep _ _ _
      (InsDash.ins _ _ (InsDash.keep _ _ _ (InsDash.keep _ _ _ (InsDash.keep _ _ _
        (InsDash.keep _ _ _ InsDash.nil))))))))))))

/-- The `_TO-DAY_` variant of a template contains `_YESTERDAY_` only if the
template does. -/
theorem variant_today_no_yesterday (src : String)
    (h : Contains src "_YESTERDAY_" = false) :
    Contains (ReplaceAll src "_TODAY_" "_TO-DAY_") "_YESTERDAY_" = false := by
  rw [Bool.eq_false_iff] at h ⊢
  intro hv
  apply h
  exact InsDash.occurs src.data _ "_YESTERDAY_".data
    (InsDash.replaceAll _ _ (by decide) InsDash.today src.data.length src.data (le_refl _))
    (by decide) hv

/-- The `_YES-TER-DAY_` variant of a template contains `_TODAY_` only if the
template does. -/
theorem variant_yesterday_no_today (src : String)
    (h : Contains src "_TODAY_" = false) :
    Contains (ReplaceAll src "_YESTERDAY_" "_YES-TER-DAY_") "_TODAY_" = false := by
  rw [Bool.eq_false_iff] at h ⊢
  intro hv
  apply h
  exact InsDash.occurs src.data _ "_TODAY_".data
    (InsDash.replaceAll _ _ (by decide) InsDash.yesterday src.data.length src.data (le_refl _))
    (by decide) hv

/-! ## Configuration-time duplication: one configured pair -/

theorem appendVariant_absent (tok new : String) (i : Nat) (dFrom dTo : List String)
    (src : String) (h1 : dFrom[i]? = some src) (h2 : Contains src tok = false) :
    appendVariant tok new i dFrom dTo = some (dFrom, dTo) := by
  unfold appendVariant
  rw [h1]
  simp only [h2]
  rfl

theorem appendVariant_present (tok new : String) (i : Nat) (dFrom dTo : List String)
    (src d : String) (h1 : dFrom[i]? = some src) (h2 : Contains src tok = true)
    (h3 : dTo[i]? = some d) :
    appendVariant tok new i dFrom dTo = some (dFrom ++ [ReplaceAll src tok new], dTo ++ [d]) := by
  unfold appendVariant
  rw [h1]
  simp only [h2, h3]
  rfl

/-- C12, as stated, fails: a single pair whose template contains `_TODAY_` and
also `_YESTERDAY_` yields five pairs, and the template `_TODAY_TODAY_` yields
three. -/
theorem DuplicateEnvs_more_than_two_pairs :
    Contains "F_TODAY_-_YESTERDAY_.csv" "_TODAY_" = true ∧
      DuplicateEnvs 6 ["F_TODAY_-_YESTERDAY_.csv"] ["/out/"]
        = Outcome.returned
          ["F_TODAY_-_YESTERDAY_.csv", "F_TO-DAY_-_YESTERDAY_.csv",
            "F_TODAY_-_YES-TER-DAY_.csv", "F_TO-DAY_-_YES-TER-DAY_.csv",
            "F_TO-DAY_-_YES-TER-DAY_.csv"]
          ["/out/", "/out/", "/out/", "/out/", "/out/"] ∧
      Contains "F_TODAY_TODAY_.csv" "_TODAY_" = true ∧
      DuplicateEnvs 4 ["F_TODAY_TODAY_.csv"] ["/out/"]
        = Outcome.returned
          ["F_TODAY_TODAY_.csv", "F_TO-DAY_TODAY_.csv", "F_TO-DAY_TO-DAY_.csv"]
          ["/out/", "/out/", "/out/"] := by
  decide

/-- C12, amended: a single configured pair `(T, D)` whose template contains
`_TODAY_`, does not contain `_YESTERDAY_`, and whose `_TO-DAY_` variant no
longer contains `_TODAY_`, yields exactly two pairs, the original `(T, D)` and
`(T with _TODAY_ replaced by _TO-DAY_, D)`; the loop returns after three
rounds. -/
theorem DuplicateEnvs_single_today (T D : String) (fuel : Nat) (hfuel : 3 ≤ fuel)
    (h1 : Contains T "_TODAY_" = true) (h2 : Contains T "_YESTERDAY_" = false)
    (h3 : Contains (ReplaceAll T "_TODAY_" "_TO-DAY_") "_TODAY_" = false) :
    DuplicateEnvs fuel [T] [D]
      = Outcome.returned [T, ReplaceAll T "_TODAY_" "_TO-DAY_"] [D, D] := by
  obtain ⟨n, rfl⟩ : ∃ n, fuel = n + 3 := ⟨fuel - 3, by omega⟩
  have h4 := variant_today_no_yesterday T h2
  unfold DuplicateEnvs
  rw [DuplicateEnvsLoop_succ, if_pos (by simp),
    appendVariant_present "_TODAY_" "_TO-DAY_" 0 [T] [D] T D rfl h1 rfl]
  simp only
  rw [appendVariant_absent "_YESTERDAY_" "_YES-TER-DAY_" 0 _ _ T rfl h2]
  simp only
  rw [DuplicateEnvsLoop_succ, if_pos (by simp),
    appendVariant_absent "_TODAY_" "_TO-DAY_" (0 + 1) _ _ _ rfl h3]
  simp only
  rw [appendVariant_absent "_YESTERDAY_" "_YES-TER-DAY_" (0 + 1) _ _ _ rfl h4]
  simp only
  rw [DuplicateEnvsLoop_succ, if_neg (by simp)]
  rfl

theorem DuplicateEnvs_single_today_witness :
    DuplicateEnvs 3 ["rsync://USERNAME@server-name/pullcsv/some-files/*_TODAY_*csv"]
        ["/path_in_pod/csv/in/"]
      = Outcome.returned
        ["rsync://USERNAME@server-name/pullcsv/some-files/*_TODAY_*csv",
          ReplaceAll "rsync://USERNAME@server-name/pullcsv/some-files/*_TODAY_*csv"
            "_TODAY_" "_TO-DAY_"]
        ["/path_in_pod/csv/in/", "/path_in_pod/csv/in/"] ∧
      ReplaceAll "rsync://USERNAME@server-name/pullcsv/some-files/*_TODAY_*csv"
          "_TODAY_" "_TO-DAY_"
        = "rsync://USERNAME@server-name/pullcsv/some-files/*_TO-DAY_*csv" :=
  ⟨DuplicateEnvs_single_today "rsync://USERNAME@server-name/pullcsv/some-files/*_TODAY_*csv"
      "/path_in_pod/csv/in/" 3 (by decide) (by decide) (by decide) (by decide),
    by decide⟩

/-! ## Naming deriver: the name of a pair -/

theorem podNameRe_two_hashes (D h1 h2 : String) (hD : D.data ≠ []) (hDn : '\n' ∉ D.data)
    (hl1 : 8 ≤ h1.data.length ∧ h1.data.length ≤ 10)
    (ha1 : ∀ c ∈ h1.data, isLowerAlnum c = true)
    (hl2 : h2.data.length = 5) (ha2 : ∀ c ∈ h2.data, isLowerAlnum c = true) :
    podNameRe (D ++ "-" ++ h1 ++ "-" ++ h2) = some D := by
  have hdata : (D ++ "-" ++ h1 ++ "-" ++ h2).data
      = D.data ++ '-' :: (h1.data ++ '-' :: h2.data) := by
    simp only [String.data_append]
    show D.data ++ ['-'] ++ h1.data ++ ['-'] ++ h2.data = _
    simp
  unfold podNameRe
  rw [hdata, podNameRe_of_two_hashes D.data h1.data h2.data hD hDn hl1 ha1 hl2 ha2]
  rfl

theorem dFromPathRe_dir_and_file (user host share dir file : String)
    (hu : '\n' ∉ user.data) (hh : '\n' ∉ host.data) (hs : '\n' ∉ share.data)
    (hdir : ∃ d rest, dir.data = d :: rest ∧ isLower d = true ∧ rest ≠ [])
    (hds : '/' ∉ dir.data) (hdn : '\n' ∉ dir.data)
    (hf : file.data ≠ []) (hfs : '/' ∉ file.data) (hfn : '\n' ∉ file.data) :
    dFromPathRe ("rsync://" ++ user ++ "@" ++ host ++ "/" ++ share ++ "/" ++ dir ++ "/" ++ file)
      = some ("/" ++ dir ++ "/" ++ file) := by
  obtain ⟨d, rest, hd, hlow, hrest⟩ := hdir
  have hdata : ("rsync://" ++ user ++ "@" ++ host ++ "/" ++ share ++ "/" ++ dir ++ "/"
        ++ file).data
      = "rsync".data ++ (("://".data ++ user.data) ++ '@' :: ((host.data ++ '/' :: share.data)
          ++ '/' :: d :: (rest ++ '/' :: file.data))) := by
    simp only [String.data_append, hd]
    show "rsync://".data ++ user.data ++ ['@'] ++ host.data ++ ['/'] ++ share.data ++ ['/']
      ++ d :: rest ++ ['/'] ++ file.data = _
    have : "rsync://".data = "rsync".data ++ "://".data := by decide
    rw [this]
    simp
  have hres : ("/" ++ dir ++ "/" ++ file).data = '/' :: d :: (rest ++ '/' :: file.data) := by
    simp only [String.data_append, hd]
    show ['/'] ++ d :: rest ++ ['/'] ++ file.data = _
    simp
  have hrs : '/' ∉ rest := fun hm => hds (by rw [hd]; exact List.mem_cons_of_mem _ hm)
  have hrn : '\n' ∉ rest := fun hm => hdn (by rw [hd]; exact List.mem_cons_of_mem _ hm)
  have hun : '\n' ∉ "://".data ++ user.data := by
    intro hm
    rcases List.mem_append.mp hm with h | h
    · exact absurd h (by decide)
    · exact hu h
  have hhn : '\n' ∉ host.data ++ '/' :: share.data := by
    intro hm
    rcases List.mem_append.mp hm with h | h
    · exact hh h
    · rcases List.mem_cons.mp h with h1 | h1
      · exact absurd h1 (by decide)
      · exact hs h1
  unfold dFromPathRe
  rw [hdata, findLeftmost_of_head dFromPathAt _ _
    (dFromPathAt_of_two_components ("://".data ++ user.data) (host.data ++ '/' :: share.data)
      rest file.data d (by simp) hun (by simp) hhn hlow hrest hrs hrn hf hfs hfn)]
  apply congrArg some
  apply String.ext
  rw [hres]

/-- C13, as stated, fails: for a template with three path components after the
share the name is built from the last two only, and for a directory that does
not start with a lowercase letter the share becomes part of the name. -/
theorem GetExludeFileName_not_whole_path :
    GetExludeFileName "myapp-5448486d5c-qjpvq" "N"
        "rsync://user@host/share/data/shops/FULLSTOCK*" "/out/"
        = ("myapp_shops_FULLSTOCK-N_out_-excludeFile", none) ∧
      "myapp" ++ removeStars (slashToUnderscore "/data/shops/FULLSTOCK*") ++ "-" ++ "N"
          ++ slashToUnderscore "/out/" ++ "-excludeFile"
        = "myapp_data_shops_FULLSTOCK-N_out_-excludeFile" ∧
      GetExludeFileName "myapp-5448486d5c-qjpvq" "N"
        "rsync://user@host/share/Shops/FULLSTOCK*" "/out/"
        = ("myapp_share_Shops_FULLSTOCK-N_out_-excludeFile", none) := by
  decide

/-- C13, amended: for a pod name `D-<8 to 10 lowercase alphanumerics>-<5
lowercase alphanumerics>` with `D` not empty, and a source template
`rsync://user@host/share` followed by `S = /dir/file`, where `dir` starts with
a lowercase letter and has at least two characters, `file` is not empty, neither
contains a slash and nothing contains a newline, `GetExludeFileName` returns
`D + S' + "-" + N + P' + "-excludeFile"` and no error, where `S'` is `S` with
every `/` replaced by `_` and every `*` removed and `P'` is `P` with every `/`
replaced by `_`. -/
theorem GetExludeFileName_of_dir_and_file
    (D h1 h2 user host share dir file N P : String)
    (hD : D.data ≠ []) (hDn : '\n' ∉ D.data)
    (hl1 : 8 ≤ h1.data.length ∧ h1.data.length ≤ 10)
    (ha1 : ∀ c ∈ h1.data, isLowerAlnum c = true)
    (hl2 : h2.data.length = 5) (ha2 : ∀ c ∈ h2.data, isLowerAlnum c = true)
    (hu : '\n' ∉ user.data) (hh : '\n' ∉ host.data) (hs : '\n' ∉ share.data)
    (hdir : ∃ d rest, dir.data = d :: rest ∧ isLower d = true ∧ rest ≠ [])
    (hds : '/' ∉ dir.data) (hdn : '\n' ∉ dir.data)
    (hf : file.data ≠ []) (hfs : '/' ∉ file.data) (hfn : '\n' ∉ file.data) :
    GetExludeFileName (D ++ "-" ++ h1 ++ "-" ++ h2) N
        ("rsync://" ++ user ++ "@" ++ host ++ "/" ++ share ++ "/" ++ dir ++ "/" ++ file) P
      = (D ++ removeStars (slashToUnderscore ("/" ++ dir ++ "/" ++ file)) ++ "-" ++ N
          ++ slashToUnderscore P ++ "-excludeFile", none) := by
  unfold GetExludeFileName
  rw [podNameRe_two_hashes D h1 h2 hD hDn hl1 ha1 hl2 ha2,
    dFromPathRe_dir_and_file user host share dir file hu hh hs hdir hds hdn hf hfs hfn]

theorem GetExludeFileName_of_dir_and_file_witness :
    GetExludeFileName ("myapp" ++ "-" ++ "5448486d5c" ++ "-" ++ "qjpvq") "N"
        ("rsync://" ++ "user" ++ "@" ++ "host" ++ "/" ++ "share" ++ "/" ++ "shops" ++ "/"
          ++ "FULLSTOCK*") "/out/"
        = ("myapp" ++ removeStars (slashToUnderscore ("/" ++ "shops" ++ "/" ++ "FULLSTOCK*"))
            ++ "-" ++ "N" ++ slashToUnderscore "/out/" ++ "-excludeFile", none) ∧
      "myapp" ++ removeStars (slashToUnderscore ("/" ++ "shops" ++ "/" ++ "FULLSTOCK*"))
          ++ "-" ++ "N" ++ slashToUnderscore "/out/" ++ "-excludeFile"
        = "myapp_shops_FULLSTOCK-N_out_-excludeFile" :=
  ⟨GetExludeFileName_of_dir_and_file "myapp" "5448486d5c" "qjpvq" "user" "host" "share" "shops"
      "FULLSTOCK*" "N" "/out/" (by decide) (by decide) (by decide) (by decide) (by decide)
      (by decide) (by decide) (by decide) (by decide)
      ⟨'s', "hops".data, rfl, by decide, by decide⟩ (by decide) (by decide) (by decide)
      (by decide) (by decide),
    by decide⟩

/-! ## Naming deriver: when it fails -/

theorem podNameRe_isSome_iff (podName : String) :
    (podNameRe podName).isSome = true ↔ podHasHashPair podName := by
  unfold podNameRe podHasHashPair
  rw [Option.isSome_map', findLeftmost_isSome]
  constructor
  · rintro ⟨a, b, hab, hb⟩
    obtain ⟨p, r, hpr, hp, hpn, hr⟩ := (greedyPlus_isSome_iff _ _).mp hb
    obtain ⟨h1, h2, z, hz, hl1, hl2, ha1, hl5, ha2⟩ := (hashSuffix_iff r).mp hr
    exact ⟨a, p, h1, h2, z, by rw [hab, hpr, hz], hp, hpn, hl1, hl2, ha1, hl5, ha2⟩
  · rintro ⟨a, D, h1, h2, z, hd, hD, hDn, hl1, hl2, ha1, hl5, ha2⟩
    refine ⟨a, D ++ '-' :: (h1 ++ '-' :: (h2 ++ z)), hd, ?_⟩
    exact greedyPlus_isSome _ D _ hD hDn
      ((hashSuffix_iff _).mpr ⟨h1, h2, z, rfl, hl1, hl2, ha1, hl5, ha2⟩)

theorem atHostPath_isSome_iff (r : List Char) :
    (atHostPath r).isSome = true ↔
      ∃ h g, r = '@' :: (h ++ g) ∧ h ≠ [] ∧ '\n' ∉ h ∧ pathGroup g = true := by
  unfold atHostPath
  constructor
  · intro hsome
    cases h1 : afterChar '@' r with
    | none => rw [h1] at hsome; exact Bool.noConfusion hsome
    | some r1 =>
      rw [h1] at hsome
      simp only [Option.isSome_map'] at hsome
      obtain ⟨h, g, hs, hh, hn, hg⟩ := (greedyPlus_isSome_iff _ _).mp hsome
      exact ⟨h, g, by rw [(afterChar_eq_some _ _ _).mp h1, hs], hh, hn, hg⟩
  · rintro ⟨h, g, hr, hh, hn, hg⟩
    rw [(afterChar_eq_some _ _ _).mpr hr]
    simp only [Option.isSome_map']
    exact greedyPlus_isSome _ h g hh hn hg

theorem dFromPathAt_isSome_iff (t : List Char) :
    (dFromPathAt t).isSome = true ↔
      ∃ u h g, t = "rsync".data ++ (u ++ '@' :: (h ++ g)) ∧ u ≠ [] ∧ '\n' ∉ u ∧
        h ≠ [] ∧ '\n' ∉ h ∧ pathGroup g = true := by
  unfold dFromPathAt
  constructor
  · intro hsome
    by_cases hp : "rsync".data.isPrefixOf t = true
    · rw [if_pos hp] at hsome
      obtain ⟨t1, ht1⟩ := List.isPrefixOf_iff_prefix.mp hp
      have hdrop : t.drop 5 = t1 := by
        have : "rsync".data.length = 5 := by decide
        rw [← ht1, ← this, List.drop_left]
      rw [hdrop] at hsome
      cases hg : greedyPlus (fun r => (atHostPath r).isSome) t1 with
      | none => rw [hg] at hsome; exact Bool.noConfusion hsome
      | some pr =>
        obtain ⟨u, r⟩ := pr
        obtain ⟨hs, hu, hun, hr⟩ := greedyPlus_sound _ _ u r hg
        obtain ⟨h, g, hrg, hh, hhn, hpg⟩ := (atHostPath_isSome_iff r).mp hr
        exact ⟨u, h, g, by rw [← ht1, hs, hrg], hu, hun, hh, hhn, hpg⟩
    · rw [if_neg hp] at hsome
      exact Bool.noConfusion hsome
  · rintro ⟨u, h, g, ht, hu, hun, hh, hhn, hpg⟩
    have hp : "rsync".data.isPrefixOf t = true := by
      rw [List.isPrefixOf_iff_prefix, ht]
      exact List.prefix_append _ _
    have hdrop : t.drop 5 = u ++ '@' :: (h ++ g) := by
      have : "rsync".data.length = 5 := by decide
      rw [ht, ← this, List.drop_left]
    rw [if_pos hp, hdrop]
    have hrest : (atHostPath ('@' :: (h ++ g))).isSome = true :=
      (atHostPath_isSome_iff _).mpr ⟨h, g, rfl, hh, hhn, hpg⟩
    cases hg : greedyPlus (fun r => (atHostPath r).isSome) (u ++ '@' :: (h ++ g)) with
    | none =>
      have := greedyPlus_none _ _ hg u _ rfl hu hun
      simp only [hrest] at this
      exact Bool.noConfusion this
    | some pr =>
      obtain ⟨p, r⟩ := pr
      exact (greedyPlus_sound _ _ p r hg).2.2.2

theorem dFromPathRe_isSome_iff (dFromPath : String) :
    (dFromPathRe dFromPath).isSome = true ↔ templateHasPath dFromPath := by
  unfold dFromPathRe templateHasPath
  rw [Option.isSome_map', findLeftmost_isSome]
  constructor
  · rintro ⟨a, b, hab, hb⟩
    obtain ⟨u, h, g, hbt, hu, hun, hh, hhn, hpg⟩ := (dFromPathAt_isSome_iff b).mp hb
    obtain ⟨d, x, y, hg, hd, hx, hxn, hy, hyn⟩ := (pathGroup_iff g).mp hpg
    exact ⟨a, u, h, x, y, d, by rw [hab, hbt, hg], hu, hun, hh, hhn, hd, hx, hxn, hy, hyn⟩
  · rintro ⟨a, u, h, x, y, d, ht, hu, hun, hh, hhn, hd, hx, hxn, hy, hyn⟩
    refine ⟨a, _, ht, ?_⟩
    exact (dFromPathAt_isSome_iff _).mpr ⟨u, h, _, rfl, hu, hun, hh, hhn,
      (pathGroup_iff _).mpr ⟨d, x, y, rfl, hd, hx, hxn, hy, hyn⟩⟩

theorem GetExludeFileName_ok_iff (podName standName dFromPath dToPath : String) :
    (GetExludeFileName podName standName dFromPath dToPath).2 = none ↔
      (podNameRe podName).isSome = true ∧ (dFromPathRe dFromPath).isSome = true := by
  unfold GetExludeFileName
  cases h1 : podNameRe podName with
  | none => simp
  | some D =>
    cases h2 : dFromPathRe dFromPath with
    | none => simp
    | some g => simp

/-- C14, as stated, fails: a pod name that goes on after the two hashes does not
end in the two-hash suffix and is accepted, and a template whose host-relative
path starts with capital letters is refused. -/
theorem GetExludeFileName_unanchored :
    GetExludeFileName "myapp-5448486d5c-qjpvqx" "N"
        "rsync://user@host/share/shops/FULLSTOCK*" "/out/"
        = ("myapp_shops_FULLSTOCK-N_out_-excludeFile", none) ∧
      GetExludeFileName "myapp-5448486d5c-qjpvq" "N"
        "rsync://user@host/Share/Shops/FULLSTOCK*" "/out/"
        = ("", some "Couldn't get full OS path on rsyncd server from DOWNLOAD_FROM env variable")
      := by
  decide

/-- C14, amended: `GetExludeFileName` returns no error exactly when the pod
name contains, anywhere, a non-empty text followed by a dash, 8 to 10 lowercase
alphanumerics, a dash and 5 lowercase alphanumerics, and the source template
contains `rsync`, at least one character, `@`, at least one character, and then
up to its end a slash, a lowercase letter, at least one character, a slash and
at least one character; otherwise it returns an error and an empty name, as for
the pod names `23f34f3FR4Fwrf23rf23w` and `some-pod-name-5448486d5c11-qjpvq` and
the templates `rsync23r23r23r` and `rsync://v3534g435g3wllcsv/some-files/*csv`. -/
theorem GetExludeFileName_error_iff (podName standName dFromPath dToPath : String) :
    ((GetExludeFileName podName standName dFromPath dToPath).2 = none ↔
      podHasHashPair podName ∧ templateHasPath dFromPath) ∧
    ((GetExludeFileName podName standName dFromPath dToPath).2 ≠ none →
      (GetExludeFileName podName standName dFromPath dToPath).1 = "") ∧
    GetExludeFileName "23f34f3FR4Fwrf23rf23w" standName
        "rsync://USERNAME@server-name/pullcsv/some-files/*csv" dToPath
      = ("", some "Couldn't get deployment name from env variable POD_NAME") ∧
    GetExludeFileName "some-pod-name-5448486d5c11-qjpvq" standName
        "rsync://USERNAME@server-name/pullcsv/some-files/*csv" dToPath
      = ("", some "Couldn't get deployment name from env variable POD_NAME") ∧
    GetExludeFileName "some-pod-name-12345678-qjpvq" standName "rsync23r23r23r" dToPath
      = ("", some "Couldn't get full OS path on rsyncd server from DOWNLOAD_FROM env variable") ∧
    GetExludeFileName "some-pod-name-123456789-qjpvq" standName
        "rsync://v3534g435g3wllcsv/some-files/*csv" dToPath
      = ("", some "Couldn't get full OS path on rsyncd server from DOWNLOAD_FROM env variable")
    := by
  refine ⟨?_, ?_, ?_, ?_, ?_, ?_⟩
  · rw [GetExludeFileName_ok_iff, podNameRe_isSome_iff, dFromPathRe_isSome_iff]
  · unfold GetExludeFileName
    cases h1 : podNameRe podName with
    | none => intro _; rfl
    | some D =>
      cases h2 : dFromPathRe dFromPath with
      | none => intro _; rfl
      | some g => intro h; exact absurd rfl h
  · have h : podNameRe "23f34f3FR4Fwrf23rf23w" = none := by decide
    unfold GetExludeFileName
    rw [h]
  · have h : podNameRe "some-pod-name-5448486d5c11-qjpvq" = none := by decide
    unfold GetExludeFileName
    rw [h]
  · have h1 : podNameRe "some-pod-name-12345678-qjpvq" = some "some-pod-name" := by decide
    have h2 : dFromPathRe "rsync23r23r23r" = none := by decide
    unfold GetExludeFileName
    rw [h1, h2]
  · have h1 : podNameRe "some-pod-name-123456789-qjpvq" = some "some-pod-name" := by decide
    have h2 : dFromPathRe "rsync://v3534g435g3wllcsv/some-files/*csv" = none := by decide
    unfold GetExludeFileName
    rw [h1, h2]

theorem GetExludeFileName_error_iff_witness :
    (GetExludeFileName "myapp-5448486d5c-qjpvq-0" "N" "rsync://user@host/share/shops/F*"
        "/out/").2 = none ∧
      ¬ podHasHashPair "23f34f3FR4Fwrf23rf23w" :=
  ⟨(GetExludeFileName_error_iff "myapp-5448486d5c-qjpvq-0" "N"
      "rsync://user@host/share/shops/F*" "/out/").1.mpr
      ⟨⟨[], "myapp".data, "5448486d5c".data, "qjpvq".data, "-0".data, by decide, by decide,
          by decide, by decide, by decide, by decide, by decide, by decide⟩,
        ⟨[], "://user".data, "host/share".data, "hops".data, "F*".data, 's', by decide,
          by decide, by decide, by decide, by decide, by decide, by decide, by decide,
          by decide, by decide⟩⟩,
    fun h => Option.noConfusion
      (((GetExludeFileName_error_iff "23f34f3FR4Fwrf23rf23w" "N"
        "rsync://user@host/share/shops/F*" "/out/").1.mpr
        ⟨h, (dFromPathRe_isSome_iff _).mp (by decide)⟩).symm.trans (by decide :
          (GetExludeFileName "23f34f3FR4Fwrf23rf23w" "N"
            "rsync://user@host/share/shops/F*" "/out/").2
          = some "Couldn't get deployment name from env variable POD_NAME"))⟩

/-! ## Naming deriver: pairs with the same name -/

theorem GetExludeFileName_of_some (podName standName dFromPath dToPath D g : String)
    (h1 : podNameRe podName = some D) (h2 : dFromPathRe dFromPath = some g) :
    GetExludeFileName podName standName dFromPath dToPath
      = (D ++ removeStars (slashToUnderscore g) ++ "-" ++ standName
          ++ slashToUnderscore dToPath ++ "-excludeFile", none) := by
  unfold GetExludeFileName
  rw [h1, h2]

theorem name_eq_iff (D N x1 x2 p1 p2 : String) :
    D ++ x1 ++ "-" ++ N ++ p1 ++ "-excludeFile" = D ++ x2 ++ "-" ++ N ++ p2 ++ "-excludeFile"
      ↔ x1.data ++ ("-".data ++ (N.data ++ p1.data))
          = x2.data ++ ("-".data ++ (N.data ++ p2.data)) := by
  have e : ∀ x p : String, (D ++ x ++ "-" ++ N ++ p ++ "-excludeFile").data
      = D.data ++ ((x.data ++ ("-".data ++ (N.data ++ p.data))) ++ "-excludeFile".data) := by
    intro x p
    simp only [String.data_append, List.append_assoc]
  rw [String.ext_iff, e, e]
  constructor
  · intro h
    exact List.append_cancel_right (List.append_cancel_left h)
  · intro h
    rw [h]

/-- C15, as stated, fails: two distinct pairs whose templates differ in the host
only, or in a `*` only, get the same exclude-file name. -/
theorem GetExludeFileName_shared_by_two_pairs :
    ("rsync://user@host1/share/shops/F*", "/out/")
        ≠ ("rsync://user@host2/share/shops/F*", "/out/") ∧
      GetExludeFileName "myapp-5448486d5c-qjpvq" "N" "rsync://user@host1/share/shops/F*" "/out/"
        = ("myapp_shops_F-N_out_-excludeFile", none) ∧
      GetExludeFileName "myapp-5448486d5c-qjpvq" "N" "rsync://user@host2/share/shops/F*" "/out/"
        = ("myapp_shops_F-N_out_-excludeFile", none) ∧
      GetExludeFileName "myapp-5448486d5c-qjpvq" "N" "rsync://user@host1/share/shops/*F" "/out/"
        = ("myapp_shops_F-N_out_-excludeFile", none) := by
  decide

/-- C15, amended: under one fixed `POD_NAME` and `STAND_NAME` the exclude-file
name of a pair depends only on the sub-path extracted from the source template,
with `/` replaced by `_` and `*` removed, and on the destination with `/`
replaced by `_`.  Two pairs for which `GetExludeFileName` succeeds get the same
name when they agree in both sanitized texts, and get different names when they
agree in one of the two and differ in the other. -/
theorem GetExludeFileName_same_name (podName standName t1 t2 p1 p2 : String)
    (h1 : (GetExludeFileName podName standName t1 p1).2 = none)
    (h2 : (GetExludeFileName podName standName t2 p2).2 = none) :
    (sanitizedSubpath t1 = sanitizedSubpath t2 → slashToUnderscore p1 = slashToUnderscore p2 →
      (GetExludeFileName podName standName t1 p1).1
        = (GetExludeFileName podName standName t2 p2).1) ∧
    (slashToUnderscore p1 = slashToUnderscore p2 → sanitizedSubpath t1 ≠ sanitizedSubpath t2 →
      (GetExludeFileName podName standName t1 p1).1
        ≠ (GetExludeFileName podName standName t2 p2).1) ∧
    (sanitizedSubpath t1 = sanitizedSubpath t2 → slashToUnderscore p1 ≠ slashToUnderscore p2 →
      (GetExludeFileName podName standName t1 p1).1
        ≠ (GetExludeFileName podName standName t2 p2).1) := by
  obtain ⟨hp, hg1⟩ := (GetExludeFileName_ok_iff _ _ _ _).mp h1
  obtain ⟨_, hg2⟩ := (GetExludeFileName_ok_iff _ _ _ _).mp h2
  obtain ⟨D, hD⟩ := Option.isSome_iff_exists.mp hp
  obtain ⟨g1, hg1⟩ := Option.isSome_iff_exists.mp hg1
  obtain ⟨g2, hg2⟩ := Option.isSome_iff_exists.mp hg2
  rw [GetExludeFileName_of_some _ _ _ _ D g1 hD hg1,
    GetExludeFileName_of_some _ _ _ _ D g2 hD hg2]
  have hs1 : sanitizedSubpath t1 = some (removeStars (slashToUnderscore g1)) := by
    unfold sanitizedSubpath; rw [hg1]; rfl
  have hs2 : sanitizedSubpath t2 = some (removeStars (slashToUnderscore g2)) := by
    unfold sanitizedSubpath; rw [hg2]; rfl
  rw [hs1, hs2]
  simp only [Option.some.injEq, ne_eq, name_eq_iff]
  refine ⟨?_, ?_, ?_⟩
  · intro hx hpp
    rw [hx, hpp]
  · intro hpp hx hname
    apply hx
    rw [hpp] at hname
    exact String.ext (List.append_cancel_right hname)
  · intro hx hpp hname
    apply hpp
    rw [hx] at hname
    exact String.ext
      (List.append_cancel_left (List.append_cancel_left (List.append_cancel_left hname)))

theorem GetExludeFileName_same_name_witness :
    (GetExludeFileName "myapp-5448486d5c-qjpvq" "N" "rsync://user@host1/share/shops/F*"
        "/out/").1
        = (GetExludeFileName "myapp-5448486d5c-qjpvq" "N" "rsync://user@host2/share/shops/F"
          "_out_").1 ∧
      (GetExludeFileName "myapp-5448486d5c-qjpvq" "N" "rsync://user@host1/share/shops/F*"
        "/out/").1
        ≠ (GetExludeFileName "myapp-5448486d5c-qjpvq" "N"
          "rsync://user@host1/share/shops/F*_TO-DAY_" "/out/").1 :=
  ⟨(GetExludeFileName_same_name "myapp-5448486d5c-qjpvq" "N"
      "rsync://user@host1/share/shops/F*" "rsync://user@host2/share/shops/F" "/out/" "_out_"
      (by decide) (by decide)).1 (by decide) (by decide),
    (GetExludeFileName_same_name "myapp-5448486d5c-qjpvq" "N"
      "rsync://user@host1/share/shops/F*" "rsync://user@host1/share/shops/F*_TO-DAY_"
      "/out/" "/out/" (by decide) (by decide)).2.1 (by decide) (by decide)⟩

/-! ## Truncation with the constants of the sync job -/

/-- C27: with the constants the sync job passes (`tailLines = 20000`,
`maxBytes = 9437184`) and every entry at most 255 bytes long,
`TruncateExcludeFile` succeeds and the exclude list afterwards serializes to at
most `maxBytes` bytes: it is left as it was when it was not larger, and else
at most 20000 lines of at most 256 bytes are kept, at most 5120000 bytes. -/
theorem TruncateExcludeFile_job_constants (lines : List String)
    (h : ∀ x ∈ lines, x.utf8ByteSize ≤ 255) :
    ∃ r, TruncateExcludeFile (some lines) 20000 9437184 = some r ∧
      serializedSize r ≤ 9437184 ∧
      (r = lines ∨ (r.length ≤ 20000 ∧ serializedSize r ≤ 5120000)) := by
  unfold TruncateExcludeFile
  by_cases hs : (serializedSize lines : Int) > 9437184
  · simp only [if_pos hs]
    have h1 : serializedSize (Last 20000 lines) ≤ (Last 20000 lines).length * (255 + 1) := by
      apply serializedSize_le_of_entries_le
      intro x hx
      rw [Last_eq_drop] at hx
      exact h x (List.mem_of_mem_drop hx)
    have h2 : (Last 20000 lines).length ≤ 20000 := by
      rw [Last_length]
      have : (20000 : Int).toNat = 20000 := rfl
      omega
    have h3 : serializedSize (Last 20000 lines) ≤ 5120000 := by omega
    exact ⟨_, rfl, by omega, Or.inr ⟨h2, h3⟩⟩
  · simp only [if_neg hs]
    exact ⟨_, rfl, by omega, Or.inl rfl⟩

theorem TruncateExcludeFile_job_constants_witness :
    ∃ r, TruncateExcludeFile (some ["a.csv", "b.csv"]) 20000 9437184 = some r ∧
      serializedSize r ≤ 9437184 ∧
      (r = ["a.csv", "b.csv"] ∨ (r.length ≤ 20000 ∧ serializedSize r ≤ 5120000)) :=
  TruncateExcludeFile_job_constants ["a.csv", "b.csv"] (by decide)

/-! ## Exit codes of rsync -/

theorem mapLookup_none (code : Int) (l : List (Int × String))
    (h : code ∉ l.map Prod.fst) : mapLookup code l = none := by
  induction l with
  | nil => rfl
  | cons kv rest ih =>
    obtain ⟨k, v⟩ := kv
    simp only [List.map_cons, List.mem_cons, not_or] at h
    simp only [mapLookup]
    rw [if_neg (fun e => h.1 e.symm)]
    exact ih h.2

theorem mapLookup_mem (code : Int) (l : List (Int × String)) (v : String)
    (h : mapLookup code l = some v) : (code, v) ∈ l := by
  induction l with
  | nil => simp [mapLookup] at h
  | cons kv rest ih =>
    obtain ⟨k, w⟩ := kv
    simp only [mapLookup] at h
    split_ifs at h with hk
    · simp only [Option.some.injEq] at h
      rw [hk, h]
      exact List.mem_cons_self _ _
    · exact List.mem_cons_of_mem _ (ih h)

/-- C23: `GetRsyncExitCodeMeaning` is a lookup in a table of 20 codes: it
returns "Success" exactly for the code 0, the listed meaning for each listed
code, and "Unknown" for every integer that is not listed, among them the
negative ones, 27 and 100500. -/
theorem GetRsyncExitCodeMeaning_table (code : Int) :
    (GetRsyncExitCodeMeaning code = "Success" ↔ code = 0) ∧
    codeMeanings.map Prod.fst =
      [0, 1, 2, 3, 4, 5, 6, 10, 11, 12, 13, 14, 20, 21, 22, 23, 24, 25, 30, 35] ∧
    (∀ kv ∈ codeMeanings, GetRsyncExitCodeMeaning kv.1 = kv.2) ∧
    (GetRsyncExitCodeMeaning code = "Unknown" ↔ code ∉ codeMeanings.map Prod.fst) ∧
    (code < 0 → GetRsyncExitCodeMeaning code = "Unknown") ∧
    GetRsyncExitCodeMeaning 27 = "Unknown" ∧ GetRsyncExitCodeMeaning 100500 = "Unknown" := by
  have hkeys : codeMeanings.map Prod.fst =
      [0, 1, 2, 3, 4, 5, 6, 10, 11, 12, 13, 14, 20, 21, 22, 23, 24, 25, 30, 35] := by decide
  have hun : code ∉ codeMeanings.map Prod.fst → GetRsyncExitCodeMeaning code = "Unknown" := by
    intro h
    unfold GetRsyncExitCodeMeaning
    rw [mapLookup_none code _ h]
  have hvals : ∀ kv ∈ codeMeanings, kv.2 ≠ "Unknown" ∧ (kv.2 = "Success" → kv.1 = 0) := by
    decide
  have hall : ∀ kv ∈ codeMeanings, GetRsyncExitCodeMeaning kv.1 = kv.2 := by
    set_option maxRecDepth 8000 in decide
  refine ⟨?_, hkeys, hall, ⟨?_, hun⟩, ?_, by decide, by decide⟩
  · constructor
    · intro h
      unfold GetRsyncExitCodeMeaning at h
      cases hl : mapLookup code codeMeanings with
      | none =>
        rw [hl] at h
        exact absurd h (by decide)
      | some v =>
        rw [hl] at h
        have hm := mapLookup_mem code _ v hl
        exact (hvals _ hm).2 h
    · intro h
      rw [h]
      decide
  · intro h hmem
    unfold GetRsyncExitCodeMeaning at h
    cases hl : mapLookup code codeMeanings with
    | none =>
      exact absurd hl (by
        intro hn
        rw [hkeys] at hmem
        simp only [List.mem_cons, List.mem_singleton, List.not_mem_nil, or_false] at hmem
        rcases hmem with e | e | e | e | e | e | e | e | e | e | e | e | e | e | e | e | e | e | e | e <;>
          (rw [e] at hn; exact absurd hn (by decide)))
    | some v =>
      rw [hl] at h
      have hm := mapLookup_mem code _ v hl
      exact (hvals _ hm).1 h
  · intro hneg
    apply hun
    rw [hkeys]
    simp only [List.mem_cons, List.mem_singleton, List.not_mem_nil, or_false, not_or]
    omega

theorem GetRsyncExitCodeMeaning_table_witness :
    GetRsyncExitCodeMeaning (-3) = "Unknown" :=
  (GetRsyncExitCodeMeaning_table (-3)).2.2.2.2.1 (by decide)

/-! ## Unique destinations -/

theorem GetUniqueSliceLoop_eq (s : List String) :
    ∀ inResult result : List String,
      GetUniqueSliceLoop inResult result s =
        result ++ (firstOccurrences s).filter (fun b => !inResult.contains b) := by
  induction s with
  | nil =>
    intro inResult result
    simp [GetUniqueSliceLoop, firstOccurrences]
  | cons str rest ih =>
    intro inResult result
    simp only [GetUniqueSliceLoop, firstOccurrences]
    by_cases h : inResult.contains str = true
    · rw [if_pos h, ih, List.filter_cons, h]
      simp only [Bool.not_true, Bool.false_eq_true, if_false, List.filter_filter]
      congr 1
      apply List.filter_congr
      intro b _
      by_cases hb : b = str
      · rw [hb, h]; rfl
      · have : (b != str) = true := by simpa using hb
        rw [this, Bool.and_true]
    · rw [if_neg h, ih, List.filter_cons]
      have h2 : inResult.contains str = false := by simpa using h
      simp only [h2, Bool.not_false, if_true, List.filter_filter, List.append_assoc,
        List.singleton_append]
      congr 2
      apply List.filter_congr
      intro b _
      by_cases hb : b = str
      · simp [hb]
      · have h3 : (b != str) = true := by simpa using hb
        simp [List.contains_cons, hb, h3]

theorem GetUniqueSlice_eq (s : List String) : GetUniqueSlice s = firstOccurrences s := by
  unfold GetUniqueSlice
  rw [GetUniqueSliceLoop_eq]
  simp

theorem firstOccurrences_mem (s : List String) (x : String) :
    x ∈ firstOccurrences s ↔ x ∈ s := by
  induction s with
  | nil => simp [firstOccurrences]
  | cons a l ih =>
    simp only [firstOccurrences, List.mem_cons, List.mem_filter, ih, bne_iff_ne, ne_eq]
    by_cases h : x = a
    · simp [h]
    · simp [h]

theorem firstOccurrences_sublist (s : List String) : (firstOccurrences s).Sublist s := by
  induction s with
  | nil => exact List.Sublist.refl _
  | cons a l ih =>
    simp only [firstOccurrences]
    exact ((List.filter_sublist _).trans ih).cons₂ a

theorem firstOccurrences_nodup (s : List String) : (firstOccurrences s).Nodup := by
  induction s with
  | nil => exact List.nodup_nil
  | cons a l ih =>
    simp only [firstOccurrences]
    apply List.nodup_cons.mpr
    refine ⟨?_, ih.filter _⟩
    simp [List.mem_filter]

theorem firstOccurrences_order (s : List String) :
    List.Pairwise (fun x y => s.indexOf x < s.indexOf y) (firstOccurrences s) := by
  induction s with
  | nil => exact List.Pairwise.nil
  | cons a l ih =>
    simp only [firstOccurrences]
    apply List.pairwise_cons.mpr
    constructor
    · intro y hy
      have hya : y ≠ a := by
        have := (List.mem_filter.mp hy).2
        simpa using this
      rw [List.indexOf_cons_self, List.indexOf_cons_ne _ (fun e => hya e.symm)]
      exact Nat.succ_pos _
    · have h1 : List.Pairwise (fun x y => l.indexOf x < l.indexOf y)
          ((firstOccurrences l).filter (fun b => b != a)) := ih.sublist (List.filter_sublist _)
      apply h1.imp_of_mem
      intro x y hx hy hxy
      have hxa : x ≠ a := by
        have := (List.mem_filter.mp hx).2
        simpa using this
      have hya : y ≠ a := by
        have := (List.mem_filter.mp hy).2
        simpa using this
      rw [List.indexOf_cons_ne _ (fun e => hxa e.symm), List.indexOf_cons_ne _ (fun e => hya e.symm)]
      exact Nat.succ_lt_succ hxy

/-- C22: `GetUniqueSlice(s)` is `s` with every occurrence of an element after
its first removed: it has no duplicates, has the same elements as `s`, keeps
them in the order of their first occurrence in `s`, and so holds each distinct
element of `s` once, which is the list the retention jobs are registered
from. -/
theorem GetUniqueSlice_first_occurrences (s : List String) :
    GetUniqueSlice s = firstOccurrences s ∧
    (GetUniqueSlice s).Nodup ∧
    (∀ x, x ∈ GetUniqueSlice s ↔ x ∈ s) ∧
    (GetUniqueSlice s).Sublist s ∧
    List.Pairwise (fun x y => s.indexOf x < s.indexOf y) (GetUniqueSlice s) ∧
    (∀ x, (GetUniqueSlice s).count x = if x ∈ s then 1 else 0) := by
  rw [GetUniqueSlice_eq]
  refine ⟨rfl, firstOccurrences_nodup s, firstOccurrences_mem s, firstOccurrences_sublist s,
    firstOccurrences_order s, ?_⟩
  intro x
  by_cases h : x ∈ s
  · rw [if_pos h]
    exact List.count_eq_one_of_mem (firstOccurrences_nodup s) ((firstOccurrences_mem s x).mpr h)
  · rw [if_neg h]
    exact List.count_eq_zero_of_not_mem (fun hm => h ((firstOccurrences_mem s x).mp hm))

/-! ## Configuration-time duplication: token occurrences -/

theorem countOcc_cons (tok : List Char) (c : Char) (cs : List Char) :
    countOcc tok (c :: cs) = (if tok.isPrefixOf (c :: cs) then 1 else 0) + countOcc tok cs :=
  rfl

theorem InsDash.isPrefixOf (y t v : List Char) (hy : '-' ∉ y) (h : InsDash t v)
    (hv : y.isPrefixOf v = true) : y.isPrefixOf t = true := by
  rw [List.isPrefixOf_iff_prefix] at hv ⊢
  obtain ⟨b, hb⟩ := hv
  rw [← hb] at h
  obtain ⟨b1, hb1⟩ := InsDash.starts_with y b hy t h
  exact ⟨b1, hb1.symm⟩

theorem countOcc_head_le (y : List Char) (hy : '-' ∉ y) (t v : List Char) (h : InsDash t v) :
    (if y.isPrefixOf v then 1 else 0) ≤ (if y.isPrefixOf t then 1 else 0) := by
  by_cases hv : y.isPrefixOf v = true
  · rw [if_pos hv, if_pos (InsDash.isPrefixOf y t v hy h hv)]
  · rw [if_neg hv]
    exact Nat.zero_le _

theorem countOcc_le (y : List Char) (hy : '-' ∉ y) (hne : y ≠ []) (t v : List Char)
    (h : InsDash t v) : countOcc y v ≤ countOcc y t := by
  induction h with
  | nil => exact le_refl _
  | keep c t v h0 ih =>
    rw [countOcc_cons, countOcc_cons]
    exact Nat.add_le_add (countOcc_head_le y hy _ _ (InsDash.keep c t v h0)) ih
  | ins t v h0 ih =>
    rw [countOcc_cons]
    have hp : y.isPrefixOf ('-' :: v) = false := by
      obtain ⟨c, cs, rfl⟩ := List.exists_cons_of_ne_nil hne
      have hc : c ≠ '-' := fun e => hy (e ▸ List.mem_cons_self _ _)
      simp [List.isPrefixOf, hc]
    rw [hp]
    simpa using ih

theorem countOcc_lt (c : Char) (tk nw : List Char) (hy : '-' ∉ c :: tk)
    (hins : InsDash tk nw) (hnp : ∀ x, (c :: tk).isPrefixOf ((c :: nw) ++ x) = false)
    (q q1 : List Char) (hq : InsDash q q1) :
    ∀ p : List Char,
      countOcc (c :: tk) (p ++ ((c :: nw) ++ q1)) < countOcc (c :: tk) (p ++ ((c :: tk) ++ q)) := by
  intro p
  induction p with
  | nil =>
    rw [List.nil_append, List.nil_append, List.cons_append, List.cons_append, countOcc_cons,
      countOcc_cons]
    have h1 : (c :: tk).isPrefixOf (c :: (nw ++ q1)) = false := hnp q1
    have h2 : (c :: tk).isPrefixOf (c :: (tk ++ q)) = true := by
      rw [List.isPrefixOf_iff_prefix]
      exact ⟨q, rfl⟩
    rw [h1, h2]
    have h3 := countOcc_le (c :: tk) hy (List.cons_ne_nil _ _) _ _ (InsDash.append hins hq)
    simp only [Bool.false_eq_true, if_false, if_true]
    omega
  | cons a p ih =>
    show countOcc (c :: tk) (a :: (p ++ ((c :: nw) ++ q1)))
      < countOcc (c :: tk) (a :: (p ++ ((c :: tk) ++ q)))
    rw [countOcc_cons, countOcc_cons]
    have h1 : InsDash (a :: (p ++ ((c :: tk) ++ q))) (a :: (p ++ ((c :: nw) ++ q1))) :=
      InsDash.keep a _ _ (InsDash.append (InsDash.refl p)
        (InsDash.append (InsDash.keep c _ _ hins) hq))
    have h2 := countOcc_head_le (c :: tk) hy _ _ h1
    omega

theorem countOcc_replaceAll_lt (c : Char) (tk nw : List Char) (hy : '-' ∉ c :: tk)
    (hins : InsDash tk nw) (hnp : ∀ x, (c :: tk).isPrefixOf ((c :: nw) ++ x) = false)
    (s : List Char) (h : containsChars (c :: tk) s = true) :
    countOcc (c :: tk) (replaceAllChars (c :: tk) (c :: nw) 0 s) < countOcc (c :: tk) s := by
  obtain ⟨p, q, hs, hfirst⟩ := first_occurrence (c :: tk) s (List.cons_ne_nil _ _) h
  have hr := replaceAllChars_first (c :: tk) (c :: nw) p q (List.cons_ne_nil _ _) hfirst
  have hq : InsDash q (replaceAllChars (c :: tk) (c :: nw) 0 q) :=
    InsDash.replaceAll _ _ (List.cons_ne_nil _ _) (InsDash.keep c _ _ hins) q.length q (le_refl _)
  rw [hs, hr, List.append_assoc, List.append_assoc]
  exact countOcc_lt c tk nw hy hins hnp q _ hq p

theorem countOcc_replaceAll_le (y tok new : List Char) (hy : '-' ∉ y) (hne : y ≠ [])
    (htok : tok ≠ []) (hins : InsDash tok new) (s : List Char) :
    countOcc y (replaceAllChars tok new 0 s) ≤ countOcc y s :=
  countOcc_le y hy hne _ _ (InsDash.replaceAll tok new htok hins s.length s (le_refl _))

theorem tokenOccurrences_today (s : String) (h : Contains s "_TODAY_" = true) :
    tokenOccurrences (ReplaceAll s "_TODAY_" "_TO-DAY_") < tokenOccurrences s := by
  have h1 : countOcc "_TODAY_".data (ReplaceAll s "_TODAY_" "_TO-DAY_").data
      < countOcc "_TODAY_".data s.data :=
    countOcc_replaceAll_lt '_' "TODAY_".data "TO-DAY_".data (by decide)
      (InsDash.keep _ _ _ (InsDash.keep _ _ _ (InsDash.ins _ _
        (InsDash.keep _ _ _ (InsDash.keep _ _ _ (InsDash.keep _ _ _ (InsDash.keep _ _ _
          InsDash.nil)))))))
      (fun x => rfl) s.data h
  have h2 : countOcc "_YESTERDAY_".data (ReplaceAll s "_TODAY_" "_TO-DAY_").data
      ≤ countOcc "_YESTERDAY_".data s.data :=
    countOcc_replaceAll_le _ _ _ (by decide) (by decide) (by decide) InsDash.today s.data
  unfold tokenOccurrences
  omega

theorem tokenOccurrences_yesterday (s : String) (h : Contains s "_YESTERDAY_" = true) :
    tokenOccurrences (ReplaceAll s "_YESTERDAY_" "_YES-TER-DAY_") < tokenOccurrences s := by
  have h1 : countOcc "_YESTERDAY_".data (ReplaceAll s "_YESTERDAY_" "_YES-TER-DAY_").data
      < countOcc "_YESTERDAY_".data s.data :=
    countOcc_replaceAll_lt '_' "YESTERDAY_".data "YES-TER-DAY_".data (by decide)
      (InsDash.keep _ _ _ (InsDash.keep _ _ _ (InsDash.keep _ _ _
        (InsDash.ins _ _ (InsDash.keep _ _ _ (InsDash.keep _ _ _ (InsDash.keep _ _ _
          (InsDash.ins _ _ (InsDash.keep _ _ _ (InsDash.keep _ _ _ (InsDash.keep _ _ _
            (InsDash.keep _ _ _ InsDash.nil))))))))))))
      (fun x => rfl) s.data h
  have h2 : countOcc "_TODAY_".data (ReplaceAll s "_YESTERDAY_" "_YES-TER-DAY_").data
      ≤ countOcc "_TODAY_".data s.data :=
    countOcc_replaceAll_le _ _ _ (by decide) (by decide) (by decide) InsDash.yesterday s.data
  unfold tokenOccurrences
  omega

theorem expansionBound_succ (s : String) :
    expansionBound s + 1 = 2 ^ (tokenOccurrences s + 1) := by
  unfold expansionBound
  have : 0 < 2 ^ (tokenOccurrences s + 1) := Nat.two_pow_pos _
  omega

theorem expansionBound_lt (s v : String) (h : tokenOccurrences v < tokenOccurrences s) :
    2 * (expansionBound v + 1) ≤ expansionBound s + 1 := by
  rw [expansionBound_succ, expansionBound_succ, ← Nat.pow_succ']
  exact Nat.pow_le_pow_right (by decide) (by omega)

/-! ## Configuration-time duplication: the loop ends and keeps the pairs -/

theorem appendVariant_some (tok new : String) (i : Nat) (dFrom dTo d1 t1 : List String)
    (h : appendVariant tok new i dFrom dTo = some (d1, t1)) :
    ∃ s, dFrom[i]? = some s ∧
      d1 = dFrom ++ (if Contains s tok then [ReplaceAll s tok new] else []) ∧
      d1.length + dTo.length = t1.length + dFrom.length := by
  unfold appendVariant at h
  cases hs : dFrom[i]? with
  | none =>
    rw [hs] at h
    exact Option.noConfusion h
  | some s =>
    rw [hs] at h
    refine ⟨s, rfl, ?_⟩
    by_cases hc : Contains s tok = true
    · simp only [hc, if_true] at h ⊢
      cases hd : dTo[i]? with
      | none =>
        rw [hd] at h
        exact Option.noConfusion h
      | some d =>
        rw [hd] at h
        simp only [Option.some.injEq, Prod.mk.injEq] at h
        rw [← h.1, ← h.2]
        simp only [List.length_append, List.length_singleton, true_and]
        omega
    · simp only [hc, if_false] at h ⊢
      simp only [Bool.false_eq_true, if_false, Option.some.injEq, Prod.mk.injEq] at h
      rw [← h.1, ← h.2]
      exact ⟨(List.append_nil _).symm, Nat.add_comm _ _⟩

theorem appendVariant_in_range (tok new : String) (i : Nat) (dFrom dTo : List String)
    (hi : i < dFrom.length) (hlen : dFrom.length ≤ dTo.length) :
    ∃ d1 t1, appendVariant tok new i dFrom dTo = some (d1, t1) := by
  unfold appendVariant
  rw [List.getElem?_eq_getElem hi, List.getElem?_eq_getElem (lt_of_lt_of_le hi hlen)]
  simp only
  split_ifs
  · exact ⟨_, _, rfl⟩
  · exact ⟨_, _, rfl⟩

theorem expansionBound_pos (s : String) : 1 ≤ expansionBound s := by
  have h := expansionBound_succ s
  have h2 : 2 ^ 1 ≤ 2 ^ (tokenOccurrences s + 1) := Nat.pow_le_pow_right (by decide) (by omega)
  omega

theorem variant_sum_today (s : String) :
    2 * (((if Contains s "_TODAY_" then [ReplaceAll s "_TODAY_" "_TO-DAY_"] else []).map
      expansionBound).sum + 1) ≤ expansionBound s + 1 := by
  by_cases h : Contains s "_TODAY_" = true
  · rw [if_pos h]
    have := expansionBound_lt s _ (tokenOccurrences_today s h)
    simpa using this
  · rw [if_neg h]
    have := expansionBound_pos s
    simp only [List.map_nil, List.sum_nil]
    omega

theorem variant_sum_yesterday (s : String) :
    2 * (((if Contains s "_YESTERDAY_" then [ReplaceAll s "_YESTERDAY_" "_YES-TER-DAY_"]
      else []).map expansionBound).sum + 1) ≤ expansionBound s + 1 := by
  by_cases h : Contains s "_YESTERDAY_" = true
  · rw [if_pos h]
    have := expansionBound_lt s _ (tokenOccurrences_yesterday s h)
    simpa using this
  · rw [if_neg h]
    have := expansionBound_pos s
    simp only [List.map_nil, List.sum_nil]
    omega

/-- One round of the loop of `DuplicateEnvs` at an index in range: the entries
still to visit afterwards weigh less than those before, and both slices grew by
the same number of entries. -/
theorem DuplicateEnvs_round (i : Nat) (dFrom dTo d1 t1 d2 t2 : List String)
    (hi : i < dFrom.length)
    (h1 : appendVariant "_TODAY_" "_TO-DAY_" i dFrom dTo = some (d1, t1))
    (h2 : appendVariant "_YESTERDAY_" "_YES-TER-DAY_" i d1 t1 = some (d2, t2)) :
    i + 1 ≤ d2.length ∧ dFrom.length ≤ d2.length ∧
    ((d2.drop (i + 1)).map expansionBound).sum + 1 ≤ ((dFrom.drop i).map expansionBound).sum ∧
    d2.length + dTo.length = t2.length + dFrom.length := by
  obtain ⟨s, hs, hd1, hl1⟩ := appendVariant_some _ _ _ _ _ _ _ h1
  obtain ⟨s1, hs1, hd2, hl2⟩ := appendVariant_some _ _ _ _ _ _ _ h2
  have hss : s1 = s := by
    rw [hd1, List.getElem?_append_left hi, hs] at hs1
    exact (Option.some.inj hs1).symm
  rw [hss] at hd2
  have hdrop : dFrom.drop i = s :: dFrom.drop (i + 1) := by
    rw [List.getElem?_eq_getElem hi] at hs
    rw [← Option.some.inj hs]
    exact List.drop_eq_getElem_cons hi
  have hlen1 : dFrom.length ≤ d1.length := by
    rw [hd1, List.length_append]
    omega
  have hlen2 : d1.length ≤ d2.length := by
    rw [hd2, List.length_append]
    omega
  have hd : d2.drop (i + 1) = dFrom.drop (i + 1) ++
      ((if Contains s "_TODAY_" then [ReplaceAll s "_TODAY_" "_TO-DAY_"] else []) ++
        (if Contains s "_YESTERDAY_" then [ReplaceAll s "_YESTERDAY_" "_YES-TER-DAY_"]
          else [])) := by
    rw [hd2, hd1, List.append_assoc, List.drop_append_of_le_length (by omega)]
  have hT := variant_sum_today s
  have hY := variant_sum_yesterday s
  refine ⟨by omega, by omega, ?_, by omega⟩
  rw [hd, hdrop, List.map_append, List.map_append, List.sum_append, List.sum_append,
    List.map_cons, List.sum_cons]
  omega

theorem DuplicateEnvsLoop_ends :
    ∀ (fuel i : Nat) (dFrom dTo : List String), i ≤ dFrom.length →
      ((dFrom.drop i).map expansionBound).sum < fuel →
      DuplicateEnvsLoop fuel i dFrom dTo ≠ Outcome.outOfFuel ∧
      ∀ a b, DuplicateEnvsLoop fuel i dFrom dTo = Outcome.returned a b →
        dFrom.length ≤ a.length ∧
        a.length ≤ i + ((dFrom.drop i).map expansionBound).sum := by
  intro fuel
  induction fuel with
  | zero =>
    intro i dFrom dTo _ h
    exact absurd h (Nat.not_lt_zero _)
  | succ n ih =>
    intro i dFrom dTo hle hsum
    rw [DuplicateEnvsLoop_succ]
    by_cases hi : i < dFrom.length
    · rw [if_pos hi]
      cases h1 : appendVariant "_TODAY_" "_TO-DAY_" i dFrom dTo with
      | none =>
        exact ⟨fun h => Outcome.noConfusion h, fun a b h => Outcome.noConfusion h⟩
      | some r1 =>
        obtain ⟨d1, t1⟩ := r1
        simp only
        cases h2 : appendVariant "_YESTERDAY_" "_YES-TER-DAY_" i d1 t1 with
        | none =>
          exact ⟨fun h => Outcome.noConfusion h, fun a b h => Outcome.noConfusion h⟩
        | some r2 =>
          obtain ⟨d2, t2⟩ := r2
          simp only
          obtain ⟨hr1, hr2, hr3, _⟩ := DuplicateEnvs_round i dFrom dTo d1 t1 d2 t2 hi h1 h2
          obtain ⟨ih1, ih2⟩ := ih (i + 1) d2 t2 hr1 (by omega)
          refine ⟨ih1, fun a b h => ?_⟩
          obtain ⟨h3, h4⟩ := ih2 a b h
          exact ⟨by omega, by omega⟩
    · rw [if_neg hi]
      refine ⟨fun h => Outcome.noConfusion h, fun a b h => ?_⟩
      simp only [Outcome.returned.injEq] at h
      rw [← h.1]
      exact ⟨le_refl _, by omega⟩

theorem DuplicateEnvsLoop_paired :
    ∀ (fuel i : Nat) (dFrom dTo : List String), dFrom.length ≤ dTo.length →
      DuplicateEnvsLoop fuel i dFrom dTo ≠ Outcome.indexOutOfRange ∧
      ∀ a b, DuplicateEnvsLoop fuel i dFrom dTo = Outcome.returned a b →
        a.length + dTo.length = b.length + dFrom.length := by
  intro fuel
  induction fuel with
  | zero =>
    intro i dFrom dTo _
    exact ⟨fun h => Outcome.noConfusion h, fun a b h => Outcome.noConfusion h⟩
  | succ n ih =>
    intro i dFrom dTo hlen
    rw [DuplicateEnvsLoop_succ]
    by_cases hi : i < dFrom.length
    · rw [if_pos hi]
      obtain ⟨d1, t1, h1⟩ := appendVariant_in_range "_TODAY_" "_TO-DAY_" i dFrom dTo hi hlen
      obtain ⟨s, hs, hd1, hl1⟩ := appendVariant_some _ _ _ _ _ _ _ h1
      have hi1 : i < d1.length := by
        rw [hd1, List.length_append]
        omega
      obtain ⟨d2, t2, h2⟩ := appendVariant_in_range "_YESTERDAY_" "_YES-TER-DAY_" i d1 t1 hi1
        (by omega)
      obtain ⟨_, _, _, hr4⟩ := DuplicateEnvs_round i dFrom dTo d1 t1 d2 t2 hi h1 h2
      rw [h1]
      simp only
      rw [h2]
      simp only
      obtain ⟨ih1, ih2⟩ := ih (i + 1) d2 t2 (by omega)
      refine ⟨ih1, fun a b h => ?_⟩
      have := ih2 a b h
      omega
    · rw [if_neg hi]
      refine ⟨fun h => Outcome.noConfusion h, fun a b h => ?_⟩
      simp only [Outcome.returned.injEq] at h
      rw [← h.1, ← h.2]
      omega

/-- With `duplicateFuel` rounds the loop of `DuplicateEnvs` is not stopped by
the model, whatever the two lists are. -/
theorem DuplicateEnvs_fuel_suffices (dFrom dTo : List String) (fuel : Nat)
    (hf : duplicateFuel dFrom ≤ fuel) :
    DuplicateEnvs fuel dFrom dTo ≠ Outcome.outOfFuel ∧
    ∀ a b, DuplicateEnvs fuel dFrom dTo = Outcome.returned a b →
      dFrom.length ≤ a.length ∧ a.length ≤ (dFrom.map expansionBound).sum := by
  unfold duplicateFuel at hf
  have h := DuplicateEnvsLoop_ends fuel 0 dFrom dTo (Nat.zero_le _)
    (by rw [List.drop_zero]; omega)
  rw [List.drop_zero, Nat.zero_add] at h
  exact h

/-! ## Configuration-time duplication: termination and pairing -/

theorem expansionBound_sum (l : List String) :
    (l.map expansionBound).sum =
      (l.map (fun s => 2 ^ (tokenOccurrences s + 1) - 2)).sum + l.length := by
  induction l with
  | nil => rfl
  | cons s rest ih =>
    simp only [List.map_cons, List.sum_cons, List.length_cons, ih]
    have h1 := expansionBound_succ s
    have h2 := expansionBound_pos s
    omega

theorem Outcome.returned_of_ne (o : Outcome) (h1 : o ≠ Outcome.outOfFuel)
    (h2 : o ≠ Outcome.indexOutOfRange) : ∃ a b, o = Outcome.returned a b := by
  cases o with
  | returned a b => exact ⟨a, b, rfl⟩
  | indexOutOfRange => exact absurd rfl h2
  | outOfFuel => exact absurd rfl h1

/-- C25: for two lists of equal length the loop of `DuplicateEnvs` ends, although
its bound is read again in every round and an appended entry can contain a
token again: one result is returned for every number of rounds from
`duplicateFuel dFrom` on, and the number of entries appended is at most the sum
over the original entries of `2 ^ (k + 1) - 2`, where `k` is the number of
token occurrences in the entry. -/
theorem DuplicateEnvs_terminates (dFrom dTo : List String)
    (h : dFrom.length = dTo.length) :
    ∃ a b, (∀ fuel, duplicateFuel dFrom ≤ fuel →
        DuplicateEnvs fuel dFrom dTo = Outcome.returned a b) ∧
      dFrom.length ≤ a.length ∧
      a.length - dFrom.length
        ≤ (dFrom.map (fun s => 2 ^ (tokenOccurrences s + 1) - 2)).sum := by
  obtain ⟨h1, h2⟩ := DuplicateEnvs_fuel_suffices dFrom dTo (duplicateFuel dFrom) (le_refl _)
  have h3 := (DuplicateEnvsLoop_paired (duplicateFuel dFrom) 0 dFrom dTo (le_of_eq h)).1
  obtain ⟨a, b, hab⟩ := Outcome.returned_of_ne _ h1 h3
  obtain ⟨h4, h5⟩ := h2 a b hab
  rw [expansionBound_sum] at h5
  refine ⟨a, b, ?_, h4, by omega⟩
  intro fuel hf
  obtain ⟨k, rfl⟩ : ∃ k, fuel = duplicateFuel dFrom + k := ⟨fuel - duplicateFuel dFrom, by omega⟩
  exact DuplicateEnvsLoop_more_fuel k _ 0 dFrom dTo a b hab

theorem DuplicateEnvs_terminates_witness :
    ∃ a b, (∀ fuel, duplicateFuel ["F_TODAY_TODAY_.csv", "G_TODAY__YESTERDAY_.csv"] ≤ fuel →
        DuplicateEnvs fuel ["F_TODAY_TODAY_.csv", "G_TODAY__YESTERDAY_.csv"] ["/a/", "/b/"]
          = Outcome.returned a b) ∧
      ["F_TODAY_TODAY_.csv", "G_TODAY__YESTERDAY_.csv"].length ≤ a.length ∧
      a.length - ["F_TODAY_TODAY_.csv", "G_TODAY__YESTERDAY_.csv"].length
        ≤ (["F_TODAY_TODAY_.csv", "G_TODAY__YESTERDAY_.csv"].map
            (fun s => 2 ^ (tokenOccurrences s + 1) - 2)).sum :=
  DuplicateEnvs_terminates ["F_TODAY_TODAY_.csv", "G_TODAY__YESTERDAY_.csv"] ["/a/", "/b/"] rfl

theorem appendVariant_both_or_neither (tok new : String) (i : Nat)
    (dFrom dTo d1 t1 : List String) (h : appendVariant tok new i dFrom dTo = some (d1, t1)) :
    (d1 = dFrom ∧ t1 = dTo) ∨ (d1.length = dFrom.length + 1 ∧ t1.length = dTo.length + 1) := by
  unfold appendVariant at h
  cases hs : dFrom[i]? with
  | none =>
    rw [hs] at h
    exact Option.noConfusion h
  | some s =>
    rw [hs] at h
    by_cases hc : Contains s tok = true
    · simp only [hc, if_true] at h
      cases hd : dTo[i]? with
      | none =>
        rw [hd] at h
        exact Option.noConfusion h
      | some d =>
        rw [hd] at h
        simp only [Option.some.injEq, Prod.mk.injEq] at h
        rw [← h.1, ← h.2]
        exact Or.inr ⟨by simp, by simp⟩
    · simp only [hc] at h
      simp only [Bool.false_eq_true, if_false, Option.some.injEq, Prod.mk.injEq] at h
      exact Or.inl ⟨h.1.symm, h.2.symm⟩

/-- C26: `DuplicateEnvs` keeps the two lists paired.  For lists of equal length
no round indexes a list out of range, the loop returns, and the lists returned
have equal length, so that `dTo[i]` is defined for every index `i` of `dFrom`;
each `if` of the loop body appends to both lists or to neither. -/
theorem DuplicateEnvs_keeps_pairs (dFrom dTo : List String)
    (h : dFrom.length = dTo.length) :
    (∀ fuel, DuplicateEnvs fuel dFrom dTo ≠ Outcome.indexOutOfRange) ∧
    (∃ a b, DuplicateEnvs (duplicateFuel dFrom) dFrom dTo = Outcome.returned a b) ∧
    (∀ fuel a b, DuplicateEnvs fuel dFrom dTo = Outcome.returned a b →
      a.length = b.length ∧ ∀ i, i < a.length → ∃ d, b[i]? = some d) ∧
    (∀ (tok new : String) (i : Nat) (x y d1 t1 : List String),
      appendVariant tok new i x y = some (d1, t1) →
        (d1 = x ∧ t1 = y) ∨ (d1.length = x.length + 1 ∧ t1.length = y.length + 1)) := by
  refine ⟨fun fuel => (DuplicateEnvsLoop_paired fuel 0 dFrom dTo (le_of_eq h)).1, ?_, ?_,
    appendVariant_both_or_neither⟩
  · exact Outcome.returned_of_ne _
      (DuplicateEnvs_fuel_suffices dFrom dTo (duplicateFuel dFrom) (le_refl _)).1
      (DuplicateEnvsLoop_paired (duplicateFuel dFrom) 0 dFrom dTo (le_of_eq h)).1
  · intro fuel a b hab
    have h1 := (DuplicateEnvsLoop_paired fuel 0 dFrom dTo (le_of_eq h)).2 a b hab
    have h2 : a.length = b.length := by omega
    refine ⟨h2, fun i hi => ⟨b[i], ?_⟩⟩
    exact List.getElem?_eq_getElem (h2 ▸ hi)

theorem DuplicateEnvs_keeps_pairs_witness :
    (∀ fuel, DuplicateEnvs fuel ["F_TODAY_TODAY_.csv", "G_YESTERDAY_.csv"] ["/a/", "/b/"]
      ≠ Outcome.indexOutOfRange) ∧
    DuplicateEnvs 6 ["F_TODAY_TODAY_.csv", "G_YESTERDAY_.csv"] ["/a/", "/b/"]
      = Outcome.returned
        ["F_TODAY_TODAY_.csv", "G_YESTERDAY_.csv", "F_TO-DAY_TODAY_.csv", "G_YES-TER-DAY_.csv",
          "F_TO-DAY_TO-DAY_.csv"]
        ["/a/", "/b/", "/a/", "/b/", "/a/"] :=
  ⟨(DuplicateEnvs_keeps_pairs ["F_TODAY_TODAY_.csv", "G_YESTERDAY_.csv"] ["/a/", "/b/"] rfl).1,
    by decide⟩

/-! ## Startup: lists of different length -/

/-- C21, failing input: with `DOWNLOAD_FROM` of two entries, the second with a
token, and `DOWNLOAD_TO` of one entry, every variable set and
`DELETE_OLDER_THAN` digits-only, `PrepareEnv` does not return the error about
the number of items: `DuplicateEnvs`, which runs before the comparison of the
lengths, indexes `dTo` out of range.  Without the token the error is returned. -/
theorem PrepareEnv_index_out_of_range :
    (Fields "rsync://u@h/s/d/a rsync://u@h/s/d/b_TODAY_").length = 2 ∧
    (AddSeparator (fun p => some p) "/x") = some ["/x/"] ∧
    digitsOnly "48" = true ∧
    PrepareEnv (fun p => some p)
        (envWith "rsync://u@h/s/d/a rsync://u@h/s/d/b_TODAY_" "/x")
      = PrepareResult.panicked ∧
    PrepareEnv (fun p => some p) (envWith "rsync://u@h/s/d/a rsync://u@h/s/d/b" "/x")
      = PrepareResult.error "Number of items in DOWNLOAD_FROM and DOWNLOAD_TO must be equal!" ∧
    PrepareEnv (fun p => some p) (envWith "rsync://u@h/s/d/a rsync://u@h/s/d/b_TODAY_" "/x /y")
      = PrepareResult.returned
          ["rsync://u@h/s/d/a", "rsync://u@h/s/d/b_TODAY_", "rsync://u@h/s/d/b_TO-DAY_"]
          ["/x/", "/y/", "/y/"] "dev25" "some-pod-name-5448486d5c-qjpvq" := by
  decide

/-! ## Registration: the remote path of the exclude file -/

/-- C28, failing input: for a template whose host name has a dot,
`GetExludeFileName` returns a name without error, the host pattern of the
registration loop finds no match, and the remote path is the bare relative
path `pullcsv-exclude-files/<name>`; for the host `server-name` it starts with
the host prefix of the template. -/
theorem excludeFilePaths_bare_relative_path :
    GetExludeFileName "myapp-5448486d5c-qjpvq" "N"
        "rsync://user@host.example.com/share/shops/FULLSTOCK*" "/out/"
      = ("myapp_shops_FULLSTOCK-N_out_-excludeFile", none) ∧
    hostPrefix "rsync://user@host.example.com/share/shops/FULLSTOCK*" = "" ∧
    excludeFilePaths "myapp-5448486d5c-qjpvq" "N"
        "rsync://user@host.example.com/share/shops/FULLSTOCK*" "/out/"
      = some ("pullcsv-exclude-files/myapp_shops_FULLSTOCK-N_out_-excludeFile",
          "/tmp/myapp_shops_FULLSTOCK-N_out_-excludeFile") ∧
    excludeFilePaths "myapp-5448486d5c-qjpvq" "N"
        "rsync://user@10.0.0.1/share/shops/FULLSTOCK*" "/out/"
      = some ("pullcsv-exclude-files/myapp_shops_FULLSTOCK-N_out_-excludeFile",
          "/tmp/myapp_shops_FULLSTOCK-N_out_-excludeFile") ∧
    excludeFilePaths "myapp-5448486d5c-qjpvq" "N"
        "rsync://USERNAME@server-name/share/shops/FULLSTOCK*" "/out/"
      = some ("rsync://USERNAME@server-name/pullcsv-exclude-files/myapp_shops_FULLSTOCK-N_out_-excludeFile",
          "/tmp/myapp_shops_FULLSTOCK-N_out_-excludeFile") := by
  decide

/-! ## Startup: when the comparison of the lengths is reached -/

/-- The model of `PrepareEnv` is never stopped for lack of rounds. -/
theorem PrepareEnv_not_stopped (abs : String → Option String) (env : String → Option String) :
    PrepareEnv abs env ≠ PrepareResult.outOfFuel := by
  unfold PrepareEnv
  split
  · exact fun h => PrepareResult.noConfusion h
  · split_ifs
    · exact fun h => PrepareResult.noConfusion h
    · simp only
      split
      · rename_i h
        exact absurd h (DuplicateEnvs_fuel_suffices _ _ _ (le_refl _)).1
      · exact fun h => PrepareResult.noConfusion h
      · split_ifs
        · exact fun h => PrepareResult.noConfusion h
        · exact fun h => PrepareResult.noConfusion h

/-- When every required variable is set, `DELETE_OLDER_THAN` is digits-only and
`DOWNLOAD_FROM` has at most as many entries as `DOWNLOAD_TO`, `PrepareEnv`
returns the error about the number of items if the numbers differ and the
expanded lists, of equal length, if they are equal. -/
theorem PrepareEnv_of_le (abs : String → Option String) (env env1 : String → Option String)
    (h1 : checkEnvVars env ["DOWNLOAD_FROM", "DOWNLOAD_TO", "DOWNLOAD_CRON", "DELETE_CRON",
      "DELETE_OLDER_THAN", "RSYNC_PASSWORD", "POD_NAME", "STAND_NAME"] = Sum.inl env1)
    (h2 : digitsOnly ((env1 "DELETE_OLDER_THAN").getD "") = true)
    (hle : (Fields ((env1 "DOWNLOAD_FROM").getD "")).length
      ≤ ((AddSeparator abs ((env1 "DOWNLOAD_TO").getD "")).getD []).length) :
    ((Fields ((env1 "DOWNLOAD_FROM").getD "")).length
        ≠ ((AddSeparator abs ((env1 "DOWNLOAD_TO").getD "")).getD []).length →
      PrepareEnv abs env = PrepareResult.error
        "Number of items in DOWNLOAD_FROM and DOWNLOAD_TO must be equal!") ∧
    ((Fields ((env1 "DOWNLOAD_FROM").getD "")).length
        = ((AddSeparator abs ((env1 "DOWNLOAD_TO").getD "")).getD []).length →
      ∃ a b, PrepareEnv abs env = PrepareResult.returned a b
          ((env1 "STAND_NAME").getD "") ((env1 "POD_NAME").getD "") ∧
        a.length = b.length) := by
  obtain ⟨a, b, hab⟩ := Outcome.returned_of_ne _
    (DuplicateEnvs_fuel_suffices (Fields ((env1 "DOWNLOAD_FROM").getD ""))
      ((AddSeparator abs ((env1 "DOWNLOAD_TO").getD "")).getD []) _ (le_refl _)).1
    (DuplicateEnvsLoop_paired (duplicateFuel (Fields ((env1 "DOWNLOAD_FROM").getD ""))) 0
      (Fields ((env1 "DOWNLOAD_FROM").getD ""))
      ((AddSeparator abs ((env1 "DOWNLOAD_TO").getD "")).getD []) hle).1
  have hp := (DuplicateEnvsLoop_paired _ 0 _ _ hle).2 a b hab
  have hE : PrepareEnv abs env =
      if a.length ≠ b.length then
        PrepareResult.error "Number of items in DOWNLOAD_FROM and DOWNLOAD_TO must be equal!"
      else PrepareResult.returned a b ((env1 "STAND_NAME").getD "")
        ((env1 "POD_NAME").getD "") := by
    unfold PrepareEnv
    rw [h1]
    simp only [h2, Bool.not_true, Bool.false_eq_true, if_false]
    rw [hab]
  constructor
  · intro hne
    rw [hE, if_pos (by omega)]
  · intro heq
    have : a.length = b.length := by omega
    exact ⟨a, b, by rw [hE, if_neg (by simpa using this)], this⟩

end Pullcsv
